import Mathlib

/-!
# Verification of the changelog engine (wiiznokes/changelog)

A shallow embedding, in Lean 4, of the three source files of the repository:

* `src/change_log.rs` — the raw changelog parser (`parse_change_log`,
  `Release::new`, the four classifying regexes);
* `changelog_document/src/ser.rs` — the document serializer
  (`serialize_changelog`, `serialize_release`, `serialize_release_section_note`);
* `src/release_note_generation.rs` — the note merge engine
  (`gen_release_notes`' per-commit step, `get_release_note`,
  `insert_release_note`, `commit_should_be_ignored`).

Strings handled by the parser are embedded as `List Char` (`Str` below); the
serializer and the merge engine, which build strings by concatenation, are
embedded over Lean's `String`.  Rust byte indices become character indices
(all the delimiters involved are ASCII).  Rust panics and `bail!` errors
become `Except` errors.  `IndexMap` becomes an ordered association list whose
`insert` replaces the value in place when the key is present and appends
otherwise, which is `IndexMap`'s documented behaviour.
-/

/-! ## Character-list strings and generic helpers -/

/-- Parser-side strings: a list of characters.  Rust `&str` slices of the
input are embedded as sublists. -/
abbrev Str := List Char

/-- Whitespace, as used by `str::trim`: `char::is_whitespace`, i.e. the
Unicode `White_Space` property. -/
def isWS (c : Char) : Bool :=
  (0x9 ≤ c.toNat && c.toNat ≤ 0xD) || c.toNat = 0x20 || c.toNat = 0x85 ||
  c.toNat = 0xA0 || c.toNat = 0x1680 ||
  (0x2000 ≤ c.toNat && c.toNat ≤ 0x200A) || c.toNat = 0x2028 ||
  c.toNat = 0x2029 || c.toNat = 0x202F || c.toNat = 0x205F ||
  c.toNat = 0x3000

/-- `str::trim_start`. -/
def trimLeft (s : Str) : Str := s.dropWhile isWS

/-- `str::trim_end`. -/
def trimRight (s : Str) : Str := (s.reverse.dropWhile isWS).reverse

/-- `str::trim`. -/
def trim (s : Str) : Str := trimRight (trimLeft s)

/-- Number of bytes of the UTF-8 encoding of a character (Rust `&str` is
UTF-8, and its slices are byte-indexed). -/
def utf8Len (c : Char) : Nat :=
  if c.toNat < 0x80 then 1
  else if c.toNat < 0x800 then 2
  else if c.toNat < 0x10000 then 3
  else 4

/-- The Rust byte slice `s[n..]` on a character-list string: drops whole
characters while their UTF-8 widths consume the byte budget, and fails
(Rust: panics) when byte `n` falls inside a character or past the end. -/
def byteDrop : Nat → Str → Option Str
  | 0, s => some s
  | _ + 1, [] => none
  | n + 1, c :: rest =>
    if utf8Len c ≤ n + 1 then byteDrop (n + 1 - utf8Len c) rest else none

/-- `str::split_inclusive('\n')`: cut after every newline, keeping the
newline with its chunk; a last chunk without a newline is kept as is; the
empty string yields no chunks. -/
def splitInclusive : Str → List Str
  | [] => []
  | c :: rest =>
    if c = '\n' then ['\n'] :: splitInclusive rest
    else
      match splitInclusive rest with
      | [] => [[c]]
      | l :: ls => (c :: l) :: ls

/-- `str::find(pat)`: index of the first occurrence of `pat` as a substring. -/
def findSubstr (s pat : Str) : Option Nat :=
  if pat.isPrefixOf s then some 0
  else
    match s with
    | [] => none
    | _ :: t => (findSubstr t pat).map (· + 1)

/-- `str::contains(pat)` for a string pattern. -/
def containsSubstr (s pat : Str) : Bool := (findSubstr s pat).isSome

/-- `memchr::memchr`: index of the first occurrence of a character. -/
def idxOf (s : Str) (c : Char) : Option Nat :=
  match s with
  | [] => none
  | x :: t => if x = c then some 0 else (idxOf t c).map (· + 1)

/-- Rust slicing `s[a..b]` (indices assumed in range, which the proofs
establish where it matters). -/
def sliceStr (s : Str) (a b : Nat) : Str := (s.drop a).take (b - a)

/-! ## The four classifying patterns of `change_log.rs`

The regexes are embedded by their matching semantics (`.` does not match a
newline, matches are unanchored substring searches, capture groups are
greedy). -/

/-- Does `]:` stand at the very start? -/
def abHead : Str → Bool
  | ']' :: ':' :: _ => true
  | _ => false

/-- Does a newline stand at the very start? -/
def abStop : Str → Bool
  | '\n' :: _ => true
  | _ => false

/-- Helper for `FOOTER_REGEX`: after a `[` has been seen, look for a `]`
immediately followed by `:`, without crossing a newline. -/
def afterBracket (s : Str) : Bool :=
  match s with
  | [] => false
  | _ :: rest => if abHead s then true else if abStop s then false else afterBracket rest

/-- Does `FOOTER_REGEX` match at the very start: `[` here, with `]:` later
on the same line? -/
def footerHeadMatch : Str → Bool
  | '[' :: rest => afterBracket rest
  | _ => false

/-- `FOOTER_REGEX = \[.*\]:` — is there a `[`, then later on the same line a
`]` immediately followed by `:`? -/
def footerMatch (l : Str) : Bool :=
  match l with
  | [] => false
  | _ :: rest => footerHeadMatch l || footerMatch rest

/-- Not a newline. -/
def notNl (c : Char) : Bool := c ≠ '\n'

/-- Does a `]` occur before the next newline? (`\](?: - (.*))?` tail test of
`RELEASE_TITLE_REGEX` reduced to its mandatory part.) -/
def closesBracket (s : Str) : Bool :=
  (s.takeWhile notNl).contains ']'

/-- Does `RELEASE_TITLE_REGEX` match at the very start: `## [` here, with a
`]` later on the same line? -/
def relHeadMatch : Str → Bool
  | '#' :: '#' :: ' ' :: '[' :: rest => closesBracket rest
  | _ => false

/-- `RELEASE_TITLE_REGEX = ## \[(.*)\](?: - (.*))?` — matching test: an
occurrence of `## [` with a `]` later on the same line. -/
def relMatch (l : Str) : Bool :=
  match l with
  | [] => false
  | _ :: rest => relHeadMatch l || relMatch rest

/-- `RELEASE_SECTION_TITLE_REGEX = ### .*` — an occurrence of `### `. -/
def secMatch (s : Str) : Bool := containsSubstr s ("### ".toList)

/-- Index of the last `]` of a list, if any. -/
def lastBracketIdx (s : Str) : Option Nat :=
  (idxOf s.reverse ']').map (fun i => s.length - 1 - i)

/-- Capture groups of `RELEASE_TITLE_REGEX` at a given match start: the body
scanned by `(.*)\](?: - (.*))?` runs to the end of the line; `(.*)` being
greedy, group 1 ends at the last `]` of the line and group 2 is present
exactly when the text right after that `]` starts with `" - "`. -/
def relCapturesAt (rest : Str) : Option (Str × Option Str) :=
  let body := rest.takeWhile notNl
  match lastBracketIdx body with
  | none => none
  | some i =>
    let g1 := body.take i
    let after := body.drop (i + 1)
    let g2 := if (" - ".toList).isPrefixOf after then some (after.drop 3) else none
    some (g1, g2)

/-- Capture groups of `RELEASE_TITLE_REGEX` when `## [` stands at the very
start. -/
def relCapturesHead : Str → Option (Str × Option Str)
  | '#' :: '#' :: ' ' :: '[' :: rest => relCapturesAt rest
  | _ => none

/-- Capture groups of `RELEASE_TITLE_REGEX` on a whole line: the regex engine
takes the leftmost occurrence of `## [` from which the mandatory `]` can be
found on the same line. -/
def relCaptures (l : Str) : Option (Str × Option Str) :=
  match l with
  | [] => none
  | _ :: rest =>
    match relCapturesHead l with
    | some r => some r
    | none => relCaptures rest

/-- Line classification order of `Release::new`: the release-title pattern is
tested first, then the section-title pattern. -/
inductive LineClass where
  | releaseTitle
  | sectionTitle
  | other
deriving DecidableEq, Repr

/-- The `if/else if` chain at the top of `Release::new`'s loop. -/
def lineClass (line : Str) : LineClass :=
  if relMatch line then .releaseTitle
  else if secMatch line then .sectionTitle
  else .other

/-! ## The document model of `changelog_document` and its serializer (`ser.rs`)

The struct declarations live in the crate's `lib.rs`, which is not among the
source files; the fields below are the ones `ser.rs` and
`release_note_generation.rs` use, with the shapes the specification's data
model gives them (§3).  `IndexMap`-valued fields become lists whose key is
the `title`/`version` field of the element. -/

structure FootLink where
  text : String
  link : String
deriving DecidableEq, Repr

structure FootLinks where
  links : List FootLink
deriving DecidableEq, Repr

structure ReleaseSectionNote where
  scope : Option String
  message : String
  context : List String
deriving DecidableEq, Repr

structure ReleaseSection where
  title : String
  notes : List ReleaseSectionNote
deriving DecidableEq, Repr

structure ReleaseTitle where
  version : String
  title : Option String
deriving DecidableEq, Repr

structure Release where
  title : ReleaseTitle
  header : Option String
  note_sections : List ReleaseSection
  footer : Option String
deriving DecidableEq, Repr

structure ChangeLog where
  header : Option String
  releases : List Release
  footer_links : FootLinks
deriving DecidableEq, Repr

structure ChangeLogSerOptionRelease where
  section_order : List String
  serialise_title : Bool
deriving DecidableEq, Repr

def ChangeLogSerOptionRelease.default : ChangeLogSerOptionRelease :=
  { section_order := [], serialise_title := true }

structure ChangeLogSerOption where
  release_option : ChangeLogSerOptionRelease
deriving DecidableEq, Repr

def ChangeLogSerOption.default : ChangeLogSerOption :=
  { release_option := ChangeLogSerOptionRelease.default }

/-- `ser.rs::serialize_release_section_note`. -/
def serialize_release_section_note (s : String) (note : ReleaseSectionNote) : String :=
  let note_title :=
    match note.scope with
    | some scope => "- " ++ scope ++ ": " ++ note.message ++ "\n"
    | none => "- " ++ note.message ++ "\n"
  note.context.foldl (fun s context => s ++ "  " ++ context ++ "\n") (s ++ note_title)

/-- `IndexMap::shift_remove` on a title-keyed section list: remove the first
element with the given title, keeping the order of the others. -/
def shiftRemoveSection : List ReleaseSection → String → Option (ReleaseSection × List ReleaseSection)
  | [], _ => none
  | s :: rest, t =>
    if s.title = t then some (s, rest)
    else
      match shiftRemoveSection rest t with
      | some (r, rest') => some (r, s :: rest')
      | none => none

/-- The `note_section_sorted` block of `ser.rs::serialize_release`: the
sections named by `section_order` are pulled out first, in that order, and
the sections still left follow in their original order. -/
def nssStep (acc : List ReleaseSection × List ReleaseSection) (t : String) :
    List ReleaseSection × List ReleaseSection :=
  match shiftRemoveSection acc.2 t with
  | some (sec, rest) => (acc.1 ++ [sec], rest)
  | none => acc

def noteSectionSorted (sections : List ReleaseSection) (order : List String) : List ReleaseSection :=
  let r := order.foldl nssStep ([], sections)
  r.1 ++ r.2

/-- `ser.rs::serialize_release`. -/
def serialize_release (s : String) (release : Release) (options : ChangeLogSerOptionRelease) : String :=
  let title :=
    match release.title.title with
    | some title => "\n## [" ++ release.title.version ++ "] - " ++ title ++ "\n"
    | none => "\n## [" ++ release.title.version ++ "]\n"
  let s := s ++ title
  let s :=
    match release.header with
    | some header => s ++ "\n" ++ header ++ "\n"
    | none => s
  let note_section_sorted := noteSectionSorted release.note_sections options.section_order
  let s := note_section_sorted.foldl
    (fun s sections =>
      sections.notes.foldl
        (fun s note => serialize_release_section_note s note)
        (s ++ "\n### " ++ sections.title ++ "\n\n"))
    s
  match release.footer with
  | some footer => s ++ "\n" ++ footer ++ "\n"
  | none => s

/-- `ser.rs::serialize_changelog`. -/
def serialize_changelog (changelog : ChangeLog) (options : ChangeLogSerOption) : String :=
  let s :=
    match changelog.header with
    | some header => header ++ "\n"
    | none => ""
  let s := changelog.releases.foldl
    (fun s release => serialize_release s release options.release_option) s
  let s := if changelog.footer_links.links.isEmpty then s else s ++ "\n"
  changelog.footer_links.links.foldl
    (fun s footer_link => s ++ "[" ++ footer_link.text ++ "]: " ++ footer_link.link ++ "\n") s

/-! ## The note merge engine (`release_note_generation.rs`)

The commit classifier (`commit_parser::parse_commit`), the section mapping
policy (`config::MapMessageToSection`) and the PR provider are collaborators
outside the source files; the spec treats them as black boxes (§1, §6), so
they enter the embedding as parameters: a classifying function and a
structure of two lookup functions. -/

structure RawCommit where
  message : String
  desc : String
  sha : String
  list_files : List String
deriving DecidableEq, Repr

/-- Output of the external conventional-commit classifier (§3). -/
structure Commit where
  «section» : String
  scope : Option String
  message : String
deriving DecidableEq, Repr

/-- PR record from the provider; the fields `get_release_note` reads. -/
structure RelatedPr where
  pr_id : String
  url : String
  author : String
  author_link : String
deriving DecidableEq, Repr

/-- `config::CommitMessageParsing` (missing file); `get_release_note` only
ever compares it with `Strict`. -/
inductive CommitMessageParsing where
  | smart
  | strict
deriving DecidableEq, Repr

/-- Modelled from the spec: the section-mapping policy collaborator (§6):
`mapSection` maps a raw section label to a canonical title,
`findSectionByPattern` searches message and description for a pattern of the
mapping table. -/
structure MapMessageToSection where
  map_section : String → Option String
  try_find_section : String × String → Option String

structure GenerateReleaseNoteOptions where
  changelog_path : String
  parsing : CommitMessageParsing
  exclude_unidentified : Bool
  exclude_not_pr : Bool
  omit_pr_link : Bool
  omit_thanks : Bool
  map : MapMessageToSection

/-- `release_note_generation.rs::Response`. -/
inductive Response where
  | yes (reason : String)
  | no
deriving DecidableEq, Repr

def Response.isYes : Response → Bool
  | .yes _ => true
  | .no => false

/-- `String::contains` for the merge engine's pattern checks. -/
def containsStr (s pat : String) : Bool := containsSubstr s.toList pat.toList

/-- The names-times-shapes pattern table of `commit_should_be_ignored`,
flattened in loop order. -/
def ignorePatterns : List String :=
  (["changelog", "log", "chglog", "notes"].map fun n =>
    ["(skip " ++ n ++ ")", "(ignore " ++ n ++ ")", "!" ++ n]).flatten

/-- `release_note_generation.rs::commit_should_be_ignored`. -/
def commit_should_be_ignored (raw : RawCommit) (changelog_path : String) : Response :=
  if raw.list_files.any (fun path => path = changelog_path) then
    .yes "The changelog was modified in this commit."
  else
    match ignorePatterns.find? (fun pat => containsStr raw.message pat || containsStr raw.desc pat) with
    | some pattern =>
      .yes ("The pattern \"" ++ pattern ++ "\" was matched in the commit message or description.")
    | none => .no

/-- `release_note_generation.rs::get_release_note`, with the external
classifier as the `parse_commit` parameter. -/
def get_release_note (parse_commit : String → Except String Commit)
    (raw_commit : RawCommit) (related_pr : Option RelatedPr)
    (options : GenerateReleaseNoteOptions) :
    Except String (Option (String × ReleaseSectionNote)) := do
  match commit_should_be_ignored raw_commit options.changelog_path with
  | .yes _ => return none
  | .no =>
  let commit ←
    match parse_commit raw_commit.message with
    | .ok commit => do
      let «section» ←
        match options.map.map_section commit.«section» with
        | some «section» => pure «section»
        | none =>
          if options.parsing = .strict then
            throw ("No commit type found for this: " ++ commit.«section»)
          else
            match options.map.try_find_section (raw_commit.message, raw_commit.desc) with
            | some «section» => pure «section»
            | none =>
              if options.exclude_unidentified then
                throw "Unidentified commit type"
              else
                pure "Unidentified"
      pure { commit with «section» := «section» }
    | .error e => do
      if options.parsing = .strict then
        throw ("invalid commit syntax: " ++ e)
      else
        let «section» ←
          match options.map.try_find_section (raw_commit.message, raw_commit.desc) with
          | some «section» => pure «section»
          | none =>
            if options.exclude_unidentified then
              throw "Unidentified commit type"
            else
              pure "Unidentified"
        pure { «section» := «section», scope := none, message := raw_commit.message }
  let commit ←
    match related_pr with
    | some related_pr =>
      let commit :=
        if !options.omit_pr_link then
          { commit with message :=
              commit.message ++ " in [" ++ related_pr.pr_id ++ "](" ++ related_pr.url ++ ")" }
        else commit
      let commit :=
        if !options.omit_thanks then
          { commit with message :=
              commit.message ++ " by [@" ++ related_pr.author ++ "](" ++ related_pr.author_link ++ ")" }
        else commit
      pure commit
    | none =>
      if options.exclude_not_pr then
        throw ("Error: No upstream pr was found for " ++ raw_commit.sha ++ ".")
      else
        pure commit
  return some (commit.«section»,
    { scope := commit.scope, message := commit.message, context := [] })

/-- `release_note_generation.rs::insert_release_note`: find or create the
section keyed by the title, then push the note at its end (`IndexMap`
`get_mut`/`insert` on the title key). -/
def pushNote (section_title : String) (release_note : ReleaseSectionNote) :
    List ReleaseSection → List ReleaseSection
  | [] => []
  | s :: rest =>
    if s.title = section_title then { s with notes := s.notes ++ [release_note] } :: rest
    else s :: pushNote section_title release_note rest

def insert_release_note (unreleased : Release) (section_title : String)
    (release_note : ReleaseSectionNote) : Release :=
  let sections :=
    if unreleased.note_sections.any (fun s => s.title = section_title) then
      unreleased.note_sections
    else
      unreleased.note_sections ++ [{ title := section_title, notes := [] }]
  { unreleased with note_sections := pushNote section_title release_note sections }

/-- The per-commit step of `gen_release_notes`' batch loops: insert on
`Ok(Some(..))`, leave the release alone on `Ok(None)` (skip) and on `Err`
(the caller only logs). -/
def processCommit (parse_commit : String → Except String Commit)
    (unreleased : Release) (raw_commit : RawCommit) (related_pr : Option RelatedPr)
    (options : GenerateReleaseNoteOptions) : Release :=
  match get_release_note parse_commit raw_commit related_pr options with
  | .ok (some (section_title, release_note)) =>
    insert_release_note unreleased section_title release_note
  | .ok none => unreleased
  | .error _ => unreleased

/-! ## The raw changelog parser (`src/change_log.rs`)

`parse_change_log` and `Release::new` work on borrowed slices of the input;
the embedding works on `Str` with explicit positions, exactly following the
source's `pos`/`start`/`end` byte bookkeeping (at character granularity).
The source's panics become errors of `ParseErr`; `ParseErr.captureUnwrap`
and `ParseErr.memchrUnwrap` stand for `unwrap`s the totality theorem shows
unreachable, and `ParseErr.fuelExhausted` for the `while let` loop, run here
on a fuel the totality theorem shows sufficient. -/

inductive ParseErr where
  /-- `.expect("no '## [Unreleased]' found")` in `parse_change_log`. -/
  | noUnreleased
  /-- The slice `line[start + 1..end]` of the footer-link text panics when
  the first `]` of the line comes before its first `[`. -/
  | footerSlice
  /-- `memchr(..).unwrap()` on a line matched by `FOOTER_REGEX`. -/
  | memchrUnwrap
  /-- `panic!("release section .. found before a release title")`. -/
  | sectionBeforeTitle (line : Str)
  /-- `RELEASE_TITLE_REGEX.captures(line).unwrap()` / `version.unwrap()`. -/
  | captureUnwrap
  /-- The byte slice `line["### ".len()..]` in the section-title branch of
  `Release::new` panics when byte 4 of the line is not a char boundary. -/
  | sectionSlice
  /-- Fuel of the `while let` release loop ran out. -/
  | fuelExhausted
deriving DecidableEq, Repr

structure FootLink0 where
  text : Str
  link : Str
deriving DecidableEq, Repr

/-- `change_log.rs::Release`: notes are an ordered map, section title to
trimmed body text. -/
structure Release0 where
  version : Str
  title : Option Str
  notes : List (Str × Str)
deriving DecidableEq, Repr

/-- `change_log.rs::Changelog`. -/
structure Changelog0 where
  header : Str
  releases : List (Str × Release0)
  foot_links : List FootLink0
deriving DecidableEq, Repr

/-- `IndexMap::insert`: replace in place when the key is present, append
otherwise. -/
def insertIndexMap {α β : Type} [DecidableEq α] : List (α × β) → α → β → List (α × β)
  | [], k, v => [(k, v)]
  | (k', v') :: rest, k, v =>
    if k' = k then (k', v) :: rest else (k', v') :: insertIndexMap rest k v

/-- Lines 18–29 of `parse_change_log`: extract the text between the first
`[` and the first `]` and the link after the first `:` of a footer line. -/
def extractFootLink (line : Str) : Except ParseErr FootLink0 :=
  match idxOf line '[', idxOf line ']' with
  | some start, some stop =>
    if stop < start + 1 then throw .footerSlice
    else
      let text := trim (sliceStr line (start + 1) stop)
      match idxOf line ':' with
      | some colon => pure { text := text, link := trim (line.drop (colon + 1)) }
      | none => throw .memchrUnwrap
  | _, _ => throw .memchrUnwrap

/-- The backward footer loop of `parse_change_log` (lines 16–37), fed the
reversed line list; returns the collected links in iteration order (last
document line first) and the total length of the matched lines. -/
def footerScan : List Str → Except ParseErr (List FootLink0 × Nat)
  | [] => .ok ([], 0)
  | line :: rest =>
    if footerMatch line then
      match extractFootLink line with
      | .error e => .error e
      | .ok fl =>
        match footerScan rest with
        | .error e => .error e
        | .ok (fls, offset) => .ok (fl :: fls, offset + line.length)
    else .ok ([], 0)

/-- `Release::new`'s `State`. -/
inductive RState where
  | init
  | title
  | «section» (title : Str) (start : Nat) (stop : Nat)
deriving DecidableEq, Repr

/-- The `match state` after `Release::new`'s loop: `Init` means no release,
otherwise close a pending section and build the release from the
accumulated `version`/`title`/`notes`, reporting how far the text was
consumed. -/
def releaseClose (text : Str) (state : RState) (version : Option Str)
    (title : Option Str) (notes : List (Str × Str)) (pos : Nat) :
    Except ParseErr (Option (Release0 × Nat)) :=
  match state with
  | .init => pure none
  | .title =>
    match version with
    | some v => pure (some ({ version := v, title := title, notes := notes }, pos))
    | none => throw .captureUnwrap
  | .«section» t start stop =>
    match version with
    | some v =>
      pure (some ({ version := v, title := title,
                    notes := insertIndexMap notes t (trim (sliceStr text start stop)) }, pos))
    | none => throw .captureUnwrap

/-- The line loop of `Release::new`.  A `break` of the source becomes a call
to `releaseClose` (for the `Section` break, with the section already
inserted, so that the close inserts it a second time exactly as the source
does). -/
def releaseNewLoop (text : Str) : List Str → RState → Option Str → Option Str →
    List (Str × Str) → Nat → Except ParseErr (Option (Release0 × Nat))
  | [], state, version, title, notes, pos => releaseClose text state version title notes pos
  | line :: rest, state, version, title, notes, pos =>
    match lineClass line with
    | .releaseTitle =>
      match state with
      | .init =>
        match relCaptures line with
        | some (v, t) =>
          releaseNewLoop text rest .title (some v) t notes (pos + line.length)
        | none => throw .captureUnwrap
      | .title => releaseClose text .title version title notes pos
      | .«section» t start stop =>
        releaseClose text (.«section» t start stop) version title
          (insertIndexMap notes t (trim (sliceStr text start stop))) pos
    | .sectionTitle =>
      match state with
      | .init => throw (.sectionBeforeTitle line)
      | .title =>
        match byteDrop "### ".length line with
        | none => throw .sectionSlice
        | some tail =>
          releaseNewLoop text rest
            (.«section» (trim tail) (pos + line.length) (pos + line.length))
            version title notes (pos + line.length)
      | .«section» t start stop =>
        match byteDrop "### ".length line with
        | none => throw .sectionSlice
        | some tail =>
          releaseNewLoop text rest
            (.«section» (trim tail) (pos + line.length) (pos + line.length))
            version title (insertIndexMap notes t (trim (sliceStr text start stop)))
            (pos + line.length)
    | .other =>
      match state with
      | .«section» t start stop =>
        releaseNewLoop text rest (.«section» t start (stop + line.length))
          version title notes (pos + line.length)
      | state => releaseNewLoop text rest state version title notes (pos + line.length)

/-- `change_log.rs::Release::new`. -/
def Release0.new (text : Str) : Except ParseErr (Option (Release0 × Nat)) :=
  releaseNewLoop text (splitInclusive text) .init none none [] 0

/-- The `while let Some((release, offset)) = Release::new(changelog)` loop of
`parse_change_log`, on fuel. -/
def parseReleasesLoop : Nat → Str → List (Str × Release0) →
    Except ParseErr (List (Str × Release0))
  | 0, _, _ => .error .fuelExhausted
  | fuel + 1, text, releases =>
    match Release0.new text with
    | .error e => .error e
    | .ok none => .ok releases
    | .ok (some (release, offset)) =>
      parseReleasesLoop fuel (text.drop offset)
        (insertIndexMap releases release.version release)

/-- The `"## [Unreleased]"` anchor. -/
def unreleasedMarker : Str := "## [Unreleased]".toList

/-- `change_log.rs::parse_change_log`. -/
def parse_change_log (changelog : Str) : Except ParseErr Changelog0 :=
  match findSubstr changelog unreleasedMarker with
  | none => .error .noUnreleased
  | some pos =>
    let header := trim (changelog.take pos)
    let changelog := changelog.drop pos
    match footerScan (splitInclusive changelog).reverse with
    | .error e => .error e
    | .ok (foot_links, offset) =>
      let changelog := trim (changelog.take (changelog.length - offset))
      match parseReleasesLoop (changelog.length + 1) changelog [] with
      | .error e => .error e
      | .ok releases => .ok { header := header, releases := releases, foot_links := foot_links }

/-! ## The document parser (spec-modelled)

The round-trip property (§4.2, §8) relates `serialize_changelog` to "the
Parser" producing a `Document` in the serializer's own model.  That parser
belongs to the `changelog_document` crate, whose parsing module is not among
the source files; it is modelled here from the specification.  -/

/-- `str::split('\n')`: the non-inclusive line split used to walk a section
body (`""` gives one empty piece). -/
def splitOnNl : Str → List Str
  | [] => [[]]
  | c :: rest =>
    if c = '\n' then [] :: splitOnNl rest
    else
      match splitOnNl rest with
      | [] => [[c]]
      | l :: ls => (c :: l) :: ls

/-- The trimmed text as an optional field: `none` when nothing is left. -/
def optOfTrim (s : Str) : Option String :=
  let t := trim s
  if t = [] then none else some t.asString

/-- Modelled from the spec: a note renders as `- scope: message` or
`- message` followed by two-space-indented context lines (§4.2, §3); reading
a section body back, a `- ` line opens a note (its scope cut at the first
`: `), and following indented lines are its context. -/
def noteFromLine (rest : Str) : ReleaseSectionNote :=
  match findSubstr rest (": ".toList) with
  | some i =>
    { scope := some (rest.take i).asString, message := (rest.drop (i + 2)).asString, context := [] }
  | none => { scope := none, message := rest.asString, context := [] }

/-- Modelled from the spec: fold the body lines into notes; lines before the
first `- ` line are dropped, a non-`- ` line after one joins the open note's
context (without its two-space indent when it has one). -/
def parseNoteLines : List Str → Option ReleaseSectionNote → List ReleaseSectionNote
  | [], cur =>
    match cur with
    | some n => [n]
    | none => []
  | l :: rest, cur =>
    if ("- ".toList).isPrefixOf l then
      let n := noteFromLine (l.drop 2)
      match cur with
      | some m => m :: parseNoteLines rest (some n)
      | none => parseNoteLines rest (some n)
    else
      match cur with
      | some m =>
        if ("  ".toList).isPrefixOf l then
          parseNoteLines rest (some { m with context := m.context ++ [(l.drop 2).asString] })
        else
          parseNoteLines rest (some { m with context := m.context ++ [l.asString] })
      | none => parseNoteLines rest none

/-- Modelled from the spec: parse a trimmed section body into its notes. -/
def parseNotes (body : Str) : List ReleaseSectionNote :=
  parseNoteLines (splitOnNl body) none

/-- Ordered-map insert of a section under its title key (§3: section titles
are unique keys within a release). -/
def insertSection : List ReleaseSection → String → List ReleaseSectionNote → List ReleaseSection
  | [], t, ns => [{ title := t, notes := ns }]
  | s :: rest, t, ns =>
    if s.title = t then { title := s.title, notes := ns } :: rest
    else s :: insertSection rest t ns

/-- Ordered-map insert of a release under its version key (§3). -/
def insertRelease : List Release → Release → List Release
  | [], r => [r]
  | x :: rest, r =>
    if x.title.version = r.title.version then r :: rest else x :: insertRelease rest r

inductive DocErr where
  /-- No `## [Unreleased]` marker (§4.1). -/
  | noUnreleased
  /-- A section-title line before any release-title line (§4.1). -/
  | sectionOutsideRelease
  /-- A release-title line whose captures cannot be read (unreachable). -/
  | badHeading
  /-- Fuel of the release loop ran out (the fuel given is sufficient). -/
  | fuelExhausted
deriving DecidableEq, Repr

/-- Modelled from the spec: the extractor's state (§4.1 / §9 — `Init |
Title | Section`), the `Title` state carrying the free lines seen since the
heading (the release `header`, §3) and the `Section` state the body lines of
the open section. -/
inductive DState where
  | init
  | title (hdr : List Str)
  | sect (t : String) (body : List Str)
deriving DecidableEq, Repr

/-- Build the release once the extractor stops (version and title from the
heading captures, the resolved header, the closed sections; §4.1; release
footers are not recovered — §9 leaves stray trailing lines unrecovered). -/
def docMkRelease (ver : Option (String × Option String)) (hdr : Option String)
    (sections : List ReleaseSection) (count : Nat) :
    Except DocErr (Option (Release × Nat)) :=
  match ver with
  | some (v, t) =>
    pure (some ({ title := { version := v, title := t }, header := hdr,
                  note_sections := sections, footer := none }, count))
  | none => throw .badHeading

/-- Modelled from the spec: the single-release extractor of §4.1, walked
line by line; `count` is the number of consumed lines.  A release-title line
in `Init` records version/title; in `Title`/`Section` it closes the release
without being consumed.  A section-title line in `Init` is the structural
error; otherwise it closes any open section and opens the next one.  Any
other line is release header text in `Title`, body text in `Section`, and
in `Init` means no release found. -/
def docRelLoop : List Str → DState → Option (String × Option String) →
    Option String → List ReleaseSection → Nat → Except DocErr (Option (Release × Nat))
  | [], state, ver, hdrOpt, sections, count =>
    match state with
    | .init => pure none
    | .title hdr => docMkRelease ver (optOfTrim hdr.flatten) sections count
    | .sect t body =>
      docMkRelease ver hdrOpt (insertSection sections t (parseNotes (trim body.flatten))) count
  | l :: rest, state, ver, hdrOpt, sections, count =>
    match lineClass l with
    | .releaseTitle =>
      match state with
      | .init =>
        match relCaptures l with
        | some (v, t) =>
          docRelLoop rest (.title []) (some (v.asString, t.map List.asString)) hdrOpt sections
            (count + 1)
        | none => throw .badHeading
      | .title hdr => docMkRelease ver (optOfTrim hdr.flatten) sections count
      | .sect t body =>
        docMkRelease ver hdrOpt (insertSection sections t (parseNotes (trim body.flatten))) count
    | .sectionTitle =>
      match state with
      | .init => throw .sectionOutsideRelease
      | .title hdr =>
        docRelLoop rest (.sect (trim (l.drop "### ".length)).asString []) ver
          (optOfTrim hdr.flatten) sections (count + 1)
      | .sect t body =>
        docRelLoop rest (.sect (trim (l.drop "### ".length)).asString []) ver hdrOpt
          (insertSection sections t (parseNotes (trim body.flatten))) (count + 1)
    | .other =>
      match state with
      | .init => pure none
      | .title hdr => docRelLoop rest (.title (hdr ++ [l])) ver hdrOpt sections (count + 1)
      | .sect t body => docRelLoop rest (.sect t (body ++ [l])) ver hdrOpt sections (count + 1)

/-- Modelled from the spec: run the extractor repeatedly until it reports no
further release (§4.1 step 3), inserting each release under its version. -/
def docReleasesLoop : Nat → List Str → List Release → Except DocErr (List Release)
  | 0, _, _ => .error .fuelExhausted
  | fuel + 1, lines, releases =>
    match docRelLoop lines .init none none [] 0 with
    | .error e => .error e
    | .ok none => .ok releases
    | .ok (some (release, count)) =>
      docReleasesLoop fuel (lines.drop count) (insertRelease releases release)

/-- Modelled from the spec: read the `[label]: url` shape of a footer-link
line (§4.1 step 2, §3). -/
def extractFootLinkSpec (l : Str) : FootLink :=
  { text := (trim (((l.dropWhile (· ≠ '[')).drop 1).takeWhile (· ≠ ']'))).asString,
    link := (trim ((l.dropWhile (· ≠ ':')).drop 1)).asString }

/-- Modelled from the spec: the document parser of §4.1 over the serializer's
model — locate the Unreleased marker (everything before it is the trimmed
optional header), collect the trailing block of footer-link lines scanning
backward (reversed back to forward order) and remove it, then run the
release extractor over what remains. -/
def parse_document (text : Str) : Except DocErr ChangeLog :=
  match findSubstr text unreleasedMarker with
  | none => .error .noUnreleased
  | some pos =>
    let header := optOfTrim (text.take pos)
    let post := text.drop pos
    let lines := splitInclusive post
    let footer_links := ((lines.reverse.takeWhile footerMatch).reverse).map extractFootLinkSpec
    let kept := (lines.reverse.dropWhile footerMatch).reverse
    match docReleasesLoop (kept.length + 1) kept [] with
    | .error e => .error e
    | .ok releases =>
      .ok { header := header, releases := releases, footer_links := { links := footer_links } }

/-! ## Well-formed documents

The round-trip property is quantified over "well-formed input containing an
Unreleased marker" (§8).  Well-formed texts are formalised as the canonical
serializations of structurally valid documents: first release `Unreleased`,
unique version and section keys, trimmed single-line titles and messages,
and no free-text line that the four classifying patterns would mistake for
structure.  The helpers below name the exact line lists the serializer
emits, so that the conditions can speak about them. -/

/-- The line holding a single newline. -/
def nlLine : Str := ['\n']

/-- The lines the serializer emits for one note: the `- ` line, then one
two-space line per context entry. -/
def noteLines (n : ReleaseSectionNote) : List Str :=
  (("- " ++ (match n.scope with | some sc => sc ++ ": " | none => "") ++ n.message).toList ++ ['\n'])
    :: n.context.map (fun c => ("  " ++ c).toList ++ ['\n'])

/-- The heading line of a section. -/
def sectionHeadLine (s : ReleaseSection) : Str := ("### " ++ s.title).toList ++ ['\n']

/-- The lines the serializer emits for one section after its separating
blank line: heading, blank, then the notes. -/
def sectionLines (s : ReleaseSection) : List Str :=
  sectionHeadLine s :: nlLine :: (s.notes.map noteLines).flatten

/-- The heading line of a release (without the blank separator above it). -/
def headingLine (r : Release) : Str :=
  (match r.title.title with
   | some t => "## [" ++ r.title.version ++ "] - " ++ t
   | none => "## [" ++ r.title.version ++ "]").toList ++ ['\n']

/-- The lines the serializer emits for one release after its separating
blank line: heading, optional header block, sections each led by a blank
line. -/
def relCoreLines (r : Release) : List Str :=
  headingLine r
    :: ((match r.header with
         | some h => nlLine :: splitInclusive (h.toList ++ ['\n'])
         | none => [])
        ++ (r.note_sections.map (fun s => nlLine :: sectionLines s)).flatten)

/-- The `[text]: link` line of a footer link. -/
def footLinkLine (fl : FootLink) : Str :=
  ("[" ++ fl.text ++ "]: " ++ fl.link).toList ++ ['\n']

/-- A trimmed, non-empty string. -/
def isTrimmedNE (s : String) : Bool := trim s.toList == s.toList && !s.toList.isEmpty

/-- A string without a newline. -/
def noNl (s : String) : Bool := !s.toList.contains '\n'

/-- A free-text line: classified by neither the release-title nor the
section-title nor the footer-link pattern. -/
def lineOther (l : Str) : Bool :=
  (match lineClass l with | .other => true | _ => false) && !footerMatch l

def goodNote (n : ReleaseSectionNote) : Bool :=
  isTrimmedNE n.message && noNl n.message &&
  (match n.scope with
   | none => !containsSubstr n.message.toList (": ".toList)
   | some sc => isTrimmedNE sc && noNl sc && !containsSubstr sc.toList (": ".toList)) &&
  (noteLines n).all lineOther &&
  n.context.all (fun c => isTrimmedNE c && noNl c)

def goodSection (s : ReleaseSection) : Bool :=
  isTrimmedNE s.title && noNl s.title &&
  lineClass (sectionHeadLine s) == .sectionTitle &&
  !footerMatch (sectionHeadLine s) &&
  s.notes.all goodNote

def goodRelease (r : Release) : Bool :=
  noNl r.title.version &&
  (match r.title.title with | none => true | some t => noNl t) &&
  lineClass (headingLine r) == .releaseTitle &&
  relCaptures (headingLine r) == some (r.title.version.toList, r.title.title.map String.toList) &&
  !footerMatch (headingLine r) &&
  (match r.header with
   | none => true
   | some h => isTrimmedNE h && (splitInclusive (h.toList ++ ['\n'])).all lineOther) &&
  r.footer == none &&
  decide ((r.note_sections.map (fun s => s.title)).Nodup) &&
  r.note_sections.all goodSection

def goodFootLink (fl : FootLink) : Bool :=
  isTrimmedNE fl.text &&
  fl.text.toList.all (fun c => c ≠ ']' && c ≠ ':' && c ≠ '\n') &&
  trim fl.link.toList == fl.link.toList && noNl fl.link &&
  footerMatch (footLinkLine fl)

/-- A structurally valid document: its canonical serialization is what the
round-trip property calls a well-formed changelog text. -/
def goodChangeLog (d : ChangeLog) : Bool :=
  (match d.releases with
   | [] => false
   | r0 :: _ => r0.title.version == "Unreleased") &&
  decide ((d.releases.map (fun r => r.title.version)).Nodup) &&
  d.releases.all goodRelease &&
  (match d.header with
   | none => true
   | some h => isTrimmedNE h && !containsSubstr (h.toList ++ ['\n']) unreleasedMarker) &&
  d.footer_links.links.all goodFootLink

/-- A well-formed changelog text (§8): the canonical serialization of a
structurally valid document. -/
def WellFormedText (t : String) : Prop :=
  ∃ d, goodChangeLog d = true ∧ t = serialize_changelog d ChangeLogSerOption.default

/-! ## Definitions used by the theorem statements -/

/-- Concatenation of a list of strings (for stating what the serializer
emits). -/
def joinStrings (l : List String) : String := l.foldr (· ++ ·) ""

/-- The trailing block of footer-matching lines, in forward (top-to-bottom)
document order. -/
def trailingFooterBlock (lines : List Str) : List Str :=
  (lines.reverse.takeWhile footerMatch).reverse

/-- The lines above the trailing footer block, in forward order. -/
def footerKept (lines : List Str) : List Str :=
  (lines.reverse.dropWhile footerMatch).reverse

/-- The footer-link lines scanned by `parse_change_log` on a given input:
the trailing footer-matching block of the text from the Unreleased marker
on (empty when there is no marker). -/
def footerBlockOf (s : Str) : List Str :=
  match findSubstr s unreleasedMarker with
  | none => []
  | some pos => trailingFooterBlock (splitInclusive (s.drop pos))

/-- The lines fed to the release loop of `parse_change_log` on a given
input: the text from the Unreleased marker on, with the trailing footer
block removed and the remainder trimmed, split into inclusive lines
(empty when there is no marker or the footer scan fails). -/
def relLinesOf (s : Str) : List Str :=
  match findSubstr s unreleasedMarker with
  | none => []
  | some pos =>
    match footerScan (splitInclusive (s.drop pos)).reverse with
    | .error _ => []
    | .ok (_, off) =>
      splitInclusive (trim ((s.drop pos).take ((s.drop pos).length - off)))

/-- Total version of `extractFootLink` (defaulting on the panic cases), for
stating what a successful scan collects. -/
def extractFootLinkD (l : Str) : FootLink0 :=
  match extractFootLink l with
  | .ok fl => fl
  | .error _ => { text := [], link := [] }

/-- The resolved section title of a merge result (first component of the
returned pair). -/
def resolvedTitle (r : Except String (Option (String × ReleaseSectionNote))) :
    Except String (Option String) :=
  r.map (fun o => o.map (fun p => p.1))

/-- The serialized header region of a document (the text before the first
release separator). -/
def headerChunk (d : ChangeLog) : Str :=
  match d.header with
  | some h => h.toList ++ ['\n']
  | none => []

/-- The newline-stripped bodies of the lines a note serializes to. -/
def noteBodyLines (n : ReleaseSectionNote) : List Str :=
  (("- " ++ (match n.scope with | some sc => sc ++ ": " | none => "") ++ n.message).toList)
    :: n.context.map (fun c => ("  " ++ c).toList)

/-- The lines of a run of releases as the serializer emits them after the
first release separator: each release core, a separating blank line between
consecutive releases, and a final `fin` (the blank line opening a footer
block, or empty). -/
def relLines : List Release → List Str → List Str
  | [], fin => fin
  | [r], fin => relCoreLines r ++ fin
  | r :: r2 :: rs, fin => relCoreLines r ++ nlLine :: relLines (r2 :: rs) fin

/-- What can follow a release's own lines: nothing, or a separating blank
line followed by nothing or by the next release heading. -/
def EShape (E : List Str) : Prop :=
  E = [] ∨ ∃ E2, E = nlLine :: E2 ∧
    (E2 = [] ∨ ∃ l t3, E2 = l :: t3 ∧ lineClass l = .releaseTitle)

/-- A concrete structurally valid document, for exhibiting the round-trip
on a closed instance. -/
def exampleChangeLog : ChangeLog :=
  { header := some "# Changelog",
    releases := [
      { title := { version := "Unreleased", title := none }, header := none,
        note_sections := [
          { title := "Added", notes := [
              { scope := some "ui", message := "new button", context := ["extra info"] },
              { scope := none, message := "dark mode", context := [] } ] },
          { title := "Fixed", notes := [
              { scope := none, message := "crash on startup", context := [] } ] } ],
        footer := none },
      { title := { version := "0.1.0", title := some "2024-01-01" },
        header := some "First release.",
        note_sections := [
          { title := "Added", notes := [
              { scope := none, message := "initial version", context := [] } ] } ],
        footer := none } ],
    footer_links := { links := [
      { text := "0.1.0", link := "https://example.com/0.1.0" } ] } }

/-- The invariant of `split_inclusive('\n')` output: every chunk but the
last is a newline-free body followed by its newline, and a last chunk may
instead be a non-empty newline-free remainder. -/
inductive WfChunks : List Str → Prop
  | nil : WfChunks []
  | last (body : Str) : '\n' ∉ body → body ≠ [] → WfChunks [body]
  | cons (body : Str) (rest : List Str) :
      '\n' ∉ body → WfChunks rest → WfChunks ((body ++ ['\n']) :: rest)

/-- The first `split_inclusive` line of a text. -/
def firstLine (s : Str) : Str := (splitInclusive s).headD []

/-- The body-joining companion of `splitOnNl`: bodies separated by single
newlines. -/
def joinBodies : List Str → Str
  | [] => []
  | [b] => b
  | b :: b2 :: bs => b ++ '\n' :: joinBodies (b2 :: bs)

/-! # Theorems -/

/-! ## Helper lemmas: serializer folds -/

theorem foldl_context_join (l : List String) (s : String) :
    l.foldl (fun s context => s ++ "  " ++ context ++ "\n") s
      = s ++ joinStrings (l.map (fun c => "  " ++ c ++ "\n")) := by
  induction l generalizing s with
  | nil => simp [joinStrings]
  | cons c rest ih =>
    rw [List.map_cons, List.foldl_cons, ih]
    simp [joinStrings, String.append_assoc]

/-- C8: a note serializes to the `- scope: message` or `- message` line
followed by one two-space-indented line per context entry. -/
theorem note_serialization_shape (s : String) (note : ReleaseSectionNote) :
    serialize_release_section_note s note =
      s ++ (match note.scope with
            | some scope => "- " ++ scope ++ ": " ++ note.message ++ "\n"
            | none => "- " ++ note.message ++ "\n")
        ++ joinStrings (note.context.map (fun c => "  " ++ c ++ "\n")) := by
  unfold serialize_release_section_note
  cases h : note.scope <;>
    · simp only [h]
      rw [foldl_context_join]

/-! ## Helper lemmas: note insertion -/

theorem pushNote_of_not_mem (t : String) (n : ReleaseSectionNote) :
    ∀ l : List ReleaseSection, (∀ s ∈ l, s.title ≠ t) → pushNote t n l = l := by
  intro l h
  induction l with
  | nil => rfl
  | cons s rest ih =>
    have hs : s.title ≠ t := h s (by simp)
    simp [pushNote, hs, ih fun x hx => h x (by simp [hx])]

theorem pushNote_append_fresh (t : String) (n : ReleaseSectionNote) :
    ∀ l : List ReleaseSection, (∀ s ∈ l, s.title ≠ t) →
      pushNote t n (l ++ [{ title := t, notes := [] }]) = l ++ [{ title := t, notes := [n] }] := by
  intro l h
  induction l with
  | nil => simp [pushNote]
  | cons s rest ih =>
    have hs : s.title ≠ t := h s (by simp)
    simp [pushNote, hs, ih fun x hx => h x (by simp [hx])]

theorem pushNote_of_nodup_mem (t : String) (n : ReleaseSectionNote) :
    ∀ l : List ReleaseSection, (l.map (fun s => s.title)).Nodup →
      pushNote t n l = l.map (fun s =>
        if s.title = t then { s with notes := s.notes ++ [n] } else s) := by
  intro l h
  induction l with
  | nil => rfl
  | cons s rest ih =>
    simp only [List.map_cons, List.nodup_cons] at h
    by_cases hs : s.title = t
    · have hrest : ∀ x ∈ rest, x.title ≠ t := by
        intro x hx he
        exact h.1 (by rw [hs, ← he]; exact List.mem_map_of_mem _ hx)
      have hmap : List.map (fun x =>
          if x.title = t then { x with notes := x.notes ++ [n] } else x) rest = rest := by
        conv_rhs => rw [← List.map_id rest]
        exact List.map_congr_left (fun x hx => by simp [hrest x hx])
      simp [pushNote, hs, hmap]
    · simp [pushNote, hs, ih h.2]

theorem pushNote_titles (t : String) (n : ReleaseSectionNote) :
    ∀ l : List ReleaseSection,
      (pushNote t n l).map (fun s => s.title) = l.map (fun s => s.title) := by
  intro l
  induction l with
  | nil => rfl
  | cons s rest ih =>
    by_cases hs : s.title = t <;> simp [pushNote, hs, ih]

/-- C9: inserting a resolved `(sectionTitle, note)` pair preserves the
section order: a missing section is created at the end of the ordered map
with the note as its single element; an existing section (titles being
unique keys) receives the note at the end of its `notes`, no section and no
existing note being reordered. -/
theorem insert_release_note_spec (unreleased : Release) (t : String) (n : ReleaseSectionNote) :
    ((∀ s ∈ unreleased.note_sections, s.title ≠ t) →
      insert_release_note unreleased t n =
        { unreleased with note_sections :=
            unreleased.note_sections ++ [{ title := t, notes := [n] }] }) ∧
    ((unreleased.note_sections.map (fun s => s.title)).Nodup →
      (∃ s ∈ unreleased.note_sections, s.title = t) →
      insert_release_note unreleased t n =
        { unreleased with note_sections :=
            unreleased.note_sections.map (fun s =>
              if s.title = t then { s with notes := s.notes ++ [n] } else s) }) ∧
    ((∃ s ∈ unreleased.note_sections, s.title = t) →
      (insert_release_note unreleased t n).note_sections.map (fun s => s.title) =
        unreleased.note_sections.map (fun s => s.title)) := by
  refine ⟨fun h => ?_, fun hnd hmem => ?_, fun hmem => ?_⟩
  · have hany : unreleased.note_sections.any (fun s => s.title = t) = false := by
      simp [List.any_eq_false]; exact h
    simp [insert_release_note, hany, pushNote_append_fresh t n _ h]
  · have hany : unreleased.note_sections.any (fun s => s.title = t) = true := by
      simp [List.any_eq_true]; exact hmem
    simp [insert_release_note, hany, pushNote_of_nodup_mem t n _ hnd]
  · have hany : unreleased.note_sections.any (fun s => s.title = t) = true := by
      simp [List.any_eq_true]; exact hmem
    simp [insert_release_note, hany, pushNote_titles]

/-- Witness for C9 at a concrete release: a fresh title is appended at the
end, an existing one receives the note in place. -/
theorem insert_release_note_spec_witness :
    insert_release_note
        { title := { version := "Unreleased", title := none }, header := none,
          note_sections := [{ title := "Added", notes := [] }], footer := none }
        "Fixed" { scope := none, message := "m", context := [] } =
      { title := { version := "Unreleased", title := none }, header := none,
        note_sections := [{ title := "Added", notes := [] },
          { title := "Fixed", notes := [{ scope := none, message := "m", context := [] }] }],
        footer := none } :=
  (insert_release_note_spec _ "Fixed" _).1 (by intro s hs; simp at hs; simp [hs])

/-- C6: a commit is skipped exactly when its changed-file list contains the
changelog path or its message or description contains one of the twelve
patterns built from the stems `changelog`/`log`/`chglog`/`notes` and the
shapes `(skip _)`/`(ignore _)`/`!_`; the first matching pattern (in that
fixed order) is the reported reason; a message containing `!log` is
skipped, the message `fix: something log` is not. -/
theorem commit_should_be_ignored_spec :
    (∀ (raw : RawCommit) (changelog_path : String),
      (commit_should_be_ignored raw changelog_path).isYes = true ↔
        (changelog_path ∈ raw.list_files ∨
          ∃ pat ∈ ignorePatterns,
            containsStr raw.message pat = true ∨ containsStr raw.desc pat = true)) ∧
    (∀ (raw : RawCommit) (changelog_path : String),
      changelog_path ∉ raw.list_files →
      ∀ pat, ignorePatterns.find?
          (fun pat => containsStr raw.message pat || containsStr raw.desc pat) = some pat →
        commit_should_be_ignored raw changelog_path =
          .yes ("The pattern \"" ++ pat ++ "\" was matched in the commit message or description.")) ∧
    (∀ (raw : RawCommit) (changelog_path : String),
      containsStr raw.message "!log" = true →
      (commit_should_be_ignored raw changelog_path).isYes = true) ∧
    (commit_should_be_ignored
      { message := "fix: something log", desc := "", sha := "", list_files := [] } "" = .no) := by
  have key : ∀ (raw : RawCommit) (changelog_path : String),
      (commit_should_be_ignored raw changelog_path).isYes = true ↔
        (changelog_path ∈ raw.list_files ∨
          ∃ pat ∈ ignorePatterns,
            containsStr raw.message pat = true ∨ containsStr raw.desc pat = true) := by
    intro raw changelog_path
    unfold commit_should_be_ignored
    by_cases hf : raw.list_files.any (fun path => path = changelog_path) = true
    · rw [if_pos hf]
      have hcp : changelog_path ∈ raw.list_files := by
        rcases List.any_eq_true.mp hf with ⟨x, hx, he⟩
        exact (decide_eq_true_eq.mp he) ▸ hx
      simp [Response.isYes, hcp]
    · rw [if_neg hf]
      have hmem : changelog_path ∉ raw.list_files := fun hc =>
        hf (List.any_eq_true.mpr ⟨changelog_path, hc, by simp⟩)
      cases hfind : ignorePatterns.find?
          (fun pat => containsStr raw.message pat || containsStr raw.desc pat) with
      | none =>
        have hnone : ∀ pat ∈ ignorePatterns,
            containsStr raw.message pat = false ∧ containsStr raw.desc pat = false := by
          intro pat hpat
          simpa using List.find?_eq_none.mp hfind pat hpat
        constructor
        · intro hfalse
          simp [Response.isYes] at hfalse
        · intro hor
          rcases hor with hc | ⟨pat, hpat, hor2⟩
          · exact absurd hc hmem
          · rcases hor2 with h | h
            · rw [(hnone pat hpat).1] at h; exact absurd h (by simp)
            · rw [(hnone pat hpat).2] at h; exact absurd h (by simp)
      | some pat =>
        have hp := List.find?_some hfind
        have hpmem := List.mem_of_find?_eq_some hfind
        constructor
        · intro _
          exact Or.inr ⟨pat, hpmem, by simpa [Bool.or_eq_true] using hp⟩
        · intro _; rfl
  refine ⟨key, fun raw changelog_path hmem pat hfind => ?_, fun raw changelog_path hc => ?_,
    by rfl⟩
  · have hf : ¬(raw.list_files.any (fun path => path = changelog_path) = true) := by
      intro h
      rcases List.any_eq_true.mp h with ⟨x, hx, he⟩
      exact hmem ((decide_eq_true_eq.mp he) ▸ hx)
    unfold commit_should_be_ignored
    rw [if_neg hf, hfind]
  · exact (key raw changelog_path).mpr (Or.inr ⟨"!log", by decide, Or.inl hc⟩)

/-- Witness for C6: a commit whose message contains `!log` is skipped. -/
theorem commit_should_be_ignored_spec_witness :
    (commit_should_be_ignored
      { message := "fix: something !log", desc := "", sha := "", list_files := [] } "p").isYes
      = true :=
  commit_should_be_ignored_spec.2.2.1
    { message := "fix: something !log", desc := "", sha := "", list_files := [] } "p" (by rfl)

/-! ## Helper lemmas: section ordering in the serializer -/

theorem nss_foldl_acc (order : List String) :
    ∀ (done secs : List ReleaseSection),
      order.foldl nssStep (done, secs)
        = (done ++ (order.foldl nssStep ([], secs)).1, (order.foldl nssStep ([], secs)).2) := by
  induction order with
  | nil => intro done secs; simp
  | cons t order ih =>
    intro done secs
    simp only [List.foldl_cons]
    cases hsr : shiftRemoveSection secs t with
    | none =>
      have h1 : nssStep (done, secs) t = (done, secs) := by simp [nssStep, hsr]
      have h2 : nssStep ([], secs) t = ([], secs) := by simp [nssStep, hsr]
      rw [h1, h2, ih done secs]
    | some p =>
      obtain ⟨sec, rest⟩ := p
      have h1 : nssStep (done, secs) t = (done ++ [sec], rest) := by simp [nssStep, hsr]
      have h2 : nssStep ([], secs) t = ([sec], rest) := by simp [nssStep, hsr]
      rw [h1, h2, ih (done ++ [sec]) rest, ih [sec] rest]
      simp

theorem noteSectionSorted_cons (secs : List ReleaseSection) (t : String) (order : List String) :
    noteSectionSorted secs (t :: order) =
      match shiftRemoveSection secs t with
      | some (sec, rest) => sec :: noteSectionSorted rest order
      | none => noteSectionSorted secs order := by
  cases hsr : shiftRemoveSection secs t with
  | none => simp [noteSectionSorted, nssStep, hsr]
  | some p =>
    obtain ⟨sec, rest⟩ := p
    have h2 : nssStep ([], secs) t = ([sec], rest) := by simp [nssStep, hsr]
    simp only [noteSectionSorted, List.foldl_cons]
    rw [h2, nss_foldl_acc order [sec] rest]
    simp

theorem shiftRemoveSection_eq_none (t : String) :
    ∀ l : List ReleaseSection, (∀ s ∈ l, s.title ≠ t) → shiftRemoveSection l t = none := by
  intro l h
  induction l with
  | nil => rfl
  | cons s rest ih =>
    have hs : s.title ≠ t := h s (by simp)
    simp only [shiftRemoveSection, if_neg hs]
    rw [ih fun x hx => h x (by simp [hx])]

theorem shiftRemoveSection_eq_some (t : String) :
    ∀ (l : List ReleaseSection) (sec : ReleaseSection) (rest : List ReleaseSection),
      shiftRemoveSection l t = some (sec, rest) →
      ∃ pre post, sec.title = t ∧ l = pre ++ sec :: post ∧ rest = pre ++ post ∧
        ∀ x ∈ pre, x.title ≠ t := by
  intro l
  induction l with
  | nil => intro sec rest h; simp [shiftRemoveSection] at h
  | cons s tail ih =>
    intro sec rest h
    by_cases hs : s.title = t
    · simp only [shiftRemoveSection, if_pos hs] at h
      obtain ⟨rfl, rfl⟩ := Prod.mk.injEq .. ▸ (Option.some.injEq .. ▸ h)
      exact ⟨[], tail, hs, by simp, by simp, by simp⟩
    · simp only [shiftRemoveSection, if_neg hs] at h
      cases hsr : shiftRemoveSection tail t with
      | none => rw [hsr] at h; simp at h
      | some p =>
        obtain ⟨sec', rest'⟩ := p
        rw [hsr] at h
        simp only [Option.some.injEq, Prod.mk.injEq] at h
        obtain ⟨rfl, rfl⟩ := h
        obtain ⟨pre, post, h1, h2, h3, h4⟩ := ih sec' rest' hsr
        exact ⟨s :: pre, post, h1, by simp [h2], by simp [h3],
          fun x hx => by
            rcases List.mem_cons.mp hx with rfl | hx'
            · exact hs
            · exact h4 x hx'⟩

theorem find?_title_eq_none (t : String) :
    ∀ l : List ReleaseSection, (∀ s ∈ l, s.title ≠ t) →
      l.find? (fun s => s.title = t) = none := by
  intro l h
  exact List.find?_eq_none.mpr fun x hx => by simp [h x hx]

theorem find?_append_cons_false {α : Type} (p : α → Bool) (sec : α) (h : p sec = false) :
    ∀ (pre post : List α),
      List.find? p (pre ++ sec :: post) = List.find? p (pre ++ post) := by
  intro pre post
  induction pre with
  | nil => simp [List.find?_cons, h]
  | cons a pre' ih =>
    simp only [List.cons_append, List.find?_cons]
    cases hpa : p a <;> simp [hpa, ih]

theorem shiftRemoveSection_none_forall (t : String) :
    ∀ l : List ReleaseSection, shiftRemoveSection l t = none → ∀ s ∈ l, s.title ≠ t := by
  intro l
  induction l with
  | nil => intro _ s hs; simp at hs
  | cons a tail ih =>
    intro h s hs
    by_cases ha : a.title = t
    · simp [shiftRemoveSection, ha] at h
    · simp only [shiftRemoveSection, if_neg ha] at h
      cases hsr : shiftRemoveSection tail t with
      | none =>
        rcases List.mem_cons.mp hs with rfl | hs'
        · exact ha
        · exact ih hsr s hs'
      | some p => rw [hsr] at h; rcases p with ⟨x, y⟩; simp at h

theorem find?_pre_false {α : Type} (p : α → Bool) (sec : α) (h : p sec = true) :
    ∀ (pre post : List α), (∀ x ∈ pre, p x = false) →
      List.find? p (pre ++ sec :: post) = some sec := by
  intro pre post hpre
  induction pre with
  | nil => simp [List.find?_cons, h]
  | cons a pre' ih =>
    have ha : p a = false := hpre a (by simp)
    simp only [List.cons_append, List.find?_cons, ha]
    exact ih fun x hx => hpre x (by simp [hx])

/-- C7: the serializer emits a release's sections with the ones named in
`sectionOrder` first, in that order, restricted to those present, and all
remaining sections after them in their original first-appearance order; an
empty `sectionOrder` keeps every section in first-seen order. -/
theorem noteSectionSorted_spec :
    ∀ (order : List String) (sections : List ReleaseSection),
      (sections.map (fun s => s.title)).Nodup → order.Nodup →
      noteSectionSorted sections order =
        order.filterMap (fun t => sections.find? (fun s => s.title = t)) ++
        sections.filter (fun s => decide (s.title ∉ order)) := by
  intro order
  induction order with
  | nil =>
    intro sections _ _
    simp [noteSectionSorted]
  | cons t order ih =>
    intro sections hs ho
    rw [noteSectionSorted_cons]
    cases hsr : shiftRemoveSection sections t with
    | none =>
      have hall : ∀ s ∈ sections, s.title ≠ t := shiftRemoveSection_none_forall t sections hsr
      have hfind : sections.find? (fun s => s.title = t) = none :=
        find?_title_eq_none t sections hall
      have hfilter : sections.filter (fun s => decide (s.title ∉ t :: order)) =
          sections.filter (fun s => decide (s.title ∉ order)) := by
        apply List.filter_congr'
        intro s hsmem
        apply decide_eq_decide.mpr
        simp [List.mem_cons, hall s hsmem]
      rw [List.filterMap_cons, hfind, hfilter]
      exact ih sections hs (List.nodup_cons.mp ho).2
    | some p =>
      obtain ⟨sec, rest⟩ := p
      obtain ⟨pre, post, htitle, hdec, hrest, hpre⟩ :=
        shiftRemoveSection_eq_some t sections sec rest hsr
      have hsecp : (fun s : ReleaseSection => decide (s.title = t)) sec = true := by
        simp [htitle]
      have hfind : sections.find? (fun s => s.title = t) = some sec := by
        rw [hdec]
        exact find?_pre_false _ sec hsecp pre post fun x hx => by simp [hpre x hx]
      have hrestnodup : (rest.map (fun s => s.title)).Nodup := by
        have hsub : List.Sublist rest sections := by
          rw [hdec, hrest]
          exact List.Sublist.append_left (List.sublist_cons_self sec post) pre
        exact (hs.sublist (hsub.map _))
      have hpost : ∀ x ∈ post, x.title ≠ t := by
        have := hdec ▸ hs
        simp only [List.map_append, List.map_cons, List.nodup_append] at this
        intro x hx he
        rcases this with ⟨_, hnc, _⟩
        have := List.nodup_cons.mp hnc
        exact this.1 (htitle ▸ he ▸ List.mem_map_of_mem _ hx)
      have htnotin : t ∉ order := (List.nodup_cons.mp ho).1
      have hmapeq : order.filterMap (fun t' => sections.find? (fun s => s.title = t')) =
          order.filterMap (fun t' => rest.find? (fun s => s.title = t')) := by
        apply List.filterMap_congr
        intro t' ht'
        have htt' : t' ≠ t := fun he => htnotin (he ▸ ht')
        rw [hdec, hrest]
        refine find?_append_cons_false _ sec ?_ pre post
        simp only [htitle, decide_eq_false_iff_not]
        exact fun h => htt' h.symm
      have hfiltereq : sections.filter (fun s => decide (s.title ∉ t :: order)) =
          rest.filter (fun s => decide (s.title ∉ order)) := by
        rw [hdec, hrest, List.filter_append, List.filter_append, List.filter_cons]
        have hsect : (decide (sec.title ∉ t :: order)) = false := by simp [htitle]
        rw [hsect]
        simp only [Bool.false_eq_true, if_false]
        congr 1
        · apply List.filter_congr'
          intro x hx
          apply decide_eq_decide.mpr
          simp [List.mem_cons, hpre x hx]
        · apply List.filter_congr'
          intro x hx
          apply decide_eq_decide.mpr
          simp [List.mem_cons, hpost x hx]
      show sec :: noteSectionSorted rest order = _
      rw [List.filterMap_cons, hfind, hmapeq, hfiltereq,
        ih rest hrestnodup (List.nodup_cons.mp ho).2]
      rfl

/-- Witness for C7 at a concrete release and order. -/
theorem noteSectionSorted_spec_witness :
    noteSectionSorted
        [{ title := "A", notes := [] }, { title := "B", notes := [] },
         { title := "C", notes := [] }] ["C", "X", "A"] =
      ["C", "X", "A"].filterMap (fun t =>
        [{ title := "A", notes := [] }, { title := "B", notes := [] },
         ({ title := "C", notes := [] } : ReleaseSection)].find? (fun s => s.title = t)) ++
      [{ title := "A", notes := [] }, { title := "B", notes := [] },
       ({ title := "C", notes := [] } : ReleaseSection)].filter
        (fun s => decide (s.title ∉ ["C", "X", "A"])) :=
  noteSectionSorted_spec ["C", "X", "A"] _ (by decide) (by decide)

/-- C4: per commit, the Unreleased release changes only when the whole
pipeline succeeds — an ignored commit yields `Ok(None)` and no mutation, a
classification or enrichment error yields `Err` and no mutation, and the
note is appended exactly when `get_release_note` returns a resolved pair. -/
theorem merge_no_partial_mutation
    (parse_commit : String → Except String Commit) (unreleased : Release)
    (raw : RawCommit) (related : Option RelatedPr) (options : GenerateReleaseNoteOptions) :
    ((commit_should_be_ignored raw options.changelog_path).isYes = true →
      get_release_note parse_commit raw related options = .ok none ∧
      processCommit parse_commit unreleased raw related options = unreleased) ∧
    (∀ e, get_release_note parse_commit raw related options = .error e →
      processCommit parse_commit unreleased raw related options = unreleased) ∧
    (get_release_note parse_commit raw related options = .ok none →
      processCommit parse_commit unreleased raw related options = unreleased) ∧
    (∀ t n, get_release_note parse_commit raw related options = .ok (some (t, n)) →
      processCommit parse_commit unreleased raw related options =
        insert_release_note unreleased t n) := by
  refine ⟨fun hyes => ?_, fun e he => ?_, fun hn => ?_, fun t n hs => ?_⟩
  · cases hr : commit_should_be_ignored raw options.changelog_path with
    | no => rw [hr] at hyes; simp [Response.isYes] at hyes
    | yes reason =>
      have hget : get_release_note parse_commit raw related options = .ok none := by
        unfold get_release_note
        rw [hr]
        rfl
      exact ⟨hget, by simp [processCommit, hget]⟩
  · simp [processCommit, he]
  · simp [processCommit, hn]
  · simp [processCommit, hs]

/-- Witness for C4: an ignored commit (changelog file touched) leaves a
concrete release untouched. -/
theorem merge_no_partial_mutation_witness :
    get_release_note (fun m => .ok { «section» := "feat", scope := none, message := m })
        { message := "m", desc := "", sha := "", list_files := ["CL.md"] } none
        { changelog_path := "CL.md", parsing := .smart, exclude_unidentified := false,
          exclude_not_pr := false, omit_pr_link := false, omit_thanks := false,
          map := { map_section := fun _ => none, try_find_section := fun _ => none } }
        = .ok none ∧
    processCommit (fun m => .ok { «section» := "feat", scope := none, message := m })
        { title := { version := "Unreleased", title := none }, header := none,
          note_sections := [], footer := none }
        { message := "m", desc := "", sha := "", list_files := ["CL.md"] } none
        { changelog_path := "CL.md", parsing := .smart, exclude_unidentified := false,
          exclude_not_pr := false, omit_pr_link := false, omit_thanks := false,
          map := { map_section := fun _ => none, try_find_section := fun _ => none } }
        = { title := { version := "Unreleased", title := none }, header := none,
            note_sections := [], footer := none } :=
  (merge_no_partial_mutation _ _ _ _ _).1 (by rfl)

/-- C5: for a parsed commit whose label is unmapped, strict parsing fails
with the unmapped-section error; non-strict parsing falls back to the
full-text pattern search, failing when that fails and `excludeUnidentified`
is set and resolving the title to `"Unidentified"` otherwise; on classifier
failure, strict parsing fails with the invalid-syntax error and non-strict
parsing applies the same fallback and unidentified-handling rule. -/
theorem get_release_note_fallback_spec
    (parse_commit : String → Except String Commit) (raw : RawCommit)
    (related : Option RelatedPr) (options : GenerateReleaseNoteOptions)
    (hno : commit_should_be_ignored raw options.changelog_path = .no) :
    (∀ c, parse_commit raw.message = .ok c →
      options.map.map_section c.«section» = none →
      ((options.parsing = .strict →
          get_release_note parse_commit raw related options =
            .error ("No commit type found for this: " ++ c.«section»)) ∧
       (options.parsing ≠ .strict →
          ((∀ s, options.map.try_find_section (raw.message, raw.desc) = some s →
              (related.isSome = true ∨ options.exclude_not_pr = false) →
              resolvedTitle (get_release_note parse_commit raw related options) =
                .ok (some s)) ∧
           (options.map.try_find_section (raw.message, raw.desc) = none →
              options.exclude_unidentified = true →
              get_release_note parse_commit raw related options =
                .error "Unidentified commit type") ∧
           (options.map.try_find_section (raw.message, raw.desc) = none →
              options.exclude_unidentified = false →
              (related.isSome = true ∨ options.exclude_not_pr = false) →
              resolvedTitle (get_release_note parse_commit raw related options) =
                .ok (some "Unidentified")))))) ∧
    (∀ e, parse_commit raw.message = .error e →
      ((options.parsing = .strict →
          get_release_note parse_commit raw related options =
            .error ("invalid commit syntax: " ++ e)) ∧
       (options.parsing ≠ .strict →
          ((∀ s, options.map.try_find_section (raw.message, raw.desc) = some s →
              (related.isSome = true ∨ options.exclude_not_pr = false) →
              resolvedTitle (get_release_note parse_commit raw related options) =
                .ok (some s)) ∧
           (options.map.try_find_section (raw.message, raw.desc) = none →
              options.exclude_unidentified = true →
              get_release_note parse_commit raw related options =
                .error "Unidentified commit type") ∧
           (options.map.try_find_section (raw.message, raw.desc) = none →
              options.exclude_unidentified = false →
              (related.isSome = true ∨ options.exclude_not_pr = false) →
              resolvedTitle (get_release_note parse_commit raw related options) =
                .ok (some "Unidentified")))))) := by
  constructor
  · intro c hok hmap
    constructor
    · intro hp
      unfold get_release_note
      rw [hno, hok]
      simp [hmap, hp]
      rfl
    · intro hp
      refine ⟨fun s hfind henr => ?_, fun hfind hexcl => ?_, fun hfind hexcl henr => ?_⟩
      · unfold get_release_note
        rw [hno, hok]
        simp only [hmap]
        rw [if_neg hp]
        simp only [hfind]
        cases related with
        | some pr =>
          simp only [resolvedTitle, bind, Except.bind, pure, Except.pure, Except.map]
          simp only [apply_ite (fun c : Commit => c.«section»), ite_self]
          rfl
        | none =>
          rcases henr with h | h
          · simp at h
          · simp only [h, resolvedTitle, Except.map]
            rfl
      · unfold get_release_note
        rw [hno, hok]
        simp only [hmap]
        rw [if_neg hp]
        simp only [hfind]
        rw [if_pos hexcl]
        rfl
      · unfold get_release_note
        rw [hno, hok]
        simp only [hmap]
        rw [if_neg hp]
        simp only [hfind]
        rw [if_neg (by simp [hexcl])]
        cases related with
        | some pr =>
          simp only [resolvedTitle, bind, Except.bind, pure, Except.pure, Except.map]
          simp only [apply_ite (fun c : Commit => c.«section»), ite_self]
          rfl
        | none =>
          rcases henr with h | h
          · simp at h
          · simp only [h, resolvedTitle, Except.map]
            rfl
  · intro e herr
    constructor
    · intro hp
      unfold get_release_note
      rw [hno, herr]
      simp only [hp]
      rw [if_pos trivial]
      rfl
    · intro hp
      refine ⟨fun s hfind henr => ?_, fun hfind hexcl => ?_, fun hfind hexcl henr => ?_⟩
      · unfold get_release_note
        rw [hno, herr]
        simp only [hfind]
        rw [if_neg hp]
        cases related with
        | some pr =>
          simp only [resolvedTitle, bind, Except.bind, pure, Except.pure, Except.map]
          simp only [apply_ite (fun c : Commit => c.«section»), ite_self]
          rfl
        | none =>
          rcases henr with h | h
          · simp at h
          · simp only [h, resolvedTitle, Except.map]
            rfl
      · unfold get_release_note
        rw [hno, herr]
        simp only [hfind]
        rw [if_neg hp]
        rw [if_pos hexcl]
        rfl
      · unfold get_release_note
        rw [hno, herr]
        simp only [hfind]
        rw [if_neg hp]
        rw [if_neg (by simp [hexcl])]
        cases related with
        | some pr =>
          simp only [resolvedTitle, bind, Except.bind, pure, Except.pure, Except.map]
          simp only [apply_ite (fun c : Commit => c.«section»), ite_self]
          rfl
        | none =>
          rcases henr with h | h
          · simp at h
          · simp only [h, resolvedTitle, Except.map]
            rfl

/-- Witness for C5: strict parsing of an unmapped label fails with the
unmapped-section error at a concrete commit. -/
theorem get_release_note_fallback_spec_witness :
    get_release_note (fun _ => .ok { «section» := "feat", scope := none, message := "m" })
        { message := "feat: m", desc := "", sha := "", list_files := [] } none
        { changelog_path := "CL.md", parsing := .strict, exclude_unidentified := false,
          exclude_not_pr := false, omit_pr_link := false, omit_thanks := false,
          map := { map_section := fun _ => none, try_find_section := fun _ => none } }
      = .error ("No commit type found for this: " ++ "feat") :=
  ((get_release_note_fallback_spec _ _ _ _ (by rfl)).1
    { «section» := "feat", scope := none, message := "m" } (by rfl) (by rfl)).1 (by rfl)

/-! ## Line classification (C10) -/

/-- Counterexample for C10 as stated: the line `### [abc` contains the
substring `## [`, yet the release-title pattern does not match it (no
closing `]`), and the classifier files it as a section-title line. -/
theorem lineClass_contains_counterexample :
    containsSubstr ("### [abc".toList) ("## [".toList) = true ∧
    relMatch ("### [abc".toList) = false ∧
    lineClass ("### [abc".toList) = .sectionTitle := by
  refine ⟨by rfl, by rfl, by rfl⟩

theorem relMatch_cons (c : Char) (t : Str) :
    relMatch (c :: t) = (relHeadMatch (c :: t) || relMatch t) := by
  rfl

/-- C10 (amended): classification tests the release-title pattern before the
section-title pattern, and both are unanchored substring matches; every
line containing the substring `## [` followed later on the line (before any
newline) by `]` is classified as a release-title line and never as a
section-title line — in particular the section-like heading `### [X]` is;
a line containing `## [` with no closing `]` on the line is not a
release-title match and can be classified as a section-title line. -/
theorem lineClass_release_first :
    (∀ l, relMatch l = true → lineClass l = .releaseTitle) ∧
    (∀ l, lineClass l = .sectionTitle → relMatch l = false) ∧
    (∀ (a b : Str), closesBracket b = true →
      relMatch (a ++ ("## [".toList ++ b)) = true) ∧
    lineClass ("### [X]".toList) = .releaseTitle := by
  refine ⟨fun l h => by simp [lineClass, h], fun l h => ?_, fun a b hb => ?_, by rfl⟩
  · cases hr : relMatch l with
    | true => simp [lineClass, hr] at h
    | false => rfl
  · induction a with
    | nil =>
      show relMatch ('#' :: '#' :: ' ' :: '[' :: b) = true
      rw [relMatch_cons]
      have hh : relHeadMatch ('#' :: '#' :: ' ' :: '[' :: b) = true := hb
      rw [hh, Bool.true_or]
    | cons c a' ih =>
      rw [List.cons_append, relMatch_cons, ih, Bool.or_true]

/-- Witness for C10 (amended), at the line `### [X]`: the release pattern
matches it and it is classified as a release title. -/
theorem lineClass_release_first_witness :
    lineClass ("### [X]".toList) = .releaseTitle :=
  lineClass_release_first.1 ("### [X]".toList) (by rfl)

/-! ## Footer-link extraction (C2) -/

/-- Counterexample for C2 as stated: two trailing footer lines `[a]: 1` and
`[b]: 2` come back in `footLinks` bottom-to-top — `b` before `a` — not in
forward document order. -/
theorem footer_order_counterexample :
    parse_change_log ("## [Unreleased]\n[a]: 1\n[b]: 2\n".toList) =
      .ok { header := [],
            releases := [("Unreleased".toList,
              { version := "Unreleased".toList, title := none, notes := [] })],
            foot_links := [{ text := "b".toList, link := "2".toList },
                           { text := "a".toList, link := "1".toList }] } := by
  rfl

theorem splitInclusive_flatten : ∀ s : Str, (splitInclusive s).flatten = s := by
  intro s
  induction s with
  | nil => rfl
  | cons c rest ih =>
    by_cases hc : c = '\n'
    · subst hc; simp [splitInclusive, ih]
    · simp only [splitInclusive, if_neg hc]
      cases hsi : splitInclusive rest with
      | nil => rw [hsi] at ih; simpa using ih.symm ▸ rfl
      | cons l ls => rw [hsi] at ih; simpa using ih

theorem kept_append_block (lines : List Str) :
    footerKept lines ++ trailingFooterBlock lines = lines := by
  unfold footerKept trailingFooterBlock
  rw [← List.reverse_append, List.takeWhile_append_dropWhile, List.reverse_reverse]

theorem footerScan_ok_inv :
    ∀ (revLines : List Str) (links : List FootLink0) (off : Nat),
      footerScan revLines = .ok (links, off) →
      links = (revLines.takeWhile footerMatch).map extractFootLinkD ∧
      off = ((revLines.takeWhile footerMatch).map List.length).sum := by
  intro revLines
  induction revLines with
  | nil =>
    intro links off h
    simp only [footerScan, Except.ok.injEq, Prod.mk.injEq] at h
    exact ⟨h.1.symm, h.2.symm⟩
  | cons l rest ih =>
    intro links off h
    by_cases hm : footerMatch l
    · rw [footerScan, if_pos hm] at h
      cases hex : extractFootLink l with
      | error e => rw [hex] at h; simp at h
      | ok fl =>
        rw [hex] at h
        cases hscan : footerScan rest with
        | error e => rw [hscan] at h; simp at h
        | ok p =>
          obtain ⟨fls, off'⟩ := p
          rw [hscan] at h
          simp only [Except.ok.injEq, Prod.mk.injEq] at h
          obtain ⟨h1, h2⟩ := h
          obtain ⟨hl, ho⟩ := ih fls off' hscan
          subst h1 h2
          constructor
          · rw [List.takeWhile_cons_of_pos hm, List.map_cons, ← hl, extractFootLinkD, hex]
          · rw [List.takeWhile_cons_of_pos hm, List.map_cons, List.sum_cons, ← ho,
              Nat.add_comm]
    · rw [footerScan, if_neg hm] at h
      simp only [Except.ok.injEq, Prod.mk.injEq] at h
      obtain ⟨h1, h2⟩ := h
      rw [List.takeWhile_cons_of_neg (by simpa using hm)]
      simp [← h1, ← h2]

/-- C2 (amended): the backward scan of `parse_change_log` succeeds on the
trailing block of footer-matching lines whenever each of them yields a
link, collecting exactly those lines and their total length; on any
successful parse the stored `footLinks` are the links of that trailing
block in reverse (bottom-to-top) order, not forward order; and the byte
span removed before release parsing is exactly the trailing block, the
lines above it — in particular the first non-matching line — staying in
place. -/
theorem footer_extraction_spec :
    (∀ revLines : List Str,
      (∀ l ∈ revLines.takeWhile footerMatch, (extractFootLink l).isOk = true) →
      footerScan revLines =
        .ok ((revLines.takeWhile footerMatch).map extractFootLinkD,
             ((revLines.takeWhile footerMatch).map List.length).sum)) ∧
    (∀ (s : Str) (c : Changelog0), parse_change_log s = .ok c →
      c.foot_links = ((footerBlockOf s).map extractFootLinkD).reverse) ∧
    (∀ post : Str,
      post.take (post.length - ((trailingFooterBlock (splitInclusive post)).map List.length).sum)
        = (footerKept (splitInclusive post)).flatten) := by
  refine ⟨fun revLines hok => ?_, fun s c h => ?_, fun post => ?_⟩
  · induction revLines with
    | nil => rfl
    | cons l rest ih =>
      by_cases hm : footerMatch l
      · rw [List.takeWhile_cons_of_pos hm] at hok ⊢
        have hexok : (extractFootLink l).isOk = true := hok l (by simp)
        cases hex : extractFootLink l with
        | error e => rw [hex] at hexok; simp [Except.isOk, Except.toBool] at hexok
        | ok fl =>
          rw [footerScan, if_pos hm, hex]
          rw [ih fun x hx => hok x (by simp [hx])]
          simp only [Except.ok.injEq, Prod.mk.injEq]
          refine ⟨?_, by rw [List.map_cons, List.sum_cons]; omega⟩
          rw [List.map_cons, extractFootLinkD, hex]
      · rw [footerScan, if_neg hm, List.takeWhile_cons_of_neg (by simpa using hm)]
        rfl
  · unfold parse_change_log at h
    split at h
    · simp at h
    next pos hfind =>
      dsimp only [] at h
      split at h
      · simp at h
      next links off hscan =>
        split at h
        · simp at h
        next rels hrel =>
          obtain ⟨hl, _⟩ := footerScan_ok_inv _ _ _ hscan
          have hflinks : c.foot_links = links := by
            simp only [Except.ok.injEq] at h
            rw [← h]
          rw [hflinks, hl]
          unfold footerBlockOf
          rw [hfind]
          unfold trailingFooterBlock
          rw [List.map_reverse, List.reverse_reverse]
  · have hdecomp := kept_append_block (splitInclusive post)
    have hflat : (footerKept (splitInclusive post)).flatten
        ++ (trailingFooterBlock (splitInclusive post)).flatten = post := by
      rw [← List.flatten_append, hdecomp, splitInclusive_flatten]
    have hlen : ((trailingFooterBlock (splitInclusive post)).map List.length).sum
        = (trailingFooterBlock (splitInclusive post)).flatten.length := by
      rw [List.length_join]
    rw [hlen]
    generalize hK : (footerKept (splitInclusive post)).flatten = K at hflat ⊢
    generalize hB : (trailingFooterBlock (splitInclusive post)).flatten = B at hflat ⊢
    subst hflat
    rw [List.length_append, Nat.add_sub_cancel, List.take_left]

/-- Witness for C2 (amended) at a concrete reversed line list. -/
theorem footer_extraction_spec_witness :
    footerScan [("[b]: 2\n".toList), ("[a]: 1\n".toList), ("## [Unreleased]\n".toList)] =
      .ok ([{ text := "b".toList, link := "2".toList },
            { text := "a".toList, link := "1".toList }], 14) := by
  have h := footer_extraction_spec.1
    [("[b]: 2\n".toList), ("[a]: 1\n".toList), ("## [Unreleased]\n".toList)] (by decide)
  rw [h]
  rfl

/-! ## Parser totality (C3): pattern shape lemmas -/

theorem abHead_shape (s : Str) (h : abHead s = true) : ∃ rest, s = ']' :: ':' :: rest := by
  unfold abHead at h
  split at h
  · next rest => exact ⟨rest, rfl⟩
  · simp at h

theorem footerHeadMatch_shape (l : Str) (h : footerHeadMatch l = true) :
    ∃ rest, l = '[' :: rest ∧ afterBracket rest = true := by
  unfold footerHeadMatch at h
  split at h
  · next rest => exact ⟨rest, rfl, h⟩
  · simp at h

theorem relHeadMatch_shape (l : Str) (h : relHeadMatch l = true) :
    ∃ tail, l = '#' :: '#' :: ' ' :: '[' :: tail ∧ closesBracket tail = true := by
  unfold relHeadMatch at h
  split at h
  · next tail => exact ⟨tail, rfl, h⟩
  · simp at h

theorem afterBracket_mem (s : Str) (h : afterBracket s = true) : ']' ∈ s ∧ ':' ∈ s := by
  induction s with
  | nil => simp [afterBracket] at h
  | cons c t ih =>
    rw [afterBracket] at h
    by_cases hh : abHead (c :: t)
    · obtain ⟨rest, he⟩ := abHead_shape _ hh
      obtain ⟨rfl, rfl⟩ : c = ']' ∧ t = ':' :: rest := by
        injection he with h1 h2
        exact ⟨h1, h2⟩
      simp
    · rw [if_neg (by simpa using hh)] at h
      by_cases hs : abStop (c :: t)
      · rw [if_pos hs] at h; simp at h
      · rw [if_neg (by simpa using hs)] at h
        obtain ⟨h1, h2⟩ := ih h
        exact ⟨by simp [h1], by simp [h2]⟩

theorem footerMatch_mem (l : Str) (h : footerMatch l = true) :
    '[' ∈ l ∧ ']' ∈ l ∧ ':' ∈ l := by
  induction l with
  | nil => simp [footerMatch] at h
  | cons c t ih =>
    rw [footerMatch, Bool.or_eq_true] at h
    rcases h with h | h
    · obtain ⟨rest, he, hab⟩ := footerHeadMatch_shape _ h
      obtain ⟨rfl, rfl⟩ : c = '[' ∧ t = rest := by
        injection he with h1 h2
        exact ⟨h1, h2⟩
      obtain ⟨h1, h2⟩ := afterBracket_mem _ hab
      exact ⟨by simp, by simp [h1], by simp [h2]⟩
    · obtain ⟨h1, h2, h3⟩ := ih h
      exact ⟨by simp [h1], by simp [h2], by simp [h3]⟩

theorem idxOf_isSome_of_mem (c : Char) : ∀ s : Str, c ∈ s → (idxOf s c).isSome = true := by
  intro s hm
  induction s with
  | nil => simp at hm
  | cons x t ih =>
    rw [idxOf]
    by_cases hx : x = c
    · simp [hx]
    · rw [if_neg hx]
      rcases List.mem_cons.mp hm with h | h
      · exact absurd h.symm hx
      · simp [Option.isSome_map]
        have := ih h
        simpa [Option.isSome] using this

/-- On a footer-matching line the `memchr` unwraps cannot fire: a failing
extraction is exactly the label-slice panic. -/
theorem extractFootLink_classify (l : Str) (h : footerMatch l = true) :
    (extractFootLink l).isOk = true ∨ extractFootLink l = .error .footerSlice := by
  obtain ⟨h1, h2, h3⟩ := footerMatch_mem l h
  have hso := idxOf_isSome_of_mem '[' l h1
  have hse := idxOf_isSome_of_mem ']' l h2
  have hsc := idxOf_isSome_of_mem ':' l h3
  unfold extractFootLink
  cases hso' : idxOf l '[' with
  | none => rw [hso'] at hso; simp at hso
  | some start =>
    cases hse' : idxOf l ']' with
    | none => rw [hse'] at hse; simp at hse
    | some stop =>
      by_cases hlt : stop < start + 1
      · refine Or.inr ?_
        show (if stop < start + 1 then (throw ParseErr.footerSlice : Except ParseErr FootLink0)
          else _) = Except.error ParseErr.footerSlice
        rw [if_pos hlt]
        rfl
      · refine Or.inl ?_
        show (if stop < start + 1 then (throw ParseErr.footerSlice : Except ParseErr FootLink0)
          else _).isOk = true
        rw [if_neg hlt]
        cases hsc' : idxOf l ':' with
        | none => rw [hsc'] at hsc; simp at hsc
        | some colon => rfl

theorem footerScan_err_classify :
    ∀ (revLines : List Str) (e : ParseErr), footerScan revLines = .error e →
      e = .footerSlice := by
  intro revLines
  induction revLines with
  | nil => intro e h; simp [footerScan] at h
  | cons l rest ih =>
    intro e h
    by_cases hm : footerMatch l
    · rw [footerScan, if_pos hm] at h
      cases hex : extractFootLink l with
      | error e' =>
        rw [hex] at h
        rcases extractFootLink_classify l hm with hok | herr
        · rw [hex] at hok; simp [Except.isOk, Except.toBool] at hok
        · rw [hex] at herr
          injection h with h'
          injection herr with h''
          rw [← h', h'']
      | ok fl =>
        rw [hex] at h
        cases hscan : footerScan rest with
        | error e' =>
          rw [hscan] at h
          injection h with h'
          exact h' ▸ ih e' hscan
        | ok p => obtain ⟨a, b⟩ := p; rw [hscan] at h; simp at h
    · rw [footerScan, if_neg hm] at h
      simp at h

/-! ## Parser totality (C3): line-chunk structure -/

theorem splitInclusive_eq_nil : ∀ s : Str, splitInclusive s = [] → s = [] := by
  intro s h
  cases s with
  | nil => rfl
  | cons c t =>
    rw [splitInclusive] at h
    by_cases hc : c = '\n'
    · rw [if_pos hc] at h; simp at h
    · rw [if_neg hc] at h
      cases hsi : splitInclusive t with
      | nil => rw [hsi] at h; simp at h
      | cons l ls => rw [hsi] at h; simp at h

theorem wf_splitInclusive : ∀ s : Str, WfChunks (splitInclusive s) := by
  intro s
  induction s with
  | nil => exact .nil
  | cons c t ih =>
    rw [splitInclusive]
    by_cases hc : c = '\n'
    · rw [if_pos hc]
      exact .cons [] _ (by simp) ih
    · rw [if_neg hc]
      cases hsi : splitInclusive t with
      | nil =>
        refine .last [c] ?_ (by simp)
        simp only [List.mem_singleton]
        exact fun h => hc h.symm
      | cons l ls =>
        rw [hsi] at ih
        cases ih with
        | last _ hnl hne =>
          refine .last (c :: l) ?_ (by simp)
          simp only [List.mem_cons, not_or]
          exact ⟨fun h => hc h.symm, hnl⟩
        | cons body _ hnl hwf =>
          refine .cons (c :: body) ls ?_ hwf
          simp only [List.mem_cons, not_or]
          exact ⟨fun h => hc h.symm, hnl⟩

theorem splitInclusive_no_nl : ∀ x : Str, '\n' ∉ x → x ≠ [] → splitInclusive x = [x] := by
  intro x hnl hne
  induction x with
  | nil => simp at hne
  | cons c t ih =>
    have hc : c ≠ '\n' := by intro hh; exact hnl (by simp [hh])
    rw [splitInclusive, if_neg hc]
    cases ht : t with
    | nil => subst ht; rfl
    | cons a b =>
      rw [← ht]
      have := ih (fun hm => hnl (by simp [hm])) (by simp [ht])
      rw [this]

theorem splitInclusive_line : ∀ (body : Str), '\n' ∉ body →
    ∀ b : Str, splitInclusive (body ++ '\n' :: b) = (body ++ ['\n']) :: splitInclusive b := by
  intro body
  induction body with
  | nil => intro _ b; simp [splitInclusive]
  | cons c body' ih =>
    intro hnl b
    have hc : c ≠ '\n' := by intro hh; exact hnl (by simp [hh])
    have ih' := ih (fun hm => hnl (by simp [hm])) b
    show splitInclusive (c :: (body' ++ '\n' :: b)) = _
    rw [splitInclusive, if_neg hc, ih']
    rfl

theorem resplit : ∀ cs : List Str, WfChunks cs → splitInclusive cs.flatten = cs := by
  intro cs h
  induction h with
  | nil => rfl
  | last body hnl hne => simpa using splitInclusive_no_nl body hnl hne
  | cons body rest hnl _ ih =>
    rw [List.flatten_cons, List.append_assoc]
    show splitInclusive (body ++ '\n' :: rest.flatten) = _
    rw [splitInclusive_line body hnl, ih]

theorem WfChunks_tail : ∀ (c : Str) (cs : List Str), WfChunks (c :: cs) → WfChunks cs := by
  intro c cs h
  cases h with
  | last _ _ _ => exact .nil
  | cons _ _ _ hwf => exact hwf

theorem WfChunks_append_right : ∀ (a b : List Str), WfChunks (a ++ b) → WfChunks b := by
  intro a
  induction a with
  | nil => intro b h; exact h
  | cons c a' ih => intro b h; exact ih b (WfChunks_tail _ _ h)

theorem WfChunks_ne_nil : ∀ (l : Str) (cs : List Str), WfChunks (l :: cs) → l ≠ [] := by
  intro l cs h
  cases h with
  | last _ _ hne => exact hne
  | cons body _ _ _ => simp

/-! ## Parser totality (C3): trimming keeps the marker -/

theorem trimLeft_cons_of_not_ws (c : Char) (t : Str) (h : isWS c = false) :
    trimLeft (c :: t) = c :: t := by
  simp [trimLeft, List.dropWhile_cons, h]

theorem dropWhile_ws_append (c : Char) (hc : isWS c = false) :
    ∀ (rr rq : Str), ∃ y, (rr ++ c :: rq).dropWhile isWS = y ++ c :: rq := by
  intro rr rq
  induction rr with
  | nil => exact ⟨[], by simp [List.dropWhile_cons, hc]⟩
  | cons a rr' ih =>
    by_cases ha : isWS a
    · obtain ⟨y, hy⟩ := ih
      exact ⟨y, by simp [List.dropWhile_cons, ha, hy]⟩
    · exact ⟨a :: rr', by simp [List.dropWhile_cons, ha]⟩

theorem isPrefixOf_trimRight (q : Str) (c : Char) (hc : isWS c = false) :
    ∀ x : Str, (q ++ [c]).isPrefixOf x = true → (q ++ [c]).isPrefixOf (trimRight x) = true := by
  intro x hp
  obtain ⟨r, rfl⟩ := List.isPrefixOf_iff_prefix.mp hp
  unfold trimRight
  obtain ⟨y, hy⟩ := dropWhile_ws_append c hc r.reverse q.reverse
  have : (q ++ [c] ++ r).reverse = r.reverse ++ c :: q.reverse := by
    simp
  rw [this, hy]
  apply List.isPrefixOf_iff_prefix.mpr
  exact ⟨y.reverse, by simp⟩

theorem head_not_ws_trim (c : Char) (t : Str) (hc : isWS c = false) :
    trim (c :: t) = trimRight (c :: t) := by
  unfold trim
  rw [trimLeft_cons_of_not_ws c t hc]

theorem findSubstr_isPrefixOf :
    ∀ (s pat : Str) (pos : Nat), findSubstr s pat = some pos →
      pat.isPrefixOf (s.drop pos) = true := by
  intro s
  induction s with
  | nil =>
    intro pat pos h
    rw [findSubstr] at h
    by_cases hp : pat.isPrefixOf []
    · rw [if_pos hp] at h
      injection h with h'
      rw [← h']
      exact hp
    · rw [if_neg hp] at h; simp at h
  | cons c t ih =>
    intro pat pos h
    rw [findSubstr] at h
    by_cases hp : pat.isPrefixOf (c :: t)
    · rw [if_pos hp] at h
      injection h with h'
      rw [← h']
      exact hp
    · rw [if_neg hp] at h
      cases hf : findSubstr t pat with
      | none => rw [hf] at h; simp at h
      | some pos' =>
        rw [hf] at h
        simp at h
        rw [← h]
        simpa using ih pat pos' hf

theorem closesBracket_cons (c : Char) (t : Str) (hc : c ≠ '\n') :
    closesBracket (c :: t) = ((c = ']') || closesBracket t) := by
  unfold closesBracket
  rw [List.takeWhile_cons_of_pos (by simp [notNl, hc]), List.contains_cons]
  by_cases hcb : c = ']'
  · subst hcb; simp
  · have h1 : (']' == c) = false := by simpa using fun h => hcb h.symm
    have h2 : decide (c = ']') = false := by simpa using hcb
    rw [h1, h2]

theorem closesBracket_append_bracket :
    ∀ u : Str, '\n' ∉ u → ']' ∈ u → ∀ t2 : Str, closesBracket (u ++ t2) = true := by
  intro u
  induction u with
  | nil => intro _ hm; simp at hm
  | cons c u' ih =>
    intro hnl hm t2
    have hc : c ≠ '\n' := fun hh => hnl (by simp [hh])
    rw [List.cons_append, closesBracket_cons c _ hc]
    by_cases hcb : c = ']'
    · simp [hcb]
    · have hm' : ']' ∈ u' := by
        rcases List.mem_cons.mp hm with h | h
        · exact absurd h.symm hcb
        · exact h
      rw [ih (fun hh => hnl (by simp [hh])) hm' t2]
      simp

theorem prefix_of_firstLine (p s : Str) (hnl : '\n' ∉ p) (hne : s ≠ [])
    (hp : p.isPrefixOf s = true) : p.isPrefixOf (firstLine s) = true := by
  cases hsi : splitInclusive s with
  | nil => exact absurd (splitInclusive_eq_nil s hsi) hne
  | cons l ls =>
    have hwf := wf_splitInclusive s
    rw [hsi] at hwf
    have hflat : l ++ ls.flatten = s := by
      have := splitInclusive_flatten s
      rw [hsi] at this
      simpa using this
    have hl : firstLine s = l := by simp [firstLine, hsi]
    rw [hl]
    have hps : p.isPrefixOf (l ++ ls.flatten) = true := by rw [hflat]; exact hp
    cases hwf with
    | last _ _ _ =>
      simpa using hps
    | cons body _ hbnl _ =>
      by_cases hlen : p.length ≤ (body ++ ['\n']).length
      · apply List.isPrefixOf_iff_prefix.mpr
        have hpre := List.isPrefixOf_iff_prefix.mp hps
        have := List.prefix_iff_eq_take.mp hpre
        rw [List.take_append_of_le_length hlen] at this
        rw [this]
        exact List.take_prefix _ _
      · exfalso
        have h1 : List.IsPrefix (body ++ ['\n']) (body ++ ['\n'] ++ ls.flatten) :=
          List.prefix_append _ _
        have h2 : List.IsPrefix (body ++ ['\n']) p :=
          List.prefix_of_prefix_length_le h1 (List.isPrefixOf_iff_prefix.mp hps)
            (by omega)
        exact hnl (h2.subset (by simp))

theorem relMatch_of_marker : ∀ l : Str, unreleasedMarker.isPrefixOf l = true →
    relMatch l = true := by
  intro l hp
  obtain ⟨r, hr⟩ := List.isPrefixOf_iff_prefix.mp hp
  have hshape : l = '#' :: '#' :: ' ' :: '[' :: ("Unreleased]".toList ++ r) := by
    rw [← hr]; rfl
  rw [hshape, relMatch]
  have hh : relHeadMatch ('#' :: '#' :: ' ' :: '[' :: ("Unreleased]".toList ++ r)) =
      closesBracket ("Unreleased]".toList ++ r) := rfl
  rw [hh, closesBracket_append_bracket _ (by decide) (by decide) r]
  simp

/-! ## Parser totality (C3): the release extractor -/

theorem lineClass_rel_of (l : Str) (h : relMatch l = true) : lineClass l = .releaseTitle := by
  simp [lineClass, h]

theorem relMatch_of_lineClass (l : Str) (h : lineClass l = .releaseTitle) :
    relMatch l = true := by
  cases hr : relMatch l with
  | true => rfl
  | false =>
    unfold lineClass at h
    rw [hr] at h
    simp only [Bool.false_eq_true, if_false] at h
    by_cases hs : secMatch l
    · rw [if_pos hs] at h; simp at h
    · rw [if_neg hs] at h; simp at h

theorem contains_iff_mem_char (l : Str) (c : Char) : l.contains c = true ↔ c ∈ l :=
  List.elem_iff

theorem lastBracketIdx_isSome (s : Str) (h : ']' ∈ s) : (lastBracketIdx s).isSome = true := by
  unfold lastBracketIdx
  have := idxOf_isSome_of_mem ']' s.reverse (by simpa using h)
  cases hi : idxOf s.reverse ']' with
  | none => rw [hi] at this; simp at this
  | some i => simp

theorem relCapturesAt_isSome (rest : Str) (h : closesBracket rest = true) :
    (relCapturesAt rest).isSome = true := by
  have hm : ']' ∈ rest.takeWhile notNl :=
    (contains_iff_mem_char (rest.takeWhile notNl) ']').mp h
  have hsome := lastBracketIdx_isSome _ hm
  unfold relCapturesAt
  dsimp only []
  cases hl : lastBracketIdx (rest.takeWhile notNl) with
  | none => rw [hl] at hsome; simp at hsome
  | some i => simp

theorem relCaptures_isSome : ∀ l : Str, relMatch l = true → (relCaptures l).isSome = true := by
  intro l
  induction l with
  | nil => intro h; simp [relMatch] at h
  | cons c t ih =>
    intro h
    rw [relMatch, Bool.or_eq_true] at h
    rw [relCaptures]
    rcases h with h | h
    · obtain ⟨tail, he, hcb⟩ := relHeadMatch_shape _ h
      have hch : relCapturesHead (c :: t) = relCapturesAt tail := by
        rw [he]; rfl
      rw [hch]
      have := relCapturesAt_isSome tail hcb
      cases hc : relCapturesAt tail with
      | none => rw [hc] at this; simp at this
      | some r => simp
    · cases hch : relCapturesHead (c :: t) with
      | some r => simp
      | none => exact ih h

theorem sum_take_le_flatten_length (text : Str) (consumed lines : List Str)
    (h : splitInclusive text = consumed ++ lines) :
    ((consumed.map List.length).sum) ≤ text.length ∧
    text.drop ((consumed.map List.length).sum) = lines.flatten := by
  have hflat : consumed.flatten ++ lines.flatten = text := by
    rw [← List.flatten_append, ← h, splitInclusive_flatten]
  have hsum : (consumed.map List.length).sum = consumed.flatten.length := by
    rw [List.length_join]
  constructor
  · rw [hsum, ← hflat]
    simp
  · rw [hsum, ← hflat, List.drop_left]

theorem firstLine_flatten (lines : List Str) (hwf : WfChunks lines) :
    firstLine lines.flatten = lines.headD [] := by
  unfold firstLine
  rw [resplit lines hwf]

theorem releaseClose_no_none : ∀ (text : Str) (st : RState) (v t : Option Str)
    (notes : List (Str × Str)) (pos : Nat), st ≠ .init →
    releaseClose text st v t notes pos ≠ .ok none := by
  intro text st v t notes pos hst h
  cases st with
  | init => exact hst rfl
  | title =>
    cases v with
    | none =>
      have h' : (Except.error ParseErr.captureUnwrap :
          Except ParseErr (Option (Release0 × Nat))) = .ok none := h
      simp at h'
    | some v0 =>
      have h' : (Except.ok (some ({ version := v0, title := t, notes := notes }, pos)) :
          Except ParseErr (Option (Release0 × Nat))) = .ok none := h
      simp at h'
  | «section» t1 start stop =>
    cases v with
    | none =>
      have h' : (Except.error ParseErr.captureUnwrap :
          Except ParseErr (Option (Release0 × Nat))) = .ok none := h
      simp at h'
    | some v0 =>
      have h' : (Except.ok
          (some ({ version := v0, title := t,
                   notes := insertIndexMap notes t1 (trim (sliceStr text start stop)) },
                 pos)) :
          Except ParseErr (Option (Release0 × Nat))) = .ok none := h
      simp at h'

theorem releaseClose_ok_off : ∀ (text : Str) (st : RState) (v t : Option Str)
    (notes : List (Str × Str)) (pos : Nat) (rel : Release0) (off : Nat),
    releaseClose text st v t notes pos = .ok (some (rel, off)) → off = pos := by
  intro text st v t notes pos rel off h
  cases st with
  | init =>
    have h' : (Except.ok none : Except ParseErr (Option (Release0 × Nat))) =
        .ok (some (rel, off)) := h
    simp at h'
  | title =>
    cases v with
    | none =>
      have h' : (Except.error ParseErr.captureUnwrap :
          Except ParseErr (Option (Release0 × Nat))) = .ok (some (rel, off)) := h
      simp at h'
    | some v0 =>
      have h' : (Except.ok (some ({ version := v0, title := t, notes := notes }, pos)) :
          Except ParseErr (Option (Release0 × Nat))) = .ok (some (rel, off)) := h
      simp only [Except.ok.injEq, Option.some.injEq, Prod.mk.injEq] at h'
      exact h'.2.symm
  | «section» t1 start stop =>
    cases v with
    | none =>
      have h' : (Except.error ParseErr.captureUnwrap :
          Except ParseErr (Option (Release0 × Nat))) = .ok (some (rel, off)) := h
      simp at h'
    | some v0 =>
      have h' : (Except.ok
          (some ({ version := v0, title := t,
                   notes := insertIndexMap notes t1 (trim (sliceStr text start stop)) },
                 pos)) :
          Except ParseErr (Option (Release0 × Nat))) = .ok (some (rel, off)) := h
      simp only [Except.ok.injEq, Option.some.injEq, Prod.mk.injEq] at h'
      exact h'.2.symm

theorem releaseNewLoop_cons_rel (text l0 : Str) (rest : List Str) (st : RState)
    (v t : Option Str) (notes : List (Str × Str)) (pos : Nat)
    (hlc : lineClass l0 = .releaseTitle) :
    releaseNewLoop text (l0 :: rest) st v t notes pos =
      match st with
      | .init =>
        match relCaptures l0 with
        | some (cv, ct) =>
          releaseNewLoop text rest .title (some cv) ct notes (pos + l0.length)
        | none => throw .captureUnwrap
      | .title => releaseClose text .title v t notes pos
      | .«section» t1 start stop =>
        releaseClose text (.«section» t1 start stop) v t
          (insertIndexMap notes t1 (trim (sliceStr text start stop))) pos := by
  cases st <;> (rw [releaseNewLoop, hlc]; try rfl)

theorem releaseNewLoop_cons_sec (text l0 : Str) (rest : List Str) (st : RState)
    (v t : Option Str) (notes : List (Str × Str)) (pos : Nat)
    (hlc : lineClass l0 = .sectionTitle) :
    releaseNewLoop text (l0 :: rest) st v t notes pos =
      match st with
      | .init => throw (.sectionBeforeTitle l0)
      | .title =>
        match byteDrop "### ".length l0 with
        | none => throw .sectionSlice
        | some tail =>
          releaseNewLoop text rest
            (.«section» (trim tail) (pos + l0.length) (pos + l0.length))
            v t notes (pos + l0.length)
      | .«section» t1 start stop =>
        match byteDrop "### ".length l0 with
        | none => throw .sectionSlice
        | some tail =>
          releaseNewLoop text rest
            (.«section» (trim tail) (pos + l0.length) (pos + l0.length))
            v t (insertIndexMap notes t1 (trim (sliceStr text start stop)))
            (pos + l0.length) := by
  cases st <;> (rw [releaseNewLoop, hlc]; try rfl)

theorem releaseNewLoop_cons_other (text l0 : Str) (rest : List Str) (st : RState)
    (v t : Option Str) (notes : List (Str × Str)) (pos : Nat)
    (hlc : lineClass l0 = .other) :
    releaseNewLoop text (l0 :: rest) st v t notes pos =
      match st with
      | .«section» t1 start stop =>
        releaseNewLoop text rest (.«section» t1 start (stop + l0.length))
          v t notes (pos + l0.length)
      | st => releaseNewLoop text rest st v t notes (pos + l0.length) := by
  cases st <;> (rw [releaseNewLoop, hlc]; try rfl)

theorem nonInit_no_none : ∀ (lines : List Str) (text : Str) (st : RState)
    (v t : Option Str) (notes : List (Str × Str)) (pos : Nat), st ≠ .init →
    releaseNewLoop text lines st v t notes pos ≠ .ok none := by
  intro lines
  induction lines with
  | nil =>
    intro text st v t notes pos hst h
    exact releaseClose_no_none text st v t notes pos hst h
  | cons l0 rest ih =>
    intro text st v t notes pos hst h
    cases hlc : lineClass l0 with
    | releaseTitle =>
      rw [releaseNewLoop_cons_rel text l0 rest st v t notes pos hlc] at h
      cases st with
      | init => exact hst rfl
      | title => exact releaseClose_no_none text .title v t notes pos (by simp) h
      | «section» t1 start stop =>
        exact releaseClose_no_none text (.«section» t1 start stop) v t
          (insertIndexMap notes t1 (trim (sliceStr text start stop))) pos (by simp) h
    | sectionTitle =>
      rw [releaseNewLoop_cons_sec text l0 rest st v t notes pos hlc] at h
      cases st with
      | init => exact hst rfl
      | title =>
        cases hbd : byteDrop "### ".length l0 with
        | none =>
          rw [hbd] at h
          have h' : (Except.error ParseErr.sectionSlice :
              Except ParseErr (Option (Release0 × Nat))) = .ok none := h
          simp at h'
        | some tail =>
          rw [hbd] at h
          exact ih text (.«section» (trim tail) (pos + l0.length) (pos + l0.length))
            v t notes (pos + l0.length) (by simp) h
      | «section» t1 start stop =>
        cases hbd : byteDrop "### ".length l0 with
        | none =>
          rw [hbd] at h
          have h' : (Except.error ParseErr.sectionSlice :
              Except ParseErr (Option (Release0 × Nat))) = .ok none := h
          simp at h'
        | some tail =>
          rw [hbd] at h
          exact ih text (.«section» (trim tail) (pos + l0.length) (pos + l0.length))
            v t (insertIndexMap notes t1 (trim (sliceStr text start stop)))
            (pos + l0.length) (by simp) h
    | other =>
      rw [releaseNewLoop_cons_other text l0 rest st v t notes pos hlc] at h
      cases st with
      | init => exact hst rfl
      | title => exact ih text .title v t notes (pos + l0.length) (by simp) h
      | «section» t1 start stop =>
        exact ih text (.«section» t1 start (stop + l0.length)) v t notes
          (pos + l0.length) (by simp) h

theorem releaseNewLoop_init_none : ∀ (lines : List Str) (text : Str)
    (v t : Option Str) (notes : List (Str × Str)) (pos : Nat),
    releaseNewLoop text lines .init v t notes pos = .ok none →
    ∀ l ∈ lines, lineClass l = .other := by
  intro lines
  induction lines with
  | nil =>
    intro text v t notes pos h l hl
    exact absurd hl (List.not_mem_nil l)
  | cons l0 rest ih =>
    intro text v t notes pos h l hl
    cases hlc : lineClass l0 with
    | releaseTitle =>
      rw [releaseNewLoop_cons_rel text l0 rest .init v t notes pos hlc] at h
      cases hcap : relCaptures l0 with
      | none =>
        rw [hcap] at h
        have h' : (Except.error ParseErr.captureUnwrap :
            Except ParseErr (Option (Release0 × Nat))) = .ok none := h
        simp at h'
      | some p =>
        obtain ⟨cv, ct⟩ := p
        rw [hcap] at h
        exact absurd h (nonInit_no_none rest text .title (some cv) ct notes
          (pos + l0.length) (by simp))
    | sectionTitle =>
      rw [releaseNewLoop_cons_sec text l0 rest .init v t notes pos hlc] at h
      have h' : (Except.error (ParseErr.sectionBeforeTitle l0) :
          Except ParseErr (Option (Release0 × Nat))) = .ok none := h
      simp at h'
    | other =>
      rw [releaseNewLoop_cons_other text l0 rest .init v t notes pos hlc] at h
      rcases List.mem_cons.mp hl with rfl | hl'
      · exact hlc
      · exact ih text v t notes (pos + l0.length) h l hl'
theorem releaseNewLoop_cases :
    ∀ (lines : List Str) (text : Str) (consumed : List Str) (st : RState)
      (v : Option Str) (t : Option Str) (notes : List (Str × Str)),
      splitInclusive text = consumed ++ lines →
      st ≠ .init → v.isSome = true →
      (∃ rel off,
        releaseNewLoop text lines st v t notes ((consumed.map List.length).sum) =
          .ok (some (rel, off)) ∧
        (consumed.map List.length).sum ≤ off ∧ off ≤ text.length ∧
        (text.drop off = [] ∨ relMatch (firstLine (text.drop off)) = true) ∧
        ∃ pre, splitInclusive text = pre ++ splitInclusive (text.drop off)) ∨
      (releaseNewLoop text lines st v t notes ((consumed.map List.length).sum) =
          .error .sectionSlice ∧
        ∃ l, l ∈ lines ∧ lineClass l = .sectionTitle ∧
          byteDrop "### ".length l = none) := by
  intro lines
  induction lines with
  | nil =>
    intro text consumed st v t notes hsplit hst hv
    obtain ⟨v0, hv0⟩ := Option.isSome_iff_exists.mp hv
    obtain ⟨hle, hdrop⟩ := sum_take_le_flatten_length text consumed [] hsplit
    have hofflen : (consumed.map List.length).sum = text.length := by
      have h1 : splitInclusive text = consumed := by simpa using hsplit
      have h2 := splitInclusive_flatten text
      rw [h1] at h2
      have h3 : consumed.flatten.length = (consumed.map List.length).sum :=
        List.length_join consumed
      rw [← h3, h2]
    have hdn : text.drop ((consumed.map List.length).sum) = [] := by
      rw [hofflen]
      simp
    cases st with
    | init => exact absurd rfl hst
    | title =>
      refine Or.inl ⟨{ version := v0, title := t, notes := notes },
        (consumed.map List.length).sum, ?_, le_refl _, hle, Or.inl hdn, consumed, ?_⟩
      · show releaseClose text .title v t notes _ = _
        rw [releaseClose.eq_def, hv0]
        rfl
      · rw [hdn]
        show splitInclusive text = consumed ++ ([] : List Str)
        simpa using hsplit
    | «section» st1 start stop =>
      refine Or.inl
        ⟨{ version := v0, title := t,
           notes := insertIndexMap notes st1 (trim (sliceStr text start stop)) },
         (consumed.map List.length).sum, ?_, le_refl _, hle, Or.inl hdn, consumed, ?_⟩
      · show releaseClose text (.«section» st1 start stop) v t notes _ = _
        rw [releaseClose.eq_def, hv0]
        rfl
      · rw [hdn]
        show splitInclusive text = consumed ++ ([] : List Str)
        simpa using hsplit
  | cons l rest ih =>
    intro text consumed st v t notes hsplit hst hv
    obtain ⟨v0, hv0⟩ := Option.isSome_iff_exists.mp hv
    obtain ⟨hle, hdrop⟩ := sum_take_le_flatten_length text consumed (l :: rest) hsplit
    have hwfl : WfChunks (l :: rest) := by
      have := wf_splitInclusive text
      rw [hsplit] at this
      exact WfChunks_append_right consumed (l :: rest) this
    have hres : splitInclusive (text.drop ((consumed.map List.length).sum)) = l :: rest := by
      rw [hdrop]
      exact resplit _ hwfl
    have hsplit' : splitInclusive text = (consumed ++ [l]) ++ rest := by
      rw [hsplit, List.append_assoc]
      rfl
    have hsum' : ((consumed ++ [l]).map List.length).sum =
        (consumed.map List.length).sum + l.length := by
      simp
    cases hlc : lineClass l with
    | releaseTitle =>
      have hfl : relMatch (firstLine (text.drop ((consumed.map List.length).sum))) = true := by
        rw [hdrop, firstLine_flatten _ hwfl]
        exact relMatch_of_lineClass l hlc
      cases st with
      | init => exact absurd rfl hst
      | title =>
        refine Or.inl ⟨{ version := v0, title := t, notes := notes },
          (consumed.map List.length).sum, ?_, le_refl _, hle, Or.inr hfl, consumed, ?_⟩
        · show releaseNewLoop text (l :: rest) .title v t notes _ = _
          rw [releaseNewLoop, hlc]
          show releaseClose text .title v t notes _ = _
          rw [releaseClose.eq_def, hv0]
          rfl
        · rw [hres]
          exact hsplit
      | «section» st1 start stop =>
        refine Or.inl
          ⟨{ version := v0, title := t,
             notes := insertIndexMap
               (insertIndexMap notes st1 (trim (sliceStr text start stop)))
               st1 (trim (sliceStr text start stop)) },
           (consumed.map List.length).sum, ?_, le_refl _, hle, Or.inr hfl, consumed, ?_⟩
        · show releaseNewLoop text (l :: rest) (.«section» st1 start stop) v t notes _ = _
          rw [releaseNewLoop, hlc]
          show releaseClose text (.«section» st1 start stop) v t
            (insertIndexMap notes st1 (trim (sliceStr text start stop))) _ = _
          rw [releaseClose.eq_def, hv0]
          rfl
        · rw [hres]
          exact hsplit
    | sectionTitle =>
      cases st with
      | init => exact absurd rfl hst
      | title =>
        cases hbd : byteDrop "### ".length l with
        | none =>
          refine Or.inr ⟨?_, l, List.mem_cons_self l rest, hlc, hbd⟩
          rw [releaseNewLoop, hlc, hbd]
          rfl
        | some tail =>
          rcases ih text (consumed ++ [l])
            (.«section» (trim tail)
              ((consumed.map List.length).sum + l.length)
              ((consumed.map List.length).sum + l.length))
            v t notes hsplit' (by simp) hv with
            ⟨rel, off, heq, h1, h2, h3, pre, hpre⟩ | ⟨herr, lbad, hmem, hlcb, hbdb⟩
          · rw [hsum'] at heq h1
            refine Or.inl ⟨rel, off, ?_, by omega, h2, h3, pre, hpre⟩
            rw [releaseNewLoop, hlc, hbd]
            exact heq
          · rw [hsum'] at herr
            refine Or.inr ⟨?_, lbad, List.mem_cons_of_mem l hmem, hlcb, hbdb⟩
            rw [releaseNewLoop, hlc, hbd]
            exact herr
      | «section» st1 start stop =>
        cases hbd : byteDrop "### ".length l with
        | none =>
          refine Or.inr ⟨?_, l, List.mem_cons_self l rest, hlc, hbd⟩
          rw [releaseNewLoop, hlc, hbd]
          rfl
        | some tail =>
          rcases ih text (consumed ++ [l])
            (.«section» (trim tail)
              ((consumed.map List.length).sum + l.length)
              ((consumed.map List.length).sum + l.length))
            v t (insertIndexMap notes st1 (trim (sliceStr text start stop))) hsplit'
            (by simp) hv with
            ⟨rel, off, heq, h1, h2, h3, pre, hpre⟩ | ⟨herr, lbad, hmem, hlcb, hbdb⟩
          · rw [hsum'] at heq h1
            refine Or.inl ⟨rel, off, ?_, by omega, h2, h3, pre, hpre⟩
            rw [releaseNewLoop, hlc, hbd]
            exact heq
          · rw [hsum'] at herr
            refine Or.inr ⟨?_, lbad, List.mem_cons_of_mem l hmem, hlcb, hbdb⟩
            rw [releaseNewLoop, hlc, hbd]
            exact herr
    | other =>
      cases st with
      | init => exact absurd rfl hst
      | title =>
        rcases ih text (consumed ++ [l]) .title v t notes hsplit' (by simp) hv with
          ⟨rel, off, heq, h1, h2, h3, pre, hpre⟩ | ⟨herr, lbad, hmem, hlcb, hbdb⟩
        · rw [hsum'] at heq h1
          refine Or.inl ⟨rel, off, ?_, by omega, h2, h3, pre, hpre⟩
          rw [releaseNewLoop, hlc]
          exact heq
        · rw [hsum'] at herr
          refine Or.inr ⟨?_, lbad, List.mem_cons_of_mem l hmem, hlcb, hbdb⟩
          rw [releaseNewLoop, hlc]
          exact herr
      | «section» st1 start stop =>
        rcases ih text (consumed ++ [l])
          (.«section» st1 start (stop + l.length)) v t notes hsplit' (by simp) hv with
          ⟨rel, off, heq, h1, h2, h3, pre, hpre⟩ | ⟨herr, lbad, hmem, hlcb, hbdb⟩
        · rw [hsum'] at heq h1
          refine Or.inl ⟨rel, off, ?_, by omega, h2, h3, pre, hpre⟩
          rw [releaseNewLoop, hlc]
          exact heq
        · rw [hsum'] at herr
          refine Or.inr ⟨?_, lbad, List.mem_cons_of_mem l hmem, hlcb, hbdb⟩
          rw [releaseNewLoop, hlc]
          exact herr

theorem releaseNewLoop_ok_inv :
    ∀ (lines : List Str) (text : Str) (consumed : List Str) (st : RState)
      (v t : Option Str) (notes : List (Str × Str)) (rel : Release0) (off : Nat),
      releaseNewLoop text lines st v t notes ((consumed.map List.length).sum) =
        .ok (some (rel, off)) →
      ∃ proc rest2, lines = proc ++ rest2 ∧
        off = (((consumed ++ proc).map List.length).sum) ∧
        ∀ l ∈ proc, lineClass l = .sectionTitle →
          (byteDrop "### ".length l).isSome = true := by
  intro lines
  induction lines with
  | nil =>
    intro text consumed st v t notes rel off h
    have h2 : releaseClose text st v t notes ((consumed.map List.length).sum) =
        .ok (some (rel, off)) := h
    have hoff := releaseClose_ok_off text st v t notes _ rel off h2
    refine ⟨[], [], rfl, ?_, ?_⟩
    · rw [List.append_nil]
      exact hoff
    · intro l hl
      exact absurd hl (List.not_mem_nil l)
  | cons l0 rest ih =>
    intro text consumed st v t notes rel off h
    have hsum' : ((consumed ++ [l0]).map List.length).sum =
        (consumed.map List.length).sum + l0.length := by
      simp
    have hassoc : ∀ proc2 : List Str,
        ((consumed ++ [l0]) ++ proc2) = consumed ++ (l0 :: proc2) := by
      intro proc2
      simp
    cases hlc : lineClass l0 with
    | releaseTitle =>
      rw [releaseNewLoop_cons_rel text l0 rest st v t notes _ hlc] at h
      cases st with
      | init =>
        cases hcap : relCaptures l0 with
        | none =>
          rw [hcap] at h
          have h' : (Except.error ParseErr.captureUnwrap :
              Except ParseErr (Option (Release0 × Nat))) = .ok (some (rel, off)) := h
          simp at h'
        | some p =>
          obtain ⟨cv, ct⟩ := p
          rw [hcap] at h
          rw [← hsum'] at h
          obtain ⟨proc, rest2, hl2, hoff, hgood⟩ :=
            ih text (consumed ++ [l0]) .title (some cv) ct notes rel off h
          refine ⟨l0 :: proc, rest2, by simp [hl2], ?_, ?_⟩
          · rw [hoff, hassoc]
          · intro l hl hsec
            rcases List.mem_cons.mp hl with rfl | hl'
            · rw [hlc] at hsec
              cases hsec
            · exact hgood l hl' hsec
      | title =>
        have hoff := releaseClose_ok_off text .title v t notes _ rel off h
        refine ⟨[], l0 :: rest, rfl, ?_, ?_⟩
        · rw [List.append_nil]
          exact hoff
        · intro l hl
          exact absurd hl (List.not_mem_nil l)
      | «section» st1 start stop =>
        have hoff := releaseClose_ok_off text (.«section» st1 start stop) v t
          (insertIndexMap notes st1 (trim (sliceStr text start stop))) _ rel off h
        refine ⟨[], l0 :: rest, rfl, ?_, ?_⟩
        · rw [List.append_nil]
          exact hoff
        · intro l hl
          exact absurd hl (List.not_mem_nil l)
    | sectionTitle =>
      rw [releaseNewLoop_cons_sec text l0 rest st v t notes _ hlc] at h
      cases st with
      | init =>
        have h' : (Except.error (ParseErr.sectionBeforeTitle l0) :
            Except ParseErr (Option (Release0 × Nat))) = .ok (some (rel, off)) := h
        simp at h'
      | title =>
        cases hbd : byteDrop "### ".length l0 with
        | none =>
          rw [hbd] at h
          have h' : (Except.error ParseErr.sectionSlice :
              Except ParseErr (Option (Release0 × Nat))) = .ok (some (rel, off)) := h
          simp at h'
        | some tail =>
          rw [hbd] at h
          rw [← hsum'] at h
          obtain ⟨proc, rest2, hl2, hoff, hgood⟩ :=
            ih text (consumed ++ [l0])
              (.«section» (trim tail)
                (((consumed ++ [l0]).map List.length).sum)
                (((consumed ++ [l0]).map List.length).sum))
              v t notes rel off h
          refine ⟨l0 :: proc, rest2, by simp [hl2], ?_, ?_⟩
          · rw [hoff, hassoc]
          · intro l hl hsec
            rcases List.mem_cons.mp hl with rfl | hl'
            · rw [hbd]
              rfl
            · exact hgood l hl' hsec
      | «section» st1 start stop =>
        cases hbd : byteDrop "### ".length l0 with
        | none =>
          rw [hbd] at h
          have h' : (Except.error ParseErr.sectionSlice :
              Except ParseErr (Option (Release0 × Nat))) = .ok (some (rel, off)) := h
          simp at h'
        | some tail =>
          rw [hbd] at h
          rw [← hsum'] at h
          obtain ⟨proc, rest2, hl2, hoff, hgood⟩ :=
            ih text (consumed ++ [l0])
              (.«section» (trim tail)
                (((consumed ++ [l0]).map List.length).sum)
                (((consumed ++ [l0]).map List.length).sum))
              v t (insertIndexMap notes st1 (trim (sliceStr text start stop))) rel off h
          refine ⟨l0 :: proc, rest2, by simp [hl2], ?_, ?_⟩
          · rw [hoff, hassoc]
          · intro l hl hsec
            rcases List.mem_cons.mp hl with rfl | hl'
            · rw [hbd]
              rfl
            · exact hgood l hl' hsec
    | other =>
      rw [releaseNewLoop_cons_other text l0 rest st v t notes _ hlc] at h
      cases st with
      | init =>
        rw [← hsum'] at h
        obtain ⟨proc, rest2, hl2, hoff, hgood⟩ :=
          ih text (consumed ++ [l0]) .init v t notes rel off h
        refine ⟨l0 :: proc, rest2, by simp [hl2], ?_, ?_⟩
        · rw [hoff, hassoc]
        · intro l hl hsec
          rcases List.mem_cons.mp hl with rfl | hl'
          · rw [hlc] at hsec
            cases hsec
          · exact hgood l hl' hsec
      | title =>
        rw [← hsum'] at h
        obtain ⟨proc, rest2, hl2, hoff, hgood⟩ :=
          ih text (consumed ++ [l0]) .title v t notes rel off h
        refine ⟨l0 :: proc, rest2, by simp [hl2], ?_, ?_⟩
        · rw [hoff, hassoc]
        · intro l hl hsec
          rcases List.mem_cons.mp hl with rfl | hl'
          · rw [hlc] at hsec
            cases hsec
          · exact hgood l hl' hsec
      | «section» st1 start stop =>
        rw [← hsum'] at h
        obtain ⟨proc, rest2, hl2, hoff, hgood⟩ :=
          ih text (consumed ++ [l0]) (.«section» st1 start (stop + l0.length))
            v t notes rel off h
        refine ⟨l0 :: proc, rest2, by simp [hl2], ?_, ?_⟩
        · rw [hoff, hassoc]
        · intro l hl hsec
          rcases List.mem_cons.mp hl with rfl | hl'
          · rw [hlc] at hsec
            cases hsec
          · exact hgood l hl' hsec

/-! ## Parser totality and failure modes (C3): assembling `parse_change_log` -/

theorem Release0_new_cases (text : Str) (h : relMatch (firstLine text) = true) :
    (∃ rel off, Release0.new text = .ok (some (rel, off)) ∧ 0 < off ∧ off ≤ text.length ∧
      (text.drop off = [] ∨ relMatch (firstLine (text.drop off)) = true) ∧
      ∃ pre, splitInclusive text = pre ++ splitInclusive (text.drop off)) ∨
    (Release0.new text = .error .sectionSlice ∧
      ∃ l, l ∈ splitInclusive text ∧ lineClass l = .sectionTitle ∧
        byteDrop "### ".length l = none) := by
  cases hsi : splitInclusive text with
  | nil =>
    have hte : text = [] := splitInclusive_eq_nil text hsi
    subst hte
    exact absurd h (by decide)
  | cons l rest =>
    have hwf := wf_splitInclusive text
    rw [hsi] at hwf
    have hfl : firstLine text = l := by simp [firstLine, hsi]
    rw [hfl] at h
    have hlc := lineClass_rel_of l h
    have hcap := relCaptures_isSome l h
    obtain ⟨⟨v, t⟩, hcap'⟩ := Option.isSome_iff_exists.mp hcap
    have hne : l ≠ [] := WfChunks_ne_nil l rest hwf
    have hstep : Release0.new text =
        releaseNewLoop text rest .title (some v) t [] (0 + l.length) := by
      unfold Release0.new
      rw [hsi, releaseNewLoop, hlc, hcap']
    have hsplit : splitInclusive text = [l] ++ rest := by rw [hsi]; rfl
    have hsum : (([l].map List.length).sum) = 0 + l.length := by simp
    have hlp : 0 < l.length := List.length_pos.mpr hne
    rcases releaseNewLoop_cases rest text [l] .title (some v) t [] hsplit (by simp) rfl with
      ⟨rel, off, heq, h1, h2, h3, pre, hpre⟩ | ⟨herr, lbad, hmem, hlcb, hbdb⟩
    · rw [hsum] at heq h1
      refine Or.inl ⟨rel, off, by rw [hstep, heq], by omega, h2, h3, pre, ?_⟩
      rw [← hsi]
      exact hpre
    · rw [hsum] at herr
      refine Or.inr ⟨by rw [hstep, herr], lbad, ?_, hlcb, hbdb⟩
      exact List.mem_cons_of_mem l hmem

theorem parseReleasesLoop_cases :
    ∀ (fuel : Nat) (text : Str) (releases : List (Str × Release0)),
      text.length < fuel →
      (text = [] ∨ relMatch (firstLine text) = true) →
      (∃ rels, parseReleasesLoop fuel text releases = .ok rels) ∨
      (parseReleasesLoop fuel text releases = .error .sectionSlice ∧
        ∃ l, l ∈ splitInclusive text ∧ lineClass l = .sectionTitle ∧
          byteDrop "### ".length l = none) := by
  intro fuel
  induction fuel with
  | zero => intro text releases hlt _; omega
  | succ fuel ih =>
    intro text releases hlt hd
    rcases hd with rfl | hrel
    · refine Or.inl ⟨releases, ?_⟩
      rw [parseReleasesLoop]
      rfl
    · rcases Release0_new_cases text hrel with
        ⟨rel, off, hnew, hpos, hle, hdisj, pre, hpre⟩ | ⟨herr, lbad, hmem, hlcb, hbdb⟩
      · rcases ih (text.drop off) (insertIndexMap releases rel.version rel)
          (by rw [List.length_drop]; omega) hdisj with
          ⟨rels, hrec⟩ | ⟨herr2, lbad, hmem, hlcb, hbdb⟩
        · refine Or.inl ⟨rels, ?_⟩
          rw [parseReleasesLoop, hnew]
          exact hrec
        · refine Or.inr ⟨?_, lbad, ?_, hlcb, hbdb⟩
          · rw [parseReleasesLoop, hnew]
            exact herr2
          · rw [hpre]
            exact List.mem_append_right pre hmem
      · refine Or.inr ⟨?_, lbad, hmem, hlcb, hbdb⟩
        rw [parseReleasesLoop, herr]

theorem parseReleasesLoop_ok_inv :
    ∀ (fuel : Nat) (text : Str) (releases rels : List (Str × Release0)),
      parseReleasesLoop fuel text releases = .ok rels →
      ∀ l ∈ splitInclusive text, lineClass l = .sectionTitle →
        (byteDrop "### ".length l).isSome = true := by
  intro fuel
  induction fuel with
  | zero =>
    intro text releases rels h
    have h' : (Except.error ParseErr.fuelExhausted :
        Except ParseErr (List (Str × Release0))) = .ok rels := h
    simp at h'
  | succ fuel ih =>
    intro text releases rels h l hl hsec
    rw [parseReleasesLoop] at h
    cases hnew : Release0.new text with
    | error e =>
      rw [hnew] at h
      have h' : (Except.error e : Except ParseErr (List (Str × Release0))) = .ok rels := h
      simp at h'
    | ok o =>
      cases o with
      | none =>
        have hnew' : releaseNewLoop text (splitInclusive text) .init none none [] 0 =
            .ok none := hnew
        have hother := releaseNewLoop_init_none (splitInclusive text) text
          none none [] 0 hnew' l hl
        rw [hother] at hsec
        cases hsec
      | some p =>
        obtain ⟨rel, off⟩ := p
        rw [hnew] at h
        have hnew' : releaseNewLoop text (splitInclusive text) .init none none [] 0 =
            .ok (some (rel, off)) := hnew
        obtain ⟨proc, rest2, hl2, hoff, hgood⟩ :=
          releaseNewLoop_ok_inv (splitInclusive text) text [] .init none none []
            rel off hnew'
        have hoff' : off = ((proc.map List.length).sum) := hoff
        rw [hl2] at hl
        rcases List.mem_append.mp hl with hin | hin
        · exact hgood l hin hsec
        · have hwf := wf_splitInclusive text
          rw [hl2] at hwf
          have hwfr := WfChunks_append_right proc rest2 hwf
          have hdrop : text.drop off = rest2.flatten := by
            have hstl := sum_take_le_flatten_length text proc rest2 hl2
            rw [hoff']
            exact hstl.2
          have hres2 : splitInclusive (text.drop off) = rest2 := by
            rw [hdrop]
            exact resplit _ hwfr
          exact ih (text.drop off) (insertIndexMap releases rel.version rel) rels h l
            (by rw [hres2]; exact hin) hsec
theorem footerScan_ok_of :
    ∀ revLines : List Str,
      (∀ l ∈ revLines.takeWhile footerMatch, (extractFootLink l).isOk = true) →
      ∃ links off, footerScan revLines = .ok (links, off) := by
  intro revLines
  induction revLines with
  | nil => intro _; exact ⟨[], 0, rfl⟩
  | cons l rest ih =>
    intro h
    by_cases hm : footerMatch l
    · have hl : (extractFootLink l).isOk = true :=
        h l (by rw [List.takeWhile_cons_of_pos hm]; exact List.mem_cons_self _ _)
      cases hex : extractFootLink l with
      | error e => rw [hex] at hl; simp [Except.isOk, Except.toBool] at hl
      | ok fl =>
        obtain ⟨links, off, hscan⟩ := ih (fun l' hl' => h l'
          (by rw [List.takeWhile_cons_of_pos hm]; exact List.mem_cons_of_mem _ hl'))
        exact ⟨fl :: links, off + l.length, by rw [footerScan, if_pos hm, hex, hscan]⟩
    · exact ⟨[], 0, by rw [footerScan, if_neg hm]⟩

theorem footerScan_ok_extracts :
    ∀ (revLines : List Str) (p : List FootLink0 × Nat),
      footerScan revLines = .ok p →
      ∀ l ∈ revLines.takeWhile footerMatch, (extractFootLink l).isOk = true := by
  intro revLines
  induction revLines with
  | nil => intro p _ l hl; simp at hl
  | cons l0 rest ih =>
    intro p h l hl
    by_cases hm : footerMatch l0
    · rw [footerScan, if_pos hm] at h
      cases hex : extractFootLink l0 with
      | error e => rw [hex] at h; simp at h
      | ok fl =>
        rw [hex] at h
        cases hscan : footerScan rest with
        | error e => rw [hscan] at h; simp at h
        | ok q =>
          rw [List.takeWhile_cons_of_pos hm] at hl
          rcases List.mem_cons.mp hl with rfl | hl'
          · rw [hex]; rfl
          · exact ih q hscan l hl'
    · rw [List.takeWhile_cons_of_neg (by simpa using hm)] at hl
      simp at hl

theorem WfChunks_cons_inv : ∀ (c : Str) (cs : List Str), WfChunks (c :: cs) →
    (cs = [] ∧ '\n' ∉ c ∧ c ≠ []) ∨ ∃ body, c = body ++ ['\n'] ∧ '\n' ∉ body := by
  intro c cs h
  cases h with
  | last b h1 h2 => exact Or.inl ⟨rfl, h1, h2⟩
  | cons body rest h1 h2 => exact Or.inr ⟨body, rfl, h1⟩

theorem WfChunks_append_left : ∀ (a b : List Str), WfChunks (a ++ b) → WfChunks a := by
  intro a
  induction a with
  | nil => intro b _; exact WfChunks.nil
  | cons c a' ih =>
    intro b h
    rw [List.cons_append] at h
    have ha' : WfChunks a' := ih b (WfChunks_tail _ _ h)
    rcases WfChunks_cons_inv c (a' ++ b) h with ⟨hab, hnl, hne⟩ | ⟨body, rfl, hnl⟩
    · have hae : a' = [] := by
        cases a' with
        | nil => rfl
        | cons x xs => simp at hab
      subst hae
      exact WfChunks.last c hnl hne
    · exact WfChunks.cons body a' hnl ha'

theorem relMatch_firstLine_trim (x : Str)
    (hp : unreleasedMarker.isPrefixOf x = true) :
    relMatch (firstLine (trim x)) = true := by
  obtain ⟨r, hr⟩ := List.isPrefixOf_iff_prefix.mp hp
  have hx : x = '#' :: ("# [Unreleased]".toList ++ r) := by rw [← hr]; rfl
  have htr : trim x = trimRight x := by rw [hx]; exact head_not_ws_trim _ _ (by decide)
  have hq : unreleasedMarker = "## [Unreleased".toList ++ [']'] := by decide
  have hptr : unreleasedMarker.isPrefixOf (trimRight x) = true := by
    rw [hq]
    exact isPrefixOf_trimRight _ ']' (by decide) x (hq ▸ hp)
  have hne : trimRight x ≠ [] := by
    obtain ⟨r2, hr2⟩ := List.isPrefixOf_iff_prefix.mp hptr
    intro hz
    rw [hz] at hr2
    simp [unreleasedMarker] at hr2
  rw [htr]
  exact relMatch_of_marker _
    (prefix_of_firstLine unreleasedMarker (trimRight x) (by decide) hne hptr)

theorem take_kept (c1 : Str) (links : List FootLink0) (off : Nat)
    (h : footerScan (splitInclusive c1).reverse = .ok (links, off)) :
    c1.take (c1.length - off) = (footerKept (splitInclusive c1)).flatten := by
  obtain ⟨-, hoff⟩ := footerScan_ok_inv _ links off h
  set K := (footerKept (splitInclusive c1)).flatten with hK
  set B := (trailingFooterBlock (splitInclusive c1)).flatten with hB
  have hc1 : K ++ B = c1 := by
    rw [hK, hB, ← List.flatten_append, kept_append_block, splitInclusive_flatten]
  have hblock : B.length = off := by
    rw [hB, List.length_join]
    unfold trailingFooterBlock
    rw [List.map_reverse, List.sum_reverse]
    exact hoff.symm
  have hlen : c1.length - off = K.length := by
    rw [← hc1, List.length_append, hblock]
    omega
  calc c1.take (c1.length - off) = (K ++ B).take K.length := by rw [hlen, ← hc1]
    _ = K := List.take_left K B

theorem parse_scan_ok_cases (s : Str) (pos : Nat)
    (hfind : findSubstr s unreleasedMarker = some pos)
    (links : List FootLink0) (off : Nat)
    (hscan : footerScan (splitInclusive (s.drop pos)).reverse = .ok (links, off)) :
    (∃ doc, parse_change_log s = .ok doc) ∨
    (parse_change_log s = .error .sectionSlice ∧
      ∃ l, l ∈ relLinesOf s ∧ lineClass l = .sectionTitle ∧
        byteDrop "### ".length l = none) := by
  have hpre := findSubstr_isPrefixOf s unreleasedMarker pos hfind
  have htake := take_kept (s.drop pos) links off hscan
  set c2 := trim ((s.drop pos).take ((s.drop pos).length - off)) with hc2
  have hdisj : c2 = [] ∨ relMatch (firstLine c2) = true := by
    rw [hc2, htake]
    cases hk : footerKept (splitInclusive (s.drop pos)) with
    | nil => exact Or.inl rfl
    | cons k0 krest =>
      refine Or.inr ?_
      have hkb := kept_append_block (splitInclusive (s.drop pos))
      rw [hk] at hkb
      have hne : s.drop pos ≠ [] := by
        obtain ⟨r2, hr2⟩ := List.isPrefixOf_iff_prefix.mp hpre
        intro hz
        rw [hz] at hr2
        simp [unreleasedMarker] at hr2
      have hfl : firstLine (s.drop pos) = k0 := by
        unfold firstLine
        rw [← hkb]
        rfl
      have hpk0 : unreleasedMarker.isPrefixOf k0 = true := by
        rw [← hfl]
        exact prefix_of_firstLine unreleasedMarker (s.drop pos) (by decide) hne hpre
      have hpflat : unreleasedMarker.isPrefixOf ((k0 :: krest).flatten) = true := by
        apply List.isPrefixOf_iff_prefix.mpr
        have h1 := List.isPrefixOf_iff_prefix.mp hpk0
        have h2 : List.IsPrefix k0 ((k0 :: krest).flatten) := by
          rw [List.flatten_cons]
          exact List.prefix_append _ _
        exact h1.trans h2
      exact relMatch_firstLine_trim _ hpflat
  have hrll : relLinesOf s = splitInclusive c2 := by
    unfold relLinesOf
    rw [hfind]
    dsimp only []
    rw [hscan]
  rcases parseReleasesLoop_cases (c2.length + 1) c2 [] (by omega) hdisj with
    ⟨rels, hloop⟩ | ⟨herr, lbad, hmem, hlcb, hbdb⟩
  · refine Or.inl
      ⟨{ header := trim (s.take pos), releases := rels, foot_links := links }, ?_⟩
    unfold parse_change_log
    rw [hfind]
    dsimp only []
    rw [hscan]
    dsimp only []
    rw [← hc2, hloop]
  · refine Or.inr ⟨?_, lbad, ?_, hlcb, hbdb⟩
    · unfold parse_change_log
      rw [hfind]
      dsimp only []
      rw [hscan]
      dsimp only []
      rw [← hc2, herr]
    · rw [hrll]
      exact hmem
theorem parse_no_marker (s : Str)
    (h : findSubstr s unreleasedMarker = none) :
    parse_change_log s = .error .noUnreleased := by
  unfold parse_change_log
  rw [h]

theorem parse_scan_err (s : Str) (pos : Nat)
    (hfind : findSubstr s unreleasedMarker = some pos) (e : ParseErr)
    (hscan : footerScan (splitInclusive (s.drop pos)).reverse = .error e) :
    parse_change_log s = .error e := by
  unfold parse_change_log
  rw [hfind]
  dsimp only []
  rw [hscan]

theorem parse_err_classify (s : Str) (e : ParseErr)
    (h : parse_change_log s = .error e) :
    e = .noUnreleased ∨ e = .footerSlice ∨ e = .sectionSlice := by
  cases hfind : findSubstr s unreleasedMarker with
  | none =>
    rw [parse_no_marker s hfind] at h
    injection h with h'
    exact Or.inl h'.symm
  | some pos =>
    cases hscan : footerScan (splitInclusive (s.drop pos)).reverse with
    | error e' =>
      rw [parse_scan_err s pos hfind e' hscan] at h
      injection h with h'
      rw [← h']
      exact Or.inr (Or.inl (footerScan_err_classify _ e' hscan))
    | ok p =>
      obtain ⟨links, off⟩ := p
      rcases parse_scan_ok_cases s pos hfind links off hscan with
        ⟨doc, hok⟩ | ⟨herr, -⟩
      · rw [hok] at h
        simp at h
      · rw [herr] at h
        injection h with h'
        exact Or.inr (Or.inr h'.symm)

theorem parse_ok_sections (s : Str) (hok : (parse_change_log s).isOk = true) :
    ∀ l ∈ relLinesOf s, lineClass l = .sectionTitle →
      (byteDrop "### ".length l).isSome = true := by
  intro l hl hsec
  cases hfind : findSubstr s unreleasedMarker with
  | none =>
    rw [parse_no_marker s hfind] at hok
    simp [Except.isOk, Except.toBool] at hok
  | some pos =>
    cases hscan : footerScan (splitInclusive (s.drop pos)).reverse with
    | error e =>
      rw [parse_scan_err s pos hfind e hscan] at hok
      simp [Except.isOk, Except.toBool] at hok
    | ok p =>
      obtain ⟨links, off⟩ := p
      set c2 := trim ((s.drop pos).take ((s.drop pos).length - off)) with hc2
      have hrll : relLinesOf s = splitInclusive c2 := by
        unfold relLinesOf
        rw [hfind]
        dsimp only []
        rw [hscan]
      cases hloop : parseReleasesLoop (c2.length + 1) c2 [] with
      | error e =>
        have hperr : parse_change_log s = .error e := by
          unfold parse_change_log
          rw [hfind]
          dsimp only []
          rw [hscan]
          dsimp only []
          rw [← hc2, hloop]
        rw [hperr] at hok
        simp [Except.isOk, Except.toBool] at hok
      | ok rels =>
        have hmem2 : l ∈ splitInclusive c2 := by
          rw [hrll] at hl
          exact hl
        exact parseReleasesLoop_ok_inv (c2.length + 1) c2 [] rels hloop l hmem2 hsec

theorem parse_ok_iff (s : Str) :
    (parse_change_log s).isOk = true ↔
      ((findSubstr s unreleasedMarker).isSome = true ∧
        (∀ l ∈ footerBlockOf s, (extractFootLink l).isOk = true) ∧
        (∀ l ∈ relLinesOf s, lineClass l = .sectionTitle →
          (byteDrop "### ".length l).isSome = true)) := by
  constructor
  · intro hok
    cases hfind : findSubstr s unreleasedMarker with
    | none =>
      rw [parse_no_marker s hfind] at hok
      simp [Except.isOk, Except.toBool] at hok
    | some pos =>
      refine ⟨by simp, ?_, parse_ok_sections s hok⟩
      cases hscan : footerScan (splitInclusive (s.drop pos)).reverse with
      | error e =>
        rw [parse_scan_err s pos hfind e hscan] at hok
        simp [Except.isOk, Except.toBool] at hok
      | ok p =>
        intro l hl
        have hmem : l ∈ ((splitInclusive (s.drop pos)).reverse.takeWhile footerMatch) := by
          unfold footerBlockOf at hl
          rw [hfind] at hl
          unfold trailingFooterBlock at hl
          exact List.mem_reverse.mp hl
        exact footerScan_ok_extracts _ p hscan l hmem
  · rintro ⟨hsome, hext, hsec⟩
    obtain ⟨pos, hfind⟩ := Option.isSome_iff_exists.mp hsome
    have hpre : ∀ l ∈ ((splitInclusive (s.drop pos)).reverse.takeWhile footerMatch),
        (extractFootLink l).isOk = true := by
      intro l hl
      apply hext
      unfold footerBlockOf
      rw [hfind]
      unfold trailingFooterBlock
      exact List.mem_reverse.mpr hl
    obtain ⟨links, off, hscan⟩ := footerScan_ok_of _ hpre
    rcases parse_scan_ok_cases s pos hfind links off hscan with
      ⟨doc, hok⟩ | ⟨herr, lbad, hmem, hlcb, hbdb⟩
    · rw [hok]
      rfl
    · have hs := hsec lbad hmem hlcb
      rw [hbdb] at hs
      simp at hs

/-- **C3** (amended): `parse_change_log` succeeds exactly when the input has
the `## [Unreleased]` marker, every line of the trailing footer block
extracts a foot link (its first `[` must come before its first `]`, else
the slice `line[start + 1..end]` panics), and every section-title line
reaching the release extractor can be byte-sliced at `"### ".len()` (else
`line["### ".len()..]` panics when byte 4 is not a char boundary); its
errors are exactly the no-marker error, the footer-slice panic, and the
section-slice panic; the spec's section-before-title failure is
unreachable, and a missing marker yields the no-marker error. -/
theorem parse_failure_characterization :
    (∀ s : Str, (parse_change_log s).isOk = true ↔
        ((findSubstr s unreleasedMarker).isSome = true ∧
          (∀ l ∈ footerBlockOf s, (extractFootLink l).isOk = true) ∧
          (∀ l ∈ relLinesOf s, lineClass l = .sectionTitle →
            (byteDrop "### ".length l).isSome = true))) ∧
    (∀ (s : Str) (e : ParseErr), parse_change_log s = .error e →
        e = .noUnreleased ∨ e = .footerSlice ∨ e = .sectionSlice) ∧
    (∀ (s l : Str), parse_change_log s ≠ .error (.sectionBeforeTitle l)) ∧
    (∀ s : Str, findSubstr s unreleasedMarker = none →
        parse_change_log s = .error .noUnreleased) := by
  refine ⟨parse_ok_iff, parse_err_classify, ?_, parse_no_marker⟩
  intro s l h
  rcases parse_err_classify s _ h with h1 | h1 | h1 <;> exact ParseErr.noConfusion h1

theorem parse_failure_characterization_witness :
    (parse_change_log "## [Unreleased]\n".toList).isOk = true ∧
    parse_change_log "no marker here".toList = .error .noUnreleased :=
  ⟨(parse_failure_characterization.1 _).mpr ⟨by decide, by decide, by decide⟩,
   parse_failure_characterization.2.2.2 _ (by decide)⟩

/-- The spec's two-failure claim is refuted by two further failure modes.
On `"## [Unreleased]\n][x]:"` the marker is present and no section-title
line precedes a release-title line, yet the parser fails with the footer
slice error (`line[start + 1..end]` with the first `]` before the first
`[`).  On `"## [Unreleased]\nxyzé### A\n"` it fails with the section slice
error: the line `"xyzé### A"` matches `### .*`, and `line["### ".len()..]`
panics because byte 4 falls inside the two-byte character `é`. -/
theorem parse_slice_counterexample :
    (containsSubstr "## [Unreleased]\n][x]:".toList unreleasedMarker = true ∧
      parse_change_log "## [Unreleased]\n][x]:".toList = .error .footerSlice) ∧
    (containsSubstr "## [Unreleased]\nxyzé### A\n".toList unreleasedMarker = true ∧
      parse_change_log "## [Unreleased]\nxyzé### A\n".toList = .error .sectionSlice) :=
  ⟨⟨rfl, rfl⟩, ⟨rfl, rfl⟩⟩

/-! ## Round-trip (C1): string and trim toolkit -/

theorem toList_append (a b : String) : (a ++ b).toList = a.toList ++ b.toList :=
  String.data_append a b

theorem joinStrings_toList : ∀ l : List String,
    (joinStrings l).toList = (l.map String.toList).flatten := by
  intro l
  induction l with
  | nil => rfl
  | cons c rest ih =>
    show (c ++ joinStrings rest).toList = _
    rw [toList_append, ih]
    rfl

theorem dropWhile_all_append (a z : Str) (ha : a.all isWS = true) :
    (a ++ z).dropWhile isWS = z.dropWhile isWS := by
  induction a with
  | nil => rfl
  | cons c t ih =>
    rw [List.all_cons, Bool.and_eq_true] at ha
    rw [List.cons_append, List.dropWhile_cons_of_pos ha.1]
    exact ih ha.2

theorem dropWhile_all_nil (b : Str) (hb : b.all isWS = true) :
    b.dropWhile isWS = [] := by
  have := dropWhile_all_append b [] hb
  simpa using this

theorem trimLeft_ws_append (a z : Str) (ha : a.all isWS = true) :
    trimLeft (a ++ z) = trimLeft z :=
  dropWhile_all_append a z ha

theorem trimRight_append_ws (z b : Str) (hb : b.all isWS = true) :
    trimRight (z ++ b) = trimRight z := by
  unfold trimRight
  rw [List.reverse_append, dropWhile_all_append _ _ (by simpa using hb)]

theorem trimLeft_length_le (x : Str) : (trimLeft x).length ≤ x.length :=
  (List.dropWhile_suffix isWS).length_le

theorem trimRight_length_le (x : Str) : (trimRight x).length ≤ x.length := by
  unfold trimRight
  rw [List.length_reverse]
  have := (List.dropWhile_suffix (l := x.reverse) isWS).length_le
  simpa using this

theorem trimLeft_eq_self_of_trim (x : Str) (hx : trim x = x) : trimLeft x = x := by
  have h1 : (trimLeft x).length ≤ x.length := trimLeft_length_le x
  have h2 : (trim x).length ≤ (trimLeft x).length := trimRight_length_le (trimLeft x)
  rw [hx] at h2
  have h4 : (List.dropWhile isWS x).length = x.length := by
    have h3 : (trimLeft x).length = (List.dropWhile isWS x).length := rfl
    omega
  exact (List.dropWhile_suffix isWS).eq_of_length h4

theorem trimRight_eq_self_of_trim (x : Str) (hx : trim x = x) : trimRight x = x := by
  have h := trimLeft_eq_self_of_trim x hx
  calc trimRight x = trimRight (trimLeft x) := by rw [h]
    _ = trim x := rfl
    _ = x := hx

theorem head_not_ws_of_trimLeft (c : Char) (t : Str) (h : trimLeft (c :: t) = c :: t) :
    isWS c = false := by
  by_cases hc : isWS c
  · exfalso
    rw [trimLeft, List.dropWhile_cons_of_pos hc] at h
    have := (List.dropWhile_suffix (l := t) isWS).length_le
    rw [h] at this
    simp at this
  · simpa using hc

theorem trimLeft_append_of_self (x y : Str) (hx : trimLeft x = x) (hne : x ≠ []) :
    trimLeft (x ++ y) = x ++ y := by
  cases x with
  | nil => exact absurd rfl hne
  | cons c t =>
    have hc := head_not_ws_of_trimLeft c t hx
    rw [List.cons_append, trimLeft, List.dropWhile_cons_of_neg (by simp [hc])]

theorem trim_append_ws (x b : Str) (hb : b.all isWS = true) :
    trim (x ++ b) = trim x := by
  show trimRight (trimLeft (x ++ b)) = trimRight (trimLeft x)
  unfold trimLeft
  rw [List.dropWhile_append]
  by_cases he : (x.dropWhile isWS).isEmpty
  · rw [if_pos he, dropWhile_all_nil b hb]
    have hxe : x.dropWhile isWS = [] := by simpa [List.isEmpty_iff] using he
    rw [hxe]
  · rw [if_neg he]
    exact trimRight_append_ws _ b hb

theorem trim_ws_append (a x : Str) (ha : a.all isWS = true) :
    trim (a ++ x) = trim x := by
  show trimRight (trimLeft (a ++ x)) = _
  rw [trimLeft_ws_append a x ha]
  rfl

theorem trim_wrap (a x b : Str) (ha : a.all isWS = true) (hb : b.all isWS = true)
    (hx : trim x = x) : trim (a ++ x ++ b) = x := by
  rw [List.append_assoc, trim_ws_append a _ ha, trim_append_ws x b hb, hx]

theorem trimRight_concat (H : Str) (c : Char) (hc : isWS c = false) :
    trimRight (H ++ [c]) = H ++ [c] := by
  unfold trimRight
  rw [List.reverse_append]
  simp only [List.reverse_cons, List.reverse_nil, List.nil_append, List.singleton_append]
  rw [List.dropWhile_cons_of_neg (by simp [hc])]
  simp

theorem splitOnNl_no_nl : ∀ b : Str, '\n' ∉ b → splitOnNl b = [b] := by
  intro b
  induction b with
  | nil => intro _; rfl
  | cons c t ih =>
    intro h
    have hc : ¬(c = '\n') := fun hh => h (by simp [hh])
    rw [splitOnNl, if_neg hc, ih (fun hh => h (List.mem_cons_of_mem _ hh))]

theorem splitOnNl_append_nl : ∀ (b rest : Str), '\n' ∉ b →
    splitOnNl (b ++ '\n' :: rest) = b :: splitOnNl rest := by
  intro b
  induction b with
  | nil =>
    intro rest _
    show splitOnNl ('\n' :: rest) = [] :: splitOnNl rest
    rw [splitOnNl, if_pos rfl]
  | cons c t ih =>
    intro rest h
    have hc : ¬(c = '\n') := fun hh => h (by simp [hh])
    rw [List.cons_append, splitOnNl, if_neg hc,
      ih rest (fun hh => h (List.mem_cons_of_mem _ hh))]

theorem WfChunks_of_forall : ∀ cs : List Str,
    (∀ c ∈ cs, ∃ b, c = b ++ ['\n'] ∧ '\n' ∉ b) → WfChunks cs := by
  intro cs
  induction cs with
  | nil => intro _; exact WfChunks.nil
  | cons c rest ih =>
    intro h
    obtain ⟨b, rfl, hb⟩ := h c (List.mem_cons_self _ _)
    exact WfChunks.cons b rest hb (ih fun c hc => h c (List.mem_cons_of_mem _ hc))

theorem findSubstr_isSome_iff : ∀ s pat : Str,
    (findSubstr s pat).isSome = true ↔ ∃ j, pat.isPrefixOf (s.drop j) = true := by
  intro s pat
  induction s with
  | nil =>
    rw [findSubstr]
    by_cases hp : pat.isPrefixOf []
    · simp only [if_pos hp]
      exact ⟨fun _ => ⟨0, by simpa using hp⟩, fun _ => rfl⟩
    · simp only [if_neg hp]
      constructor
      · intro h; simp at h
      · rintro ⟨j, hj⟩
        simp only [List.drop_nil] at hj
        exact absurd hj hp
  | cons c t ih =>
    rw [findSubstr]
    by_cases hp : pat.isPrefixOf (c :: t)
    · simp only [if_pos hp]
      exact ⟨fun _ => ⟨0, by simpa using hp⟩, fun _ => rfl⟩
    · simp only [if_neg hp]
      have hm : (Option.map (fun x => x + 1) (findSubstr t pat)).isSome =
          (findSubstr t pat).isSome := by
        cases findSubstr t pat <;> rfl
      rw [hm, ih]
      constructor
      · rintro ⟨j, hj⟩
        exact ⟨j + 1, by simpa using hj⟩
      · rintro ⟨j, hj⟩
        cases j with
        | zero => exact absurd (by simpa using hj) hp
        | succ j => exact ⟨j, by simpa using hj⟩

theorem containsSubstr_of_prefix_drop (x pat : Str) (j : Nat)
    (h : pat.isPrefixOf (x.drop j) = true) : containsSubstr x pat = true := by
  unfold containsSubstr
  exact (findSubstr_isSome_iff x pat).mpr ⟨j, h⟩

theorem findSubstr_min : ∀ (n : Nat) (s pat : Str),
    (∀ j, j < n → ¬pat.isPrefixOf (s.drop j) = true) →
    pat.isPrefixOf (s.drop n) = true → findSubstr s pat = some n := by
  intro n
  induction n with
  | zero =>
    intro s pat _ hp
    rw [findSubstr.eq_def, if_pos (by simpa using hp)]
  | succ n ih =>
    intro s pat hlt hp
    cases s with
    | nil =>
      exfalso
      simp only [List.drop_nil] at hp
      have := hlt 0 (by omega)
      simp only [List.drop_nil] at this
      exact this hp
    | cons c t =>
      have h0 : ¬pat.isPrefixOf (c :: t) = true := by
        have := hlt 0 (by omega)
        simpa using this
      rw [findSubstr, if_neg h0]
      rw [ih t pat (fun j hj => by simpa using hlt (j + 1) (by omega)) (by simpa using hp)]
      rfl

/-! ## Round-trip (C1): the shape of the serialized text -/

theorem srsn_toList (s : String) (n : ReleaseSectionNote) :
    (serialize_release_section_note s n).toList = s.toList ++ (noteLines n).flatten := by
  unfold serialize_release_section_note
  cases hs : n.scope with
  | some sc =>
    simp only [hs]
    rw [foldl_context_join, toList_append, joinStrings_toList]
    unfold noteLines
    rw [hs]
    simp only [toList_append, List.map_map, List.flatten_cons, List.append_assoc,
      Function.comp]
    rfl
  | none =>
    simp only [hs]
    rw [foldl_context_join, toList_append, joinStrings_toList]
    unfold noteLines
    rw [hs]
    simp only [toList_append, List.map_map, List.flatten_cons, List.append_assoc,
      Function.comp]
    rfl

theorem notes_foldl_toList : ∀ (notes : List ReleaseSectionNote) (s : String),
    ((notes.foldl (fun s note => serialize_release_section_note s note) s)).toList =
      s.toList ++ ((notes.map noteLines).flatten).flatten := by
  intro notes
  induction notes with
  | nil => intro s; simp
  | cons n rest ih =>
    intro s
    rw [List.foldl_cons, ih, srsn_toList]
    simp [List.append_assoc]

theorem sections_foldl_toList : ∀ (secs : List ReleaseSection) (s : String),
    ((secs.foldl (fun s sections =>
        sections.notes.foldl (fun s note => serialize_release_section_note s note)
          (s ++ "\n### " ++ sections.title ++ "\n\n")) s)).toList =
      s.toList ++ ((secs.map (fun s => nlLine :: sectionLines s)).flatten).flatten := by
  intro secs
  induction secs with
  | nil => intro s; simp
  | cons sec rest ih =>
    intro s
    rw [List.foldl_cons, ih, notes_foldl_toList]
    simp only [toList_append, List.map_cons, List.flatten_cons, List.append_assoc]
    unfold sectionLines sectionHeadLine nlLine
    simp only [toList_append, List.flatten_cons, List.flatten_append, List.append_assoc]
    rfl

theorem serialize_release_toList (s : String) (r : Release)
    (options : ChangeLogSerOptionRelease) (hord : options.section_order = [])
    (hf : r.footer = none) :
    (serialize_release s r options).toList = s.toList ++ '\n' :: (relCoreLines r).flatten := by
  unfold serialize_release
  rw [hf]
  dsimp only []
  have hnss : noteSectionSorted r.note_sections options.section_order = r.note_sections := by
    rw [hord]
    rfl
  rw [hnss, sections_foldl_toList]
  unfold relCoreLines
  cases ht : r.title.title with
  | some t =>
    cases hh : r.header with
    | some h =>
      simp only [toList_append, List.flatten_cons, List.flatten_append, List.append_assoc,
        splitInclusive_flatten, nlLine, headingLine, ht]
      rfl
    | none =>
      simp only [toList_append, List.flatten_cons, List.flatten_append, List.append_assoc,
        nlLine, headingLine, ht]
      rfl
  | none =>
    cases hh : r.header with
    | some h =>
      simp only [toList_append, List.flatten_cons, List.flatten_append, List.append_assoc,
        splitInclusive_flatten, nlLine, headingLine, ht]
      rfl
    | none =>
      simp only [toList_append, List.flatten_cons, List.flatten_append, List.append_assoc,
        nlLine, headingLine, ht]
      rfl

theorem releases_foldl_toList (options : ChangeLogSerOptionRelease)
    (hord : options.section_order = []) :
    ∀ (rels : List Release) (s : String), (∀ r ∈ rels, r.footer = none) →
    ((rels.foldl (fun s release => serialize_release s release options) s)).toList =
      s.toList ++ (rels.map (fun r => '\n' :: (relCoreLines r).flatten)).flatten := by
  intro rels
  induction rels with
  | nil => intro s _; simp
  | cons r rest ih =>
    intro s hf
    rw [List.foldl_cons, ih _ (fun x hx => hf x (List.mem_cons_of_mem _ hx)),
      serialize_release_toList s r options hord (hf r (List.mem_cons_self _ _))]
    simp [List.append_assoc]

theorem footlinks_foldl_toList : ∀ (links : List FootLink) (s : String),
    ((links.foldl
        (fun s footer_link => s ++ "[" ++ footer_link.text ++ "]: " ++ footer_link.link ++ "\n")
        s)).toList =
      s.toList ++ (links.map footLinkLine).flatten := by
  intro links
  induction links with
  | nil => intro s; simp
  | cons fl rest ih =>
    intro s
    rw [List.foldl_cons, ih]
    simp only [toList_append, List.map_cons, List.flatten_cons, List.append_assoc]
    unfold footLinkLine
    simp only [toList_append, List.append_assoc]
    rfl

theorem serialize_changelog_toList (d : ChangeLog)
    (hf : ∀ r ∈ d.releases, r.footer = none) :
    (serialize_changelog d ChangeLogSerOption.default).toList =
      headerChunk d ++ (d.releases.map (fun r => '\n' :: (relCoreLines r).flatten)).flatten
        ++ (if d.footer_links.links.isEmpty then [] else ['\n'])
        ++ (d.footer_links.links.map footLinkLine).flatten := by
  have hnl : ("\n" : String).toList = ['\n'] := rfl
  unfold serialize_changelog
  dsimp only []
  rw [footlinks_foldl_toList]
  have hrel := releases_foldl_toList ChangeLogSerOption.default.release_option rfl d.releases
  by_cases he : d.footer_links.links.isEmpty
  · rw [if_pos he, if_pos he, hrel _ hf]
    cases hh : d.header with
    | some h =>
      simp [headerChunk, hh, toList_append, hnl, List.append_assoc]
    | none =>
      simp [headerChunk, hh]
  · rw [if_neg he, if_neg he, toList_append, hrel _ hf]
    cases hh : d.header with
    | some h =>
      simp [headerChunk, hh, toList_append, hnl, List.append_assoc]
    | none =>
      simp [headerChunk, hh, hnl]

/-! ## Round-trip (C1): reading a section body back -/

theorem lastNonWS_of_trimmedNE (s : String) (h : isTrimmedNE s = true) :
    ∃ H c, s.toList = H ++ [c] ∧ isWS c = false := by
  rw [isTrimmedNE, Bool.and_eq_true] at h
  have htr : trim s.toList = s.toList := by simpa using h.1
  have hne : s.toList ≠ [] := by simpa using h.2
  refine ⟨s.toList.dropLast, s.toList.getLast hne, (List.dropLast_append_getLast hne).symm, ?_⟩
  by_contra hws
  have hws' : isWS (s.toList.getLast hne) = true := by simpa using hws
  have h2 := trimRight_eq_self_of_trim _ htr
  rw [← List.dropLast_append_getLast hne] at h2
  unfold trimRight at h2
  rw [List.reverse_append, List.reverse_singleton, List.singleton_append,
    List.dropWhile_cons_of_pos hws'] at h2
  have h3 := congrArg List.length h2
  have h4 := (List.dropWhile_suffix (l := s.toList.dropLast.reverse) isWS).length_le
  simp only [List.length_reverse, List.length_append, List.length_singleton] at h3 h4
  omega

theorem headNonWS_of_trimmedNE (s : String) (h : isTrimmedNE s = true) :
    ∃ c t, s.toList = c :: t ∧ isWS c = false := by
  rw [isTrimmedNE, Bool.and_eq_true] at h
  have htr : trim s.toList = s.toList := by simpa using h.1
  have hne : s.toList ≠ [] := by simpa using h.2
  have h2 := trimLeft_eq_self_of_trim _ htr
  cases hs : s.toList with
  | nil => exact absurd hs hne
  | cons c t =>
    rw [hs] at h2
    exact ⟨c, t, rfl, head_not_ws_of_trimLeft c t h2⟩

theorem flatten_nl_map : ∀ bs : List Str, bs ≠ [] →
    (bs.map (fun b => b ++ ['\n'])).flatten = joinBodies bs ++ ['\n'] := by
  intro bs
  induction bs with
  | nil => intro h; exact absurd rfl h
  | cons b rest ih =>
    intro _
    cases rest with
    | nil => simp [joinBodies]
    | cons b2 bs2 =>
      rw [List.map_cons, List.flatten_cons, ih (by simp), joinBodies]
      simp

theorem splitOnNl_joinBodies : ∀ bs : List Str, bs ≠ [] → (∀ b ∈ bs, '\n' ∉ b) →
    splitOnNl (joinBodies bs) = bs := by
  intro bs
  induction bs with
  | nil => intro h _; exact absurd rfl h
  | cons b rest ih =>
    intro _ hnl
    cases rest with
    | nil => exact splitOnNl_no_nl b (hnl b (List.mem_cons_self _ _))
    | cons b2 bs2 =>
      rw [joinBodies, splitOnNl_append_nl b _ (hnl b (List.mem_cons_self _ _)),
        ih (by simp) (fun x hx => hnl x (List.mem_cons_of_mem _ hx))]

theorem noteLines_eq_bodies (n : ReleaseSectionNote) :
    noteLines n = (noteBodyLines n).map (fun b => b ++ ['\n']) := by
  cases hs : n.scope <;> simp [noteLines, noteBodyLines, hs, List.map_map, Function.comp]

theorem findSubstr_colon (sc msg : Str) (h : containsSubstr sc [':', ' '] = false) :
    findSubstr (sc ++ ':' :: ' ' :: msg) [':', ' '] = some sc.length := by
  apply findSubstr_min
  · intro j hj hp
    rw [List.drop_append_of_le_length (by omega)] at hp
    cases hd : sc.drop j with
    | nil =>
      have := List.length_drop j sc
      rw [hd] at this
      simp at this
      omega
    | cons a rest2 =>
      rw [hd, List.cons_append, List.isPrefixOf_cons₂, Bool.and_eq_true, beq_iff_eq] at hp
      obtain ⟨ha, hp2⟩ := hp
      cases rest2 with
      | nil =>
        rw [List.nil_append, List.isPrefixOf_cons₂, Bool.and_eq_true, beq_iff_eq] at hp2
        exact absurd hp2.1 (by decide)
      | cons b rest3 =>
        rw [List.cons_append, List.isPrefixOf_cons₂, Bool.and_eq_true, beq_iff_eq] at hp2
        have hpre : ([':', ' '] : Str).isPrefixOf (sc.drop j) = true := by
          rw [hd]
          apply List.isPrefixOf_iff_prefix.mpr
          refine ⟨rest3, ?_⟩
          show ':' :: ' ' :: rest3 = a :: b :: rest3
          rw [ha, hp2.1]
        have hc := containsSubstr_of_prefix_drop sc [':', ' '] j hpre
        rw [hc] at h
        simp at h
  · rw [List.drop_left]
    exact List.isPrefixOf_iff_prefix.mpr ⟨msg, rfl⟩

theorem parseNoteLines_contexts : ∀ (cs : List String) (rest : List Str)
    (m : ReleaseSectionNote),
    parseNoteLines (cs.map (fun c => ("  " ++ c).toList) ++ rest) (some m) =
      parseNoteLines rest (some { m with context := m.context ++ cs }) := by
  intro cs
  induction cs with
  | nil => intro rest m; simp
  | cons c cs' ih =>
    intro rest m
    have hline : ("  " ++ c).toList = ' ' :: ' ' :: c.toList := by
      rw [toList_append]; rfl
    rw [List.map_cons, List.cons_append, parseNoteLines, hline]
    rw [if_neg (by simp [List.isPrefixOf_cons₂])]
    rw [if_pos (by simp [List.isPrefixOf_cons₂, List.isPrefixOf])]
    rw [ih]
    have : (c.toList).asString = c := rfl
    simp only [List.drop_succ_cons, List.drop_zero, this]
    rw [List.append_cons m.context c cs']

theorem goodNote_parts (n : ReleaseSectionNote) (hn : goodNote n = true) :
    isTrimmedNE n.message = true ∧ noNl n.message = true ∧
    (noteLines n).all lineOther = true ∧
    n.context.all (fun c => isTrimmedNE c && noNl c) = true := by
  unfold goodNote at hn
  simp only [Bool.and_eq_true] at hn
  exact ⟨hn.1.1.1.1, hn.1.1.1.2, hn.1.2, hn.2⟩

theorem goodNote_scope_some (n : ReleaseSectionNote) (sc : String)
    (hn : goodNote n = true) (hs : n.scope = some sc) :
    isTrimmedNE sc = true ∧ noNl sc = true ∧
      containsSubstr sc.toList [':', ' '] = false := by
  unfold goodNote at hn
  rw [hs] at hn
  simp only [Bool.and_eq_true] at hn
  refine ⟨hn.1.1.2.1.1, hn.1.1.2.1.2, ?_⟩
  have h := hn.1.1.2.2
  simpa using h

theorem goodNote_scope_none (n : ReleaseSectionNote)
    (hn : goodNote n = true) (hs : n.scope = none) :
    containsSubstr n.message.toList [':', ' '] = false := by
  unfold goodNote at hn
  rw [hs] at hn
  simp only [Bool.and_eq_true] at hn
  have h := hn.1.1.2
  simpa using h

theorem noteFromLine_some (sc msg : String)
    (hsc : containsSubstr sc.toList [':', ' '] = false) :
    noteFromLine (sc.toList ++ ':' :: ' ' :: msg.toList) =
      { scope := some sc, message := msg, context := [] } := by
  unfold noteFromLine
  rw [show (": ".toList : Str) = [':', ' '] from rfl]
  rw [findSubstr_colon sc.toList msg.toList hsc]
  show ({ scope := some ((sc.toList ++ ':' :: ' ' :: msg.toList).take sc.toList.length).asString,
          message := ((sc.toList ++ ':' :: ' ' :: msg.toList).drop (sc.toList.length + 2)).asString,
          context := [] } : ReleaseSectionNote) =
       ({ scope := some sc, message := msg, context := [] } : ReleaseSectionNote)
  have hd : (sc.toList ++ ':' :: ' ' :: msg.toList).drop (sc.toList.length + 2) = msg.toList := by
    rw [show sc.toList ++ ':' :: ' ' :: msg.toList = (sc.toList ++ [':', ' ']) ++ msg.toList from
      by simp]
    rw [show sc.toList.length + 2 = (sc.toList ++ [':', ' ']).length from by simp]
    exact List.drop_left _ _
  rw [hd, List.take_left]
  rfl

theorem noteFromLine_none (msg : String)
    (h : containsSubstr msg.toList [':', ' '] = false) :
    noteFromLine msg.toList = { scope := none, message := msg, context := [] } := by
  unfold noteFromLine
  rw [show (": ".toList : Str) = [':', ' '] from rfl]
  have hn : findSubstr msg.toList [':', ' '] = none := by
    cases hfs : findSubstr msg.toList [':', ' '] with
    | none => rfl
    | some i =>
      unfold containsSubstr at h
      rw [hfs] at h
      simp at h
  rw [hn]
  rfl

theorem parseNoteLines_note (n : ReleaseSectionNote) (hn : goodNote n = true)
    (rest : List Str) (m : ReleaseSectionNote) :
    parseNoteLines (noteBodyLines n ++ rest) (some m) = m :: parseNoteLines rest (some n) := by
  have hpre2 : ∀ z : Str, (("- ".toList : Str)).isPrefixOf ('-' :: ' ' :: z) = true :=
    fun z => List.isPrefixOf_iff_prefix.mpr ⟨z, rfl⟩
  cases hs : n.scope with
  | some sc =>
    have hbody : noteBodyLines n =
        ('-' :: ' ' :: (sc.toList ++ ':' :: ' ' :: n.message.toList))
          :: n.context.map (fun c => ("  " ++ c).toList) := by
      unfold noteBodyLines
      rw [hs]
      congr 1
      rw [toList_append, toList_append, toList_append]
      simp [List.append_assoc]
    rw [hbody, List.cons_append, parseNoteLines, if_pos (hpre2 _)]
    dsimp only []
    rw [List.drop_succ_cons, List.drop_succ_cons, List.drop_zero]
    rw [noteFromLine_some sc n.message (goodNote_scope_some n sc hn hs).2.2]
    rw [parseNoteLines_contexts]
    simp only [List.nil_append]
    have he : ({ scope := some sc, message := n.message, context := n.context } :
        ReleaseSectionNote) = n := by rw [← hs]
    rw [he]
  | none =>
    have hbody : noteBodyLines n =
        ('-' :: ' ' :: n.message.toList) :: n.context.map (fun c => ("  " ++ c).toList) := by
      unfold noteBodyLines
      rw [hs]
      congr 1
    rw [hbody, List.cons_append, parseNoteLines, if_pos (hpre2 _)]
    dsimp only []
    rw [List.drop_succ_cons, List.drop_succ_cons, List.drop_zero]
    rw [noteFromLine_none n.message (goodNote_scope_none n hn hs)]
    rw [parseNoteLines_contexts]
    simp only [List.nil_append]
    have he : ({ scope := none, message := n.message, context := n.context } :
        ReleaseSectionNote) = n := by rw [← hs]
    rw [he]

theorem parseNoteLines_first (n : ReleaseSectionNote) (hn : goodNote n = true)
    (rest : List Str) :
    parseNoteLines (noteBodyLines n ++ rest) none = parseNoteLines rest (some n) := by
  have hpre2 : ∀ z : Str, (("- ".toList : Str)).isPrefixOf ('-' :: ' ' :: z) = true :=
    fun z => List.isPrefixOf_iff_prefix.mpr ⟨z, rfl⟩
  cases hs : n.scope with
  | some sc =>
    have hbody : noteBodyLines n =
        ('-' :: ' ' :: (sc.toList ++ ':' :: ' ' :: n.message.toList))
          :: n.context.map (fun c => ("  " ++ c).toList) := by
      unfold noteBodyLines
      rw [hs]
      congr 1
      rw [toList_append, toList_append, toList_append]
      simp [List.append_assoc]
    rw [hbody, List.cons_append, parseNoteLines, if_pos (hpre2 _)]
    dsimp only []
    rw [List.drop_succ_cons, List.drop_succ_cons, List.drop_zero]
    rw [noteFromLine_some sc n.message (goodNote_scope_some n sc hn hs).2.2]
    rw [parseNoteLines_contexts]
    simp only [List.nil_append]
    have he : ({ scope := some sc, message := n.message, context := n.context } :
        ReleaseSectionNote) = n := by rw [← hs]
    rw [he]
  | none =>
    have hbody : noteBodyLines n =
        ('-' :: ' ' :: n.message.toList) :: n.context.map (fun c => ("  " ++ c).toList) := by
      unfold noteBodyLines
      rw [hs]
      congr 1
    rw [hbody, List.cons_append, parseNoteLines, if_pos (hpre2 _)]
    dsimp only []
    rw [List.drop_succ_cons, List.drop_succ_cons, List.drop_zero]
    rw [noteFromLine_none n.message (goodNote_scope_none n hn hs)]
    rw [parseNoteLines_contexts]
    simp only [List.nil_append]
    have he : ({ scope := none, message := n.message, context := n.context } :
        ReleaseSectionNote) = n := by rw [← hs]
    rw [he]

theorem parseNoteLines_all : ∀ (notes : List ReleaseSectionNote) (m : ReleaseSectionNote),
    notes.all goodNote = true →
    parseNoteLines ((notes.map noteBodyLines).flatten) (some m) = m :: notes := by
  intro notes
  induction notes with
  | nil => intro m _; rfl
  | cons n notes2 ih =>
    intro m hall
    rw [List.all_cons, Bool.and_eq_true] at hall
    rw [List.map_cons, List.flatten_cons, parseNoteLines_note n hall.1 _ m, ih n hall.2]

theorem not_mem_of_noNl (s : String) (h : noNl s = true) : '\n' ∉ s.toList := by
  intro hm
  have hc := (contains_iff_mem_char s.toList '\n').mpr hm
  rw [noNl, hc] at h
  simp at h

theorem noteBody_noNl (n : ReleaseSectionNote) (hn : goodNote n = true) :
    ∀ b ∈ noteBodyLines n, '\n' ∉ b := by
  obtain ⟨hm1, hm2, -, hctx⟩ := goodNote_parts n hn
  intro b hb
  unfold noteBodyLines at hb
  rcases List.mem_cons.mp hb with rfl | hb2
  · intro hmem
    rw [toList_append, toList_append] at hmem
    rcases List.mem_append.mp hmem with h1 | h1
    · rcases List.mem_append.mp h1 with h2 | h2
      · exact absurd h2 (by decide)
      · cases hs : n.scope with
        | some sc =>
          rw [hs] at h2
          rw [toList_append] at h2
          rcases List.mem_append.mp h2 with h3 | h3
          · exact absurd h3 (not_mem_of_noNl sc (goodNote_scope_some n sc hn hs).2.1)
          · exact absurd h3 (by decide)
        | none =>
          rw [hs] at h2
          exact absurd h2 (by decide)
    · exact absurd h1 (not_mem_of_noNl n.message hm2)
  · obtain ⟨c, hc, rfl⟩ := List.mem_map.mp hb2
    have hcc : isTrimmedNE c = true ∧ noNl c = true := by
      have := (List.all_eq_true.mp hctx) c hc
      simpa [Bool.and_eq_true] using this
    intro hmem
    rw [toList_append] at hmem
    rcases List.mem_append.mp hmem with h1 | h1
    · exact absurd h1 (by decide)
    · exact absurd h1 (not_mem_of_noNl c hcc.2)

theorem noteBody_lastNonWS (n : ReleaseSectionNote) (hn : goodNote n = true) :
    ∀ b ∈ noteBodyLines n, ∃ H c, b = H ++ [c] ∧ isWS c = false := by
  obtain ⟨hm1, -, -, hctx⟩ := goodNote_parts n hn
  intro b hb
  unfold noteBodyLines at hb
  rcases List.mem_cons.mp hb with rfl | hb2
  · obtain ⟨H, c, hmsg, hc⟩ := lastNonWS_of_trimmedNE n.message hm1
    refine ⟨("- " ++ (match n.scope with | some sc => sc ++ ": " | none => "")).toList ++ H, c,
      ?_, hc⟩
    rw [toList_append, hmsg, List.append_assoc]
  · obtain ⟨c0, hc0, rfl⟩ := List.mem_map.mp hb2
    have hcc : isTrimmedNE c0 = true := by
      have h2 := (List.all_eq_true.mp hctx) c0 hc0
      rw [Bool.and_eq_true] at h2
      exact h2.1
    obtain ⟨H, c, hcl, hc⟩ := lastNonWS_of_trimmedNE c0 hcc
    refine ⟨"  ".toList ++ H, c, ?_, hc⟩
    rw [toList_append, hcl, List.append_assoc]

theorem joinBodies_cons_decomp (b : Str) (rest : List Str) :
    ∃ X, joinBodies (b :: rest) = b ++ X := by
  cases rest with
  | nil => exact ⟨[], by simp [joinBodies]⟩
  | cons b2 rest2 => exact ⟨'\n' :: joinBodies (b2 :: rest2), rfl⟩

theorem trimRight_append_of_ne (x y : Str) (h : trimRight y ≠ []) :
    trimRight (x ++ y) = x ++ trimRight y := by
  unfold trimRight
  rw [List.reverse_append, List.dropWhile_append]
  have hie : (y.reverse.dropWhile isWS).isEmpty = false := by
    cases hdw : y.reverse.dropWhile isWS with
    | nil =>
      exfalso
      apply h
      unfold trimRight
      rw [hdw]
      rfl
    | cons a l => rfl
  rw [if_neg (by simp [hie]), List.reverse_append, List.reverse_reverse]

theorem trimRight_joinBodies : ∀ bs : List Str,
    (∀ b ∈ bs, ∃ H c, b = H ++ [c] ∧ isWS c = false) →
    trimRight (joinBodies bs) = joinBodies bs := by
  intro bs
  induction bs with
  | nil => intro _; rfl
  | cons b rest ih =>
    intro h
    cases rest with
    | nil =>
      obtain ⟨H, c, hb, hc⟩ := h b (List.mem_cons_self _ _)
      show trimRight b = b
      rw [hb]
      exact trimRight_concat H c hc
    | cons b2 rest2 =>
      have hj : trimRight (joinBodies (b2 :: rest2)) = joinBodies (b2 :: rest2) :=
        ih (fun x hx => h x (List.mem_cons_of_mem _ hx))
      have hne : joinBodies (b2 :: rest2) ≠ [] := by
        obtain ⟨H2, c2, hb2, -⟩ := h b2 (List.mem_cons_of_mem _ (List.mem_cons_self _ _))
        obtain ⟨X, hX⟩ := joinBodies_cons_decomp b2 rest2
        rw [hX, hb2]
        simp
      rw [joinBodies]
      calc trimRight (b ++ '\n' :: joinBodies (b2 :: rest2))
          = trimRight ((b ++ ['\n']) ++ joinBodies (b2 :: rest2)) := by
            rw [List.append_cons]
        _ = (b ++ ['\n']) ++ trimRight (joinBodies (b2 :: rest2)) :=
            trimRight_append_of_ne _ _ (by rw [hj]; exact hne)
        _ = b ++ '\n' :: joinBodies (b2 :: rest2) := by rw [hj, ← List.append_cons]

theorem noteBodyLines_decomp (n : ReleaseSectionNote) :
    ∃ z, noteBodyLines n = ('-' :: ' ' :: z) :: n.context.map (fun c => ("  " ++ c).toList) := by
  cases hs : n.scope with
  | some sc =>
    refine ⟨sc.toList ++ ':' :: ' ' :: n.message.toList, ?_⟩
    unfold noteBodyLines
    rw [hs]
    congr 1
    rw [toList_append, toList_append, toList_append]
    simp [List.append_assoc]
  | none =>
    refine ⟨n.message.toList, ?_⟩
    unfold noteBodyLines
    rw [hs]
    congr 1

theorem parseNotes_roundtrip (notes : List ReleaseSectionNote)
    (hall : notes.all goodNote = true) :
    parseNotes (trim ('\n' :: ((notes.map noteLines).flatten).flatten)) = notes := by
  cases notes with
  | nil => rfl
  | cons n0 notes2 =>
    rw [List.all_cons, Bool.and_eq_true] at hall
    obtain ⟨hg0, hall2⟩ := hall
    have hmapBS : ((n0 :: notes2).map noteLines) =
        ((n0 :: notes2).map noteBodyLines).map (List.map (fun b => b ++ ['\n'])) := by
      rw [List.map_map]
      exact List.map_congr_left (fun n _ => noteLines_eq_bodies n)
    have hflat1 : ((n0 :: notes2).map noteLines).flatten =
        (((n0 :: notes2).map noteBodyLines).flatten).map (fun b => b ++ ['\n']) := by
      rw [hmapBS]
      exact (List.map_flatten _ _).symm
    set BS := ((n0 :: notes2).map noteBodyLines).flatten with hBS
    have hBSne : BS ≠ [] := by
      rw [hBS, List.map_cons, List.flatten_cons]
      obtain ⟨z, hz⟩ := noteBodyLines_decomp n0
      rw [hz]
      simp
    have hgood : ∀ n ∈ n0 :: notes2, goodNote n = true := by
      intro n hm
      rcases List.mem_cons.mp hm with rfl | hm2
      · exact hg0
      · exact List.all_eq_true.mp hall2 n hm2
    have hnl : ∀ b ∈ BS, '\n' ∉ b := by
      intro b hb
      rw [hBS] at hb
      obtain ⟨bl, hbl, hb2⟩ := List.mem_flatten.mp hb
      obtain ⟨n, hnmem, rfl⟩ := List.mem_map.mp hbl
      exact noteBody_noNl n (hgood n hnmem) b hb2
    have hlast : ∀ b ∈ BS, ∃ H c, b = H ++ [c] ∧ isWS c = false := by
      intro b hb
      rw [hBS] at hb
      obtain ⟨bl, hbl, hb2⟩ := List.mem_flatten.mp hb
      obtain ⟨n, hnmem, rfl⟩ := List.mem_map.mp hbl
      exact noteBody_lastNonWS n (hgood n hnmem) b hb2
    have hfl2 : (BS.map (fun b => b ++ ['\n'])).flatten = joinBodies BS ++ ['\n'] :=
      flatten_nl_map BS hBSne
    have hhead : ∃ z BSrest, BS = ('-' :: ' ' :: z) :: BSrest := by
      obtain ⟨z, hz⟩ := noteBodyLines_decomp n0
      rw [hBS, List.map_cons, List.flatten_cons, hz]
      exact ⟨z, _, rfl⟩
    have htrJ : trim (joinBodies BS) = joinBodies BS := by
      obtain ⟨z, BSrest, hBSd⟩ := hhead
      have hTL : trimLeft (joinBodies BS) = joinBodies BS := by
        rw [hBSd]
        obtain ⟨X, hX⟩ := joinBodies_cons_decomp ('-' :: ' ' :: z) BSrest
        rw [hX, List.cons_append, trimLeft, List.dropWhile_cons_of_neg (by decide)]
      show trimRight (trimLeft (joinBodies BS)) = joinBodies BS
      rw [hTL]
      exact trimRight_joinBodies BS hlast
    have hF : (((n0 :: notes2).map noteLines).flatten).flatten =
        (BS.map (fun b => b ++ ['\n'])).flatten := congrArg List.flatten hflat1
    rw [hF, hfl2]
    have hsh : ('\n' :: (joinBodies BS ++ ['\n'])) = ['\n'] ++ joinBodies BS ++ ['\n'] := by
      simp
    rw [hsh, trim_wrap _ _ _ (by decide) (by decide) htrJ]
    unfold parseNotes
    rw [splitOnNl_joinBodies BS hBSne hnl]
    rw [hBS, List.map_cons, List.flatten_cons, parseNoteLines_first n0 hg0,
      parseNoteLines_all notes2 n0 hall2]

/-! ## Round-trip (C1): running the release extractor -/

theorem lineClass_nlLine : lineClass nlLine = .other := by decide

theorem footerMatch_nlLine : footerMatch nlLine = false := by decide

theorem lineOther_class (l : Str) (h : lineOther l = true) : lineClass l = .other := by
  unfold lineOther at h
  cases hlc : lineClass l with
  | other => rfl
  | releaseTitle => rw [hlc] at h; simp at h
  | sectionTitle => rw [hlc] at h; simp at h

theorem lineOther_footer (l : Str) (h : lineOther l = true) : footerMatch l = false := by
  unfold lineOther at h
  rw [Bool.and_eq_true] at h
  simpa using h.2

theorem goodSection_parts (s : ReleaseSection) (h : goodSection s = true) :
    isTrimmedNE s.title = true ∧ noNl s.title = true ∧
    lineClass (sectionHeadLine s) = .sectionTitle ∧
    footerMatch (sectionHeadLine s) = false ∧ s.notes.all goodNote = true := by
  unfold goodSection at h
  simp only [Bool.and_eq_true, beq_iff_eq] at h
  obtain ⟨⟨⟨⟨h1, h2⟩, h3⟩, h4⟩, h5⟩ := h
  exact ⟨h1, h2, h3, by simpa using h4, h5⟩

theorem sectionHead_title (s : ReleaseSection) (ht : isTrimmedNE s.title = true) :
    (trim ((sectionHeadLine s).drop "### ".length)).asString = s.title := by
  have h1 : (sectionHeadLine s).drop "### ".length = s.title.toList ++ ['\n'] := by
    unfold sectionHeadLine
    rw [toList_append, List.append_assoc,
      show ("### ".length : Nat) = ("### ".toList).length from rfl]
    exact List.drop_left _ _
  rw [h1, trim_append_ws _ _ (by decide)]
  rw [isTrimmedNE, Bool.and_eq_true] at ht
  have h2 : trim s.title.toList = s.title.toList := by simpa using ht.1
  rw [h2]
  rfl

theorem docRelLoop_other_title (l : Str) (hlc : lineClass l = .other)
    (rest : List Str) (hdr : List Str) (ver : Option (String × Option String))
    (hdrOpt : Option String) (secs : List ReleaseSection) (c : Nat) :
    docRelLoop (l :: rest) (.title hdr) ver hdrOpt secs c =
      docRelLoop rest (.title (hdr ++ [l])) ver hdrOpt secs (c + 1) := by
  rw [docRelLoop, hlc]

theorem docRelLoop_other_sect (l : Str) (hlc : lineClass l = .other)
    (rest : List Str) (t : String) (body : List Str) (ver : Option (String × Option String))
    (hdrOpt : Option String) (secs : List ReleaseSection) (c : Nat) :
    docRelLoop (l :: rest) (.sect t body) ver hdrOpt secs c =
      docRelLoop rest (.sect t (body ++ [l])) ver hdrOpt secs (c + 1) := by
  rw [docRelLoop, hlc]

theorem docRelLoop_others_title : ∀ (ls : List Str), (∀ l ∈ ls, lineClass l = .other) →
    ∀ (rest hdr : List Str) (ver : Option (String × Option String))
      (hdrOpt : Option String) (secs : List ReleaseSection) (c : Nat),
    docRelLoop (ls ++ rest) (.title hdr) ver hdrOpt secs c =
      docRelLoop rest (.title (hdr ++ ls)) ver hdrOpt secs (c + ls.length) := by
  intro ls
  induction ls with
  | nil => intro _ rest hdr ver hdrOpt secs c; simp
  | cons l ls2 ih =>
    intro h rest hdr ver hdrOpt secs c
    rw [List.cons_append, docRelLoop_other_title l (h l (List.mem_cons_self _ _)),
      ih (fun x hx => h x (List.mem_cons_of_mem _ hx))]
    have hc2 : c + 1 + ls2.length = c + (l :: ls2).length := by
      simp only [List.length_cons]
      omega
    rw [hc2, ← List.append_cons]

theorem docRelLoop_others_sect : ∀ (ls : List Str), (∀ l ∈ ls, lineClass l = .other) →
    ∀ (rest : List Str) (t : String) (body : List Str)
      (ver : Option (String × Option String)) (hdrOpt : Option String)
      (secs : List ReleaseSection) (c : Nat),
    docRelLoop (ls ++ rest) (.sect t body) ver hdrOpt secs c =
      docRelLoop rest (.sect t (body ++ ls)) ver hdrOpt secs (c + ls.length) := by
  intro ls
  induction ls with
  | nil => intro _ rest t body ver hdrOpt secs c; simp
  | cons l ls2 ih =>
    intro h rest t body ver hdrOpt secs c
    rw [List.cons_append, docRelLoop_other_sect l (h l (List.mem_cons_self _ _)),
      ih (fun x hx => h x (List.mem_cons_of_mem _ hx))]
    have hc2 : c + 1 + ls2.length = c + (l :: ls2).length := by
      simp only [List.length_cons]
      omega
    rw [hc2, ← List.append_cons]

theorem noteFlat_other (notes : List ReleaseSectionNote) (h : notes.all goodNote = true) :
    ∀ l ∈ (notes.map noteLines).flatten, lineClass l = .other := by
  intro l hl
  obtain ⟨bl, hbl, hl2⟩ := List.mem_flatten.mp hl
  obtain ⟨n, hnmem, rfl⟩ := List.mem_map.mp hbl
  have hg := List.all_eq_true.mp h n hnmem
  have hlo := (goodNote_parts n hg).2.2.1
  exact lineOther_class l (List.all_eq_true.mp hlo l hl2)

theorem docSectChunks : ∀ (secs : List ReleaseSection) (E : List Str)
    (ver : Option (String × Option String)) (hdrOpt : Option String)
    (accSecs : List ReleaseSection) (c : Nat) (t : String) (body : List Str),
    secs.all goodSection = true → EShape E →
    docRelLoop (((secs.map (fun s => nlLine :: sectionLines s)).flatten) ++ E)
        (.sect t body) ver hdrOpt accSecs c =
      docMkRelease ver hdrOpt
        (secs.foldl (fun acc s => insertSection acc s.title s.notes)
          (insertSection accSecs t (parseNotes (trim body.flatten))))
        (c + ((secs.map (fun s => nlLine :: sectionLines s)).flatten).length
          + (E.take 1).length) := by
  intro secs
  induction secs with
  | nil =>
    intro E ver hdrOpt accSecs c t body _ hE
    simp only [List.map_nil, List.flatten_nil, List.nil_append, List.length_nil,
      Nat.add_zero, List.foldl_nil]
    rcases hE with rfl | ⟨E2, rfl, hE2⟩
    · rw [docRelLoop]
      rfl
    · rw [docRelLoop_other_sect nlLine lineClass_nlLine]
      have hb2 : trim (body ++ [nlLine]).flatten = trim body.flatten := by
        rw [List.flatten_append,
          show ([nlLine] : List Str).flatten = ['\n'] from rfl]
        exact trim_append_ws _ _ (by decide)
      rcases hE2 with rfl | ⟨l, t3, rfl, hlc⟩
      · rw [docRelLoop, hb2]
        rfl
      · rw [docRelLoop, hlc, hb2]
        rfl
  | cons s secs2 ih =>
    intro E ver hdrOpt accSecs c t body hall hE
    rw [List.all_cons, Bool.and_eq_true] at hall
    obtain ⟨hgs, hall2⟩ := hall
    obtain ⟨ht1, ht2, hlcs, hfs, hnotes⟩ := goodSection_parts s hgs
    rw [List.map_cons, List.flatten_cons]
    have hshape : ((nlLine :: sectionLines s) ++
          (secs2.map (fun s => nlLine :: sectionLines s)).flatten) ++ E =
        nlLine :: sectionHeadLine s :: ((nlLine :: (s.notes.map noteLines).flatten) ++
          ((secs2.map (fun s => nlLine :: sectionLines s)).flatten ++ E)) := by
      unfold sectionLines
      simp [List.append_assoc]
    rw [hshape]
    rw [docRelLoop_other_sect nlLine lineClass_nlLine]
    rw [docRelLoop, hlcs]
    rw [sectionHead_title s ht1]
    have hb2 : trim (body ++ [nlLine]).flatten = trim body.flatten := by
      rw [List.flatten_append, show ([nlLine] : List Str).flatten = ['\n'] from rfl]
      exact trim_append_ws _ _ (by decide)
    rw [hb2]
    have hoth : ∀ l ∈ (nlLine :: (s.notes.map noteLines).flatten), lineClass l = .other := by
      intro l hl
      rcases List.mem_cons.mp hl with rfl | hl2
      · exact lineClass_nlLine
      · exact noteFlat_other s.notes hnotes l hl2
    rw [docRelLoop_others_sect _ hoth]
    rw [ih _ ver hdrOpt _ _ s.title _ hall2 hE]
    have hpn : parseNotes (trim (([] ++ nlLine :: (s.notes.map noteLines).flatten)).flatten) =
        s.notes := by
      rw [List.nil_append,
        show ((nlLine :: (s.notes.map noteLines).flatten)).flatten =
          '\n' :: ((s.notes.map noteLines).flatten).flatten from rfl]
      exact parseNotes_roundtrip s.notes hnotes
    rw [hpn]
    rw [List.foldl_cons]
    have hcnt : c + 1 + 1 + (nlLine :: (s.notes.map noteLines).flatten).length +
        ((secs2.map (fun s => nlLine :: sectionLines s)).flatten).length + (E.take 1).length =
        c + ((nlLine :: sectionLines s) ++
          (secs2.map (fun s => nlLine :: sectionLines s)).flatten).length + (E.take 1).length := by
      unfold sectionLines
      simp only [List.length_cons, List.length_append]
      omega
    rw [hcnt]

theorem optOfTrim_append_nl (x : List Str) :
    optOfTrim ((x ++ [nlLine]).flatten) = optOfTrim x.flatten := by
  unfold optOfTrim
  rw [List.flatten_append, show ([nlLine] : List Str).flatten = ['\n'] from rfl,
    trim_append_ws _ _ (by decide)]

theorem insertSection_fresh : ∀ (acc : List ReleaseSection) (t : String)
    (ns : List ReleaseSectionNote), (∀ s ∈ acc, s.title ≠ t) →
    insertSection acc t ns = acc ++ [{ title := t, notes := ns }] := by
  intro acc
  induction acc with
  | nil => intro t ns _; rfl
  | cons a acc2 ih =>
    intro t ns h
    rw [insertSection, if_neg (h a (List.mem_cons_self _ _)), List.cons_append,
      ih t ns (fun s hs => h s (List.mem_cons_of_mem _ hs))]

theorem foldl_insertSection_fresh : ∀ (secs acc : List ReleaseSection),
    (((acc ++ secs).map (fun s => s.title)).Nodup) →
    secs.foldl (fun a s => insertSection a s.title s.notes) acc = acc ++ secs := by
  intro secs
  induction secs with
  | nil => intro acc _; simp
  | cons s secs2 ih =>
    intro acc hnd
    rw [List.foldl_cons]
    have hfresh : ∀ x ∈ acc, x.title ≠ s.title := by
      intro x hx heq
      rw [List.map_append, List.nodup_append] at hnd
      exact hnd.2.2 (List.mem_map_of_mem _ hx)
        (heq ▸ List.mem_map_of_mem (fun s => s.title) (List.mem_cons_self s secs2))
    rw [insertSection_fresh acc s.title s.notes hfresh]
    have he : ({ title := s.title, notes := s.notes } : ReleaseSection) = s := rfl
    rw [he, ih (acc ++ [s]) (by rw [List.append_assoc]; simpa using hnd)]
    simp

theorem goodRelease_parts (r : Release) (h : goodRelease r = true) :
    noNl r.title.version = true ∧
    lineClass (headingLine r) = .releaseTitle ∧
    relCaptures (headingLine r) = some (r.title.version.toList, r.title.title.map String.toList) ∧
    footerMatch (headingLine r) = false ∧
    r.footer = none ∧
    ((r.note_sections.map (fun s => s.title)).Nodup) ∧
    r.note_sections.all goodSection = true := by
  unfold goodRelease at h
  simp only [Bool.and_eq_true, beq_iff_eq] at h
  obtain ⟨⟨⟨⟨⟨⟨⟨⟨h1, h2⟩, h3⟩, h4⟩, h5⟩, h6⟩, h7⟩, h8⟩, h9⟩ := h
  exact ⟨h1, h3, h4, by simpa using h5, h7, by simpa using h8, h9⟩

theorem goodRelease_header_some (r : Release) (hd : String) (h : goodRelease r = true)
    (hh : r.header = some hd) :
    isTrimmedNE hd = true ∧ (splitInclusive (hd.toList ++ ['\n'])).all lineOther = true := by
  unfold goodRelease at h
  rw [hh] at h
  simp only [Bool.and_eq_true] at h
  exact ⟨h.1.1.1.2.1, h.1.1.1.2.2⟩

theorem docTitleChunks : ∀ (secs : List ReleaseSection) (E hdr : List Str)
    (ver : Option (String × Option String)) (hdrOpt0 : Option String) (c : Nat),
    secs.all goodSection = true → EShape E →
    docRelLoop ((secs.map (fun s => nlLine :: sectionLines s)).flatten ++ E)
        (.title hdr) ver hdrOpt0 [] c =
      docMkRelease ver (optOfTrim hdr.flatten)
        (secs.foldl (fun acc s => insertSection acc s.title s.notes) [])
        (c + ((secs.map (fun s => nlLine :: sectionLines s)).flatten).length
          + (E.take 1).length) := by
  intro secs E hdr ver hdrOpt0 c hall hE
  cases secs with
  | nil =>
    simp only [List.map_nil, List.flatten_nil, List.nil_append, List.length_nil,
      Nat.add_zero, List.foldl_nil]
    rcases hE with rfl | ⟨E2, rfl, hE2⟩
    · rw [docRelLoop]
      rfl
    · rw [docRelLoop_other_title nlLine lineClass_nlLine]
      rcases hE2 with rfl | ⟨l, t3, rfl, hlc⟩
      · rw [docRelLoop, optOfTrim_append_nl]
        rfl
      · rw [docRelLoop, hlc, optOfTrim_append_nl]
        rfl
  | cons s0 secs2 =>
    rw [List.all_cons, Bool.and_eq_true] at hall
    obtain ⟨hgs, hall2⟩ := hall
    obtain ⟨ht1, ht2, hlcs, hfs, hnotes⟩ := goodSection_parts s0 hgs
    rw [List.map_cons, List.flatten_cons]
    have hshape : ((nlLine :: sectionLines s0) ++
          (secs2.map (fun s => nlLine :: sectionLines s)).flatten) ++ E =
        nlLine :: sectionHeadLine s0 :: ((nlLine :: (s0.notes.map noteLines).flatten) ++
          ((secs2.map (fun s => nlLine :: sectionLines s)).flatten ++ E)) := by
      unfold sectionLines
      simp [List.append_assoc]
    rw [hshape]
    rw [docRelLoop_other_title nlLine lineClass_nlLine]
    rw [docRelLoop, hlcs]
    rw [sectionHead_title s0 ht1, optOfTrim_append_nl]
    have hoth : ∀ l ∈ (nlLine :: (s0.notes.map noteLines).flatten), lineClass l = .other := by
      intro l hl
      rcases List.mem_cons.mp hl with rfl | hl2
      · exact lineClass_nlLine
      · exact noteFlat_other s0.notes hnotes l hl2
    rw [docRelLoop_others_sect _ hoth]
    rw [docSectChunks secs2 E ver _ _ _ s0.title _ hall2 hE]
    have hpn : parseNotes (trim (([] ++ nlLine :: (s0.notes.map noteLines).flatten)).flatten) =
        s0.notes := by
      rw [List.nil_append,
        show ((nlLine :: (s0.notes.map noteLines).flatten)).flatten =
          '\n' :: ((s0.notes.map noteLines).flatten).flatten from rfl]
      exact parseNotes_roundtrip s0.notes hnotes
    rw [hpn, List.foldl_cons]
    have hcnt : c + 1 + 1 + (nlLine :: (s0.notes.map noteLines).flatten).length +
        ((secs2.map (fun s => nlLine :: sectionLines s)).flatten).length + (E.take 1).length =
        c + ((nlLine :: sectionLines s0) ++
          (secs2.map (fun s => nlLine :: sectionLines s)).flatten).length + (E.take 1).length := by
      unfold sectionLines
      simp only [List.length_cons, List.length_append]
      omega
    rw [hcnt]

theorem optOfTrim_header (hd : String) (h : isTrimmedNE hd = true) :
    optOfTrim ('\n' :: (hd.toList ++ ['\n'])) = some hd := by
  unfold optOfTrim
  rw [isTrimmedNE, Bool.and_eq_true] at h
  have hsh : ('\n' :: (hd.toList ++ ['\n'])) = ['\n'] ++ hd.toList ++ ['\n'] := by simp
  rw [hsh, trim_wrap _ _ _ (by decide) (by decide) (by simpa using h.1)]
  have hne : ¬(hd.toList = []) := by
    intro hz
    have h2 := h.2
    rw [hz] at h2
    simp at h2
  rw [if_neg hne]
  rfl

theorem docRelLoop_release (r : Release) (hg : goodRelease r = true) (E : List Str)
    (hE : EShape E) :
    docRelLoop (relCoreLines r ++ E) .init none none [] 0 =
      .ok (some (r, (relCoreLines r).length + (E.take 1).length)) := by
  obtain ⟨hv, hlc, hcap, hfm, hfooter, hnodup, hsecs⟩ := goodRelease_parts r hg
  have hvs : (r.title.version.toList).asString = r.title.version := rfl
  have hts : ((r.title.title.map String.toList).map List.asString) = r.title.title := by
    cases r.title.title <;> rfl
  have hrec : ({ title := { version := r.title.version, title := r.title.title },
                 header := r.header, note_sections := r.note_sections,
                 footer := none } : Release) = r := by
    rw [← hfooter]
  have hfold : r.note_sections.foldl (fun acc s => insertSection acc s.title s.notes) [] =
      r.note_sections := by
    have := foldl_insertSection_fresh r.note_sections [] (by simpa using hnodup)
    simpa using this
  show docRelLoop ((headingLine r :: _) ++ E) .init none none [] 0 = _
  rw [List.cons_append, docRelLoop, hlc, hcap]
  dsimp only []
  rw [hvs, hts]
  cases hh : r.header with
  | some hd =>
    obtain ⟨hhd1, hhd2⟩ := goodRelease_header_some r hd hg hh
    have habs : ∀ l ∈ (nlLine :: splitInclusive (hd.toList ++ ['\n'])), lineClass l = .other := by
      intro l hl
      rcases List.mem_cons.mp hl with rfl | hl2
      · exact lineClass_nlLine
      · exact lineOther_class l (List.all_eq_true.mp hhd2 l hl2)
    rw [List.append_assoc, docRelLoop_others_title _ habs, List.nil_append]
    rw [docTitleChunks r.note_sections E _ _ _ _ hsecs hE]
    have hflat : ((nlLine :: splitInclusive (hd.toList ++ ['\n']))).flatten =
        '\n' :: (hd.toList ++ ['\n']) := by
      rw [show ((nlLine :: splitInclusive (hd.toList ++ ['\n']))).flatten =
        '\n' :: (splitInclusive (hd.toList ++ ['\n'])).flatten from rfl,
        splitInclusive_flatten]
    rw [hflat, optOfTrim_header hd hhd1, hfold]
    unfold docMkRelease
    dsimp only []
    rw [← hh, hrec]
    have hcnt : 0 + 1 + (nlLine :: splitInclusive (hd.toList ++ ['\n'])).length +
        ((r.note_sections.map (fun s => nlLine :: sectionLines s)).flatten).length +
        (E.take 1).length = (relCoreLines r).length + (E.take 1).length := by
      unfold relCoreLines
      rw [hh]
      dsimp only []
      simp only [List.length_cons, List.length_append]
      omega
    rw [hcnt]
    rfl
  | none =>
    dsimp only []
    rw [List.nil_append, docTitleChunks r.note_sections E _ _ _ _ hsecs hE]
    have hot : optOfTrim (([] : List Str)).flatten = none := rfl
    rw [hot, hfold]
    unfold docMkRelease
    dsimp only []
    have hrecn : ({ title := { version := r.title.version, title := r.title.title },
                    header := none, note_sections := r.note_sections,
                    footer := none } : Release) = r := by
      have e1 : ({ title := { version := r.title.version, title := r.title.title },
                   header := none, note_sections := r.note_sections,
                   footer := none } : Release)
              = ({ title := { version := r.title.version, title := r.title.title },
                   header := r.header, note_sections := r.note_sections,
                   footer := r.footer } : Release) := by rw [hh, hfooter]
      exact e1
    rw [hrecn]
    have hcnt : 0 + 1 +
        ((r.note_sections.map (fun s => nlLine :: sectionLines s)).flatten).length +
        (E.take 1).length = (relCoreLines r).length + (E.take 1).length := by
      unfold relCoreLines
      rw [hh]
      dsimp only []
      simp only [List.length_cons, List.length_append, List.length_nil]
      omega
    rw [hcnt]
    rfl

theorem insertRelease_fresh : ∀ (done : List Release) (r : Release),
    (∀ x ∈ done, x.title.version ≠ r.title.version) →
    insertRelease done r = done ++ [r] := by
  intro done
  induction done with
  | nil => intro r _; rfl
  | cons x done2 ih =>
    intro r h
    rw [insertRelease, if_neg (h x (List.mem_cons_self _ _)), List.cons_append,
      ih r (fun y hy => h y (List.mem_cons_of_mem _ hy))]

theorem docReleasesLoop_all : ∀ (rs : List Release) (fin : List Str) (done : List Release)
    (fuel : Nat),
    (relLines rs fin).length < fuel →
    rs.all goodRelease = true →
    (fin = [] ∨ fin = [nlLine]) →
    (((done ++ rs).map (fun r => r.title.version)).Nodup) →
    docReleasesLoop fuel (relLines rs fin) done = .ok (done ++ rs) := by
  intro rs
  induction rs with
  | nil =>
    intro fin done fuel hfuel _ hfin _
    cases fuel with
    | zero => omega
    | succ f =>
      rcases hfin with rfl | rfl
      · rw [show relLines [] [] = ([] : List Str) from rfl, docReleasesLoop, List.append_nil]
        rfl
      · rw [show relLines [] [nlLine] = [nlLine] from rfl, docReleasesLoop, List.append_nil]
        have hstep : docRelLoop [nlLine] .init none none [] 0 = pure none := by
          rw [docRelLoop, lineClass_nlLine]
        rw [hstep]
        rfl
  | cons r rs2 ih =>
    intro fin done fuel hfuel hall hfin hnodup
    rw [List.all_cons, Bool.and_eq_true] at hall
    obtain ⟨hgr, hall2⟩ := hall
    have hcore1 : 1 ≤ (relCoreLines r).length := by
      unfold relCoreLines
      simp
    have hfresh0 : ∀ x ∈ done, x.title.version ≠ r.title.version := by
      intro x hx heq
      rw [List.map_append, List.nodup_append] at hnodup
      exact hnodup.2.2 (List.mem_map_of_mem _ hx)
        (heq ▸ List.mem_map_of_mem (fun r => r.title.version) (List.mem_cons_self r _))
    have hfresh := insertRelease_fresh done r hfresh0
    cases fuel with
    | zero => omega
    | succ f =>
      cases rs2 with
      | nil =>
        rw [show relLines [r] fin = relCoreLines r ++ fin from rfl] at hfuel ⊢
        have hE : EShape fin := by
          rcases hfin with rfl | rfl
          · exact Or.inl rfl
          · exact Or.inr ⟨[], rfl, Or.inl rfl⟩
        rw [docReleasesLoop, docRelLoop_release r hgr fin hE]
        dsimp only []
        have hdrop : (relCoreLines r ++ fin).drop
            ((relCoreLines r).length + ((fin.take 1)).length) = [] := by
          apply List.drop_eq_nil_of_le
          rcases hfin with rfl | rfl <;> simp
        rw [hdrop, hfresh]
        cases f with
        | zero =>
          exfalso
          rw [List.length_append] at hfuel
          omega
        | succ f2 =>
          rw [docReleasesLoop]
          rfl
      | cons r2 rs3 =>
        rw [show relLines (r :: r2 :: rs3) fin =
          relCoreLines r ++ nlLine :: relLines (r2 :: rs3) fin from rfl] at hfuel ⊢
        have hr2g : goodRelease r2 = true := by
          rw [List.all_cons, Bool.and_eq_true] at hall2
          exact hall2.1
        have hr2lc := (goodRelease_parts r2 hr2g).2.1
        have hshape : ∃ t3, relLines (r2 :: rs3) fin = headingLine r2 :: t3 := by
          cases rs3 with
          | nil => exact ⟨_, rfl⟩
          | cons r3 rs4 => exact ⟨_, rfl⟩
        have hE : EShape (nlLine :: relLines (r2 :: rs3) fin) := by
          obtain ⟨t3, ht3⟩ := hshape
          exact Or.inr ⟨relLines (r2 :: rs3) fin, rfl,
            Or.inr ⟨headingLine r2, t3, ht3, hr2lc⟩⟩
        rw [docReleasesLoop, docRelLoop_release r hgr _ hE]
        dsimp only []
        have hdrop : (relCoreLines r ++ nlLine :: relLines (r2 :: rs3) fin).drop
            ((relCoreLines r).length + ((nlLine :: relLines (r2 :: rs3) fin).take 1).length) =
            relLines (r2 :: rs3) fin := by
          rw [show ((nlLine :: relLines (r2 :: rs3) fin).take 1).length = 1 from rfl]
          rw [show (relCoreLines r).length + 1 = (relCoreLines r ++ [nlLine]).length from by simp]
          rw [show relCoreLines r ++ nlLine :: relLines (r2 :: rs3) fin =
            (relCoreLines r ++ [nlLine]) ++ relLines (r2 :: rs3) fin from by simp]
          exact List.drop_left _ _
        rw [hdrop, hfresh]
        have hres := ih fin (done ++ [r]) f
          (by rw [List.length_append, List.length_cons] at hfuel; omega)
          hall2 hfin
          (by rw [List.append_assoc]; simpa using hnodup)
        rw [hres, List.append_assoc]
        rfl

/-! ## Round-trip (C1): locating the Unreleased marker -/

theorem isPrefixOf_append_right (p x y : Str) (h : p.isPrefixOf x = true) :
    p.isPrefixOf (x ++ y) = true :=
  List.isPrefixOf_iff_prefix.mpr
    ((List.isPrefixOf_iff_prefix.mp h).trans (List.prefix_append x y))

theorem marker_prefix_headingLine (r : Release) (hv : r.title.version = "Unreleased") :
    unreleasedMarker.isPrefixOf (headingLine r) = true := by
  apply List.isPrefixOf_iff_prefix.mpr
  unfold headingLine
  cases ht : r.title.title with
  | some t =>
    refine ⟨" - ".toList ++ t.toList ++ ['\n'], ?_⟩
    simp only [toList_append, hv, List.append_assoc]
    rfl
  | none =>
    refine ⟨['\n'], ?_⟩
    simp only [toList_append, hv, List.append_assoc]
    rfl

theorem no_early_match (pat A rest : Str) (hnl : '\n' ∉ pat)
    (hA : A.getLast? = some '\n') (hnc : containsSubstr A pat = false) :
    ∀ j, j < A.length → pat.isPrefixOf ((A ++ rest).drop j) = false := by
  intro j hj
  cases hp : pat.isPrefixOf ((A ++ rest).drop j) with
  | false => rfl
  | true =>
    exfalso
    rw [List.drop_append_of_le_length (by omega)] at hp
    have hpre := List.isPrefixOf_iff_prefix.mp hp
    by_cases hlen : pat.length ≤ (A.drop j).length
    · have h2 : List.IsPrefix pat (A.drop j) := by
        rw [List.prefix_iff_eq_take] at hpre ⊢
        rw [List.take_append_of_le_length hlen] at hpre
        exact hpre
      have hc := containsSubstr_of_prefix_drop A pat j (List.isPrefixOf_iff_prefix.mpr h2)
      rw [hc] at hnc
      simp at hnc
    · have h1 : List.IsPrefix (A.drop j) (A.drop j ++ rest) := List.prefix_append _ _
      have h2 : List.IsPrefix (A.drop j) pat :=
        List.prefix_of_prefix_length_le h1 hpre (by omega)
      have h3 : (A.drop j).getLast? = some '\n' := by
        rw [List.getLast?_drop, if_neg (by omega)]
        exact hA
      exact hnl (h2.subset (List.mem_of_mem_getLast? h3))

theorem contains_append_nl (pat A : Str) (hnl : '\n' ∉ pat) (hne : pat ≠ [])
    (hA : A.getLast? = some '\n') (hnc : containsSubstr A pat = false) :
    containsSubstr (A ++ ['\n']) pat = false := by
  cases hc : containsSubstr (A ++ ['\n']) pat with
  | false => rfl
  | true =>
    exfalso
    unfold containsSubstr at hc
    obtain ⟨j, hj⟩ := (findSubstr_isSome_iff _ _).mp hc
    by_cases hjlt : j < A.length
    · have := no_early_match pat A ['\n'] hnl hA hnc j hjlt
      rw [hj] at this
      simp at this
    · by_cases hjeq : j = A.length
      · subst hjeq
        rw [List.drop_left] at hj
        cases pat with
        | nil => exact hne rfl
        | cons c p2 =>
          rw [List.isPrefixOf_cons₂] at hj
          rw [Bool.and_eq_true, beq_iff_eq] at hj
          exact hnl (by simp [hj.1])
      · have hge : A.length + 1 ≤ j := by omega
        rw [List.drop_eq_nil_of_le (by simp; omega)] at hj
        cases pat with
        | nil => exact hne rfl
        | cons c p2 => simp [List.isPrefixOf] at hj

theorem findSubstr_marker_pos (A rest : Str) (A0 : Str) (hA : A = A0 ++ ['\n'])
    (hnc : containsSubstr A unreleasedMarker = false)
    (hpre : unreleasedMarker.isPrefixOf rest = true) :
    findSubstr (A ++ rest) unreleasedMarker = some A.length := by
  apply findSubstr_min
  · intro j hj
    have hlast : A.getLast? = some '\n' := by
      rw [hA, List.getLast?_append]
      rfl
    have := no_early_match unreleasedMarker A rest (by decide) hlast hnc j hj
    intro habs
    rw [this] at habs
    simp at habs
  · rw [List.drop_left]
    exact hpre

/-! ## Round-trip (C1): the line structure of the serialized body -/

theorem headingLine_shape (r : Release) (h : goodRelease r = true) :
    ∃ b, headingLine r = b ++ ['\n'] ∧ '\n' ∉ b := by
  unfold goodRelease at h
  simp only [Bool.and_eq_true] at h
  have hv : noNl r.title.version = true := h.1.1.1.1.1.1.1.1
  have ht := h.1.1.1.1.1.1.1.2
  unfold headingLine
  cases htt : r.title.title with
  | some t =>
    rw [htt] at ht
    refine ⟨_, rfl, ?_⟩
    intro hm
    rw [toList_append, toList_append, toList_append] at hm
    rcases List.mem_append.mp hm with h1 | h1
    · rcases List.mem_append.mp h1 with h2 | h2
      · rcases List.mem_append.mp h2 with h3 | h3
        · exact absurd h3 (by decide)
        · exact absurd h3 (not_mem_of_noNl _ hv)
      · exact absurd h2 (by decide)
    · exact absurd h1 (not_mem_of_noNl _ ht)
  | none =>
    refine ⟨_, rfl, ?_⟩
    intro hm
    rw [toList_append, toList_append] at hm
    rcases List.mem_append.mp hm with h1 | h1
    · rcases List.mem_append.mp h1 with h2 | h2
      · exact absurd h2 (by decide)
      · exact absurd h2 (not_mem_of_noNl _ hv)
    · exact absurd h1 (by decide)

theorem WfChunks_nl : ∀ (cs : List Str), WfChunks cs →
    cs.flatten.getLast? = some '\n' →
    ∀ c ∈ cs, ∃ b, c = b ++ ['\n'] ∧ '\n' ∉ b := by
  intro cs h
  induction h with
  | nil => intro _ c hc; simp at hc
  | last body hnl hne =>
    intro hend c hc
    exfalso
    apply hnl
    have hfl : ([body] : List Str).flatten = body := by simp
    rw [hfl] at hend
    exact List.mem_of_mem_getLast? hend
  | cons body rest hbnl hrest ih =>
    intro hend c hc
    rcases List.mem_cons.mp hc with rfl | hc2
    · exact ⟨body, rfl, hbnl⟩
    · have hrne : rest.flatten ≠ [] := by
        cases hrest with
        | nil => simp at hc2
        | last b2 hnl2 hne2 => simpa using hne2
        | cons b2 rest2 hnl2 hrest2 => simp
      have hrl : rest.flatten.getLast? = some '\n' := by
        rw [List.flatten_cons, List.getLast?_append] at hend
        cases hfl : rest.flatten.getLast? with
        | none =>
          exfalso
          have hs := List.getLast?_isSome.mpr hrne
          rw [hfl] at hs
          simp at hs
        | some x =>
          rw [hfl] at hend
          simpa using hend
      exact ih hrl c hc2

theorem sectionHeadLine_shape (s : ReleaseSection) (ht : noNl s.title = true) :
    ∃ b, sectionHeadLine s = b ++ ['\n'] ∧ '\n' ∉ b := by
  unfold sectionHeadLine
  refine ⟨_, rfl, ?_⟩
  intro hm
  rw [toList_append] at hm
  rcases List.mem_append.mp hm with h1 | h1
  · exact absurd h1 (by decide)
  · exact absurd h1 (not_mem_of_noNl _ ht)

theorem sectionLines_mem (s : ReleaseSection) (c : Str) (hc : c ∈ sectionLines s) :
    c = sectionHeadLine s ∨ c = nlLine ∨ ∃ n ∈ s.notes, c ∈ noteLines n := by
  unfold sectionLines at hc
  rcases List.mem_cons.mp hc with rfl | hc2
  · exact Or.inl rfl
  rcases List.mem_cons.mp hc2 with rfl | hc3
  · exact Or.inr (Or.inl rfl)
  obtain ⟨bl, hbl, hcbl⟩ := List.mem_flatten.mp hc3
  obtain ⟨n, hn, rfl⟩ := List.mem_map.mp hbl
  exact Or.inr (Or.inr ⟨n, hn, hcbl⟩)

theorem relCoreLines_mem (r : Release) (c : Str) (hc : c ∈ relCoreLines r) :
    c = headingLine r ∨ c = nlLine ∨
    (∃ hd, r.header = some hd ∧ c ∈ splitInclusive (hd.toList ++ ['\n'])) ∨
    (∃ s ∈ r.note_sections, c ∈ sectionLines s) := by
  unfold relCoreLines at hc
  rcases List.mem_cons.mp hc with rfl | hc2
  · exact Or.inl rfl
  rcases List.mem_append.mp hc2 with h1 | h1
  · cases hh : r.header with
    | some hd =>
      rw [hh] at h1
      rcases List.mem_cons.mp h1 with rfl | h2
      · exact Or.inr (Or.inl rfl)
      · exact Or.inr (Or.inr (Or.inl ⟨hd, rfl, h2⟩))
    | none =>
      rw [hh] at h1
      simp at h1
  · obtain ⟨bl, hbl, hcbl⟩ := List.mem_flatten.mp h1
    obtain ⟨s, hs, rfl⟩ := List.mem_map.mp hbl
    rcases List.mem_cons.mp hcbl with rfl | h2
    · exact Or.inr (Or.inl rfl)
    · exact Or.inr (Or.inr (Or.inr ⟨s, hs, h2⟩))

theorem relCoreLines_shape (r : Release) (hg : goodRelease r = true) :
    ∀ c ∈ relCoreLines r, (∃ b, c = b ++ ['\n'] ∧ '\n' ∉ b) ∧ footerMatch c = false := by
  obtain ⟨hv, hlc, hcap, hfm, hfooter, hnodup, hsecs⟩ := goodRelease_parts r hg
  intro c hc
  rcases relCoreLines_mem r c hc with rfl | rfl | ⟨hd, hh, hsp⟩ | ⟨s, hs, hsl⟩
  · exact ⟨headingLine_shape r hg, hfm⟩
  · exact ⟨⟨[], rfl, by decide⟩, footerMatch_nlLine⟩
  · obtain ⟨hhd1, hhd2⟩ := goodRelease_header_some r hd hg hh
    have hlo := List.all_eq_true.mp hhd2 c hsp
    refine ⟨?_, lineOther_footer c hlo⟩
    apply WfChunks_nl _ (wf_splitInclusive _) ?_ c hsp
    rw [splitInclusive_flatten, List.getLast?_append]
    rfl
  · have hgsec : goodSection s = true := List.all_eq_true.mp hsecs s hs
    obtain ⟨ht1, ht2, hlcs, hfs, hnotes⟩ := goodSection_parts s hgsec
    rcases sectionLines_mem s c hsl with rfl | rfl | ⟨n, hn, hnl⟩
    · exact ⟨sectionHeadLine_shape s ht2, hfs⟩
    · exact ⟨⟨[], rfl, by decide⟩, footerMatch_nlLine⟩
    · have hgn : goodNote n = true := List.all_eq_true.mp hnotes n hn
      constructor
      · rw [noteLines_eq_bodies] at hnl
        obtain ⟨b, hb, rfl⟩ := List.mem_map.mp hnl
        exact ⟨b, rfl, noteBody_noNl n hgn b hb⟩
      · have hlo := List.all_eq_true.mp (goodNote_parts n hgn).2.2.1 c hnl
        exact lineOther_footer c hlo

theorem relLines_mem : ∀ (rs : List Release) (fin : List Str) (c : Str),
    c ∈ relLines rs fin → (∃ r ∈ rs, c ∈ relCoreLines r) ∨ c = nlLine ∨ c ∈ fin := by
  intro rs
  induction rs with
  | nil => intro fin c hc; exact Or.inr (Or.inr hc)
  | cons r rs2 ih =>
    intro fin c hc
    cases rs2 with
    | nil =>
      rw [show relLines [r] fin = relCoreLines r ++ fin from rfl] at hc
      rcases List.mem_append.mp hc with h1 | h1
      · exact Or.inl ⟨r, List.mem_cons_self _ _, h1⟩
      · exact Or.inr (Or.inr h1)
    | cons r2 rs3 =>
      rw [show relLines (r :: r2 :: rs3) fin =
        relCoreLines r ++ nlLine :: relLines (r2 :: rs3) fin from rfl] at hc
      rcases List.mem_append.mp hc with h1 | h1
      · exact Or.inl ⟨r, List.mem_cons_self _ _, h1⟩
      rcases List.mem_cons.mp h1 with rfl | h2
      · exact Or.inr (Or.inl rfl)
      rcases ih fin c h2 with ⟨r', hr', hcr⟩ | h3 | h3
      · exact Or.inl ⟨r', List.mem_cons_of_mem _ hr', hcr⟩
      · exact Or.inr (Or.inl h3)
      · exact Or.inr (Or.inr h3)

theorem relLines_all (rs : List Release) (fin : List Str)
    (hall : rs.all goodRelease = true) (hfin : fin = [] ∨ fin = [nlLine]) :
    ∀ c ∈ relLines rs fin, (∃ b, c = b ++ ['\n'] ∧ '\n' ∉ b) ∧ footerMatch c = false := by
  intro c hc
  rcases relLines_mem rs fin c hc with ⟨r, hr, hcr⟩ | rfl | hcfin
  · exact relCoreLines_shape r (List.all_eq_true.mp hall r hr) c hcr
  · exact ⟨⟨[], rfl, by decide⟩, footerMatch_nlLine⟩
  · rcases hfin with rfl | rfl
    · simp at hcfin
    · rcases List.mem_cons.mp hcfin with rfl | h2
      · exact ⟨⟨[], rfl, by decide⟩, footerMatch_nlLine⟩
      · simp at h2

theorem takeWhile_append_all {α : Type} (p : α → Bool) : ∀ (l₁ l₂ : List α),
    (∀ a ∈ l₁, p a = true) → (l₁ ++ l₂).takeWhile p = l₁ ++ l₂.takeWhile p := by
  intro l₁
  induction l₁ with
  | nil => intro l₂ _; rfl
  | cons a l ih =>
    intro l₂ h
    rw [List.cons_append, List.takeWhile_cons_of_pos (h a (List.mem_cons_self _ _)),
      ih l₂ (fun x hx => h x (List.mem_cons_of_mem _ hx)), List.cons_append]

theorem dropWhile_append_all2 {α : Type} (p : α → Bool) : ∀ (l₁ l₂ : List α),
    (∀ a ∈ l₁, p a = true) → (l₁ ++ l₂).dropWhile p = l₂.dropWhile p := by
  intro l₁
  induction l₁ with
  | nil => intro l₂ _; rfl
  | cons a l ih =>
    intro l₂ h
    rw [List.cons_append, List.dropWhile_cons_of_pos (h a (List.mem_cons_self _ _)),
      ih l₂ (fun x hx => h x (List.mem_cons_of_mem _ hx))]

theorem takeWhile_all_false {α : Type} (p : α → Bool) (l : List α)
    (h : ∀ a ∈ l, p a = false) : l.takeWhile p = [] := by
  cases l with
  | nil => rfl
  | cons a t =>
    rw [List.takeWhile_cons_of_neg]
    rw [h a (List.mem_cons_self _ _)]
    simp

theorem dropWhile_all_false {α : Type} (p : α → Bool) (l : List α)
    (h : ∀ a ∈ l, p a = false) : l.dropWhile p = l := by
  cases l with
  | nil => rfl
  | cons a t =>
    rw [List.dropWhile_cons_of_neg]
    rw [h a (List.mem_cons_self _ _)]
    simp

/-! ## Round-trip (C1): footer-link lines -/

theorem goodFootLink_parts (fl : FootLink) (h : goodFootLink fl = true) :
    isTrimmedNE fl.text = true ∧
    (∀ c ∈ fl.text.toList, c ≠ ']' ∧ c ≠ ':' ∧ c ≠ '\n') ∧
    trim fl.link.toList = fl.link.toList ∧ noNl fl.link = true ∧
    footerMatch (footLinkLine fl) = true := by
  unfold goodFootLink at h
  simp only [Bool.and_eq_true, beq_iff_eq] at h
  obtain ⟨⟨⟨⟨h1, h2⟩, h3⟩, h4⟩, h5⟩ := h
  refine ⟨h1, ?_, h3, h4, h5⟩
  intro c hc
  have h6 := List.all_eq_true.mp h2 c hc
  simp only [Bool.and_eq_true, decide_eq_true_eq] at h6
  exact ⟨h6.1.1, h6.1.2, h6.2⟩

theorem dropWhile_to_stop (p : Char → Bool) : ∀ (l₁ : Str) (c : Char) (l₂ : Str),
    (∀ a ∈ l₁, p a = true) → p c = false → (l₁ ++ c :: l₂).dropWhile p = c :: l₂ := by
  intro l₁
  induction l₁ with
  | nil =>
    intro c l₂ _ hc
    rw [List.nil_append, List.dropWhile_cons_of_neg (by rw [hc]; simp)]
  | cons a l ih =>
    intro c l₂ h hc
    rw [List.cons_append, List.dropWhile_cons_of_pos (h a (List.mem_cons_self _ _)),
      ih c l₂ (fun x hx => h x (List.mem_cons_of_mem _ hx)) hc]

theorem takeWhile_to_stop (p : Char → Bool) : ∀ (l₁ : Str) (c : Char) (l₂ : Str),
    (∀ a ∈ l₁, p a = true) → p c = false → (l₁ ++ c :: l₂).takeWhile p = l₁ := by
  intro l₁
  induction l₁ with
  | nil =>
    intro c l₂ _ hc
    rw [List.nil_append, List.takeWhile_cons_of_neg (by rw [hc]; simp)]
  | cons a l ih =>
    intro c l₂ h hc
    rw [List.cons_append, List.takeWhile_cons_of_pos (h a (List.mem_cons_self _ _)),
      ih c l₂ (fun x hx => h x (List.mem_cons_of_mem _ hx)) hc]

theorem footLinkLine_decomp (fl : FootLink) :
    footLinkLine fl =
      '[' :: (fl.text.toList ++ ']' :: ':' :: ' ' :: (fl.link.toList ++ ['\n'])) := by
  unfold footLinkLine
  rw [toList_append, toList_append, toList_append]
  simp [List.append_assoc]

theorem extractFootLinkSpec_roundtrip (fl : FootLink) (h : goodFootLink fl = true) :
    extractFootLinkSpec (footLinkLine fl) = fl := by
  obtain ⟨h1, h2, h3, h4, h5⟩ := goodFootLink_parts fl h
  rw [footLinkLine_decomp]
  unfold extractFootLinkSpec
  have htr : trim fl.text.toList = fl.text.toList := by
    rw [isTrimmedNE, Bool.and_eq_true] at h1
    simpa using h1.1
  have hdw1 : ('[' :: (fl.text.toList ++ ']' :: ':' :: ' ' :: (fl.link.toList ++ ['\n']))).dropWhile
      (fun x => decide ¬(x = '[')) = '[' :: (fl.text.toList ++ ']' :: ':' :: ' ' ::
        (fl.link.toList ++ ['\n'])) := by
    rw [List.dropWhile_cons_of_neg (by simp)]
  have htw1 : (fl.text.toList ++ ']' :: ':' :: ' ' :: (fl.link.toList ++ ['\n'])).takeWhile
      (fun x => decide ¬(x = ']')) = fl.text.toList := by
    apply takeWhile_to_stop
    · intro a ha
      simp only [decide_eq_true_eq]
      exact (h2 a ha).1
    · simp
  have hdw2 : ('[' :: (fl.text.toList ++ ']' :: ':' :: ' ' :: (fl.link.toList ++ ['\n']))).dropWhile
      (fun x => decide ¬(x = ':')) = ':' :: ' ' :: (fl.link.toList ++ ['\n']) := by
    rw [show '[' :: (fl.text.toList ++ ']' :: ':' :: ' ' :: (fl.link.toList ++ ['\n'])) =
      ('[' :: fl.text.toList ++ [']']) ++ ':' :: (' ' :: (fl.link.toList ++ ['\n'])) from by simp]
    apply dropWhile_to_stop
    · intro a ha
      simp only [decide_eq_true_eq]
      rcases List.mem_cons.mp ha with rfl | ha2
      · decide
      rcases List.mem_append.mp ha2 with ha3 | ha3
      · exact (h2 a ha3).2.1
      · rcases List.mem_cons.mp ha3 with rfl | ha4
        · decide
        · simp at ha4
    · simp
  rw [hdw1, hdw2]
  rw [List.drop_succ_cons, List.drop_zero, List.drop_succ_cons, List.drop_zero]
  rw [htw1, htr]
  have hlink : trim (' ' :: (fl.link.toList ++ ['\n'])) = fl.link.toList := by
    rw [show (' ' :: (fl.link.toList ++ ['\n'])) = [' '] ++ fl.link.toList ++ ['\n'] from by simp]
    exact trim_wrap _ _ _ (by decide) (by decide) h3
  rw [hlink]
  rfl

/-! ## Round-trip (C1): assembling the document parser -/

theorem relLines_flatten : ∀ (rs : List Release) (r0 : Release) (fin : List Str),
    (relLines (r0 :: rs) fin).flatten =
      (relCoreLines r0).flatten ++
        ((rs.map (fun r => '\n' :: (relCoreLines r).flatten)).flatten ++ fin.flatten) := by
  intro rs
  induction rs with
  | nil =>
    intro r0 fin
    rw [show relLines [r0] fin = relCoreLines r0 ++ fin from rfl, List.flatten_append]
    simp
  | cons r1 rs2 ih =>
    intro r0 fin
    rw [show relLines (r0 :: r1 :: rs2) fin =
      relCoreLines r0 ++ nlLine :: relLines (r1 :: rs2) fin from rfl]
    rw [List.flatten_append, List.flatten_cons, ih r1 fin]
    simp [nlLine, List.append_assoc]

theorem relLines_cons_shape (r0 : Release) (rs : List Release) (fin : List Str) :
    ∃ T, relLines (r0 :: rs) fin = headingLine r0 :: T := by
  cases rs with
  | nil => exact ⟨_, rfl⟩
  | cons r1 rs2 => exact ⟨_, rfl⟩

theorem footLinkLine_shape (fl : FootLink) (h : goodFootLink fl = true) :
    ∃ b, footLinkLine fl = b ++ ['\n'] ∧ '\n' ∉ b := by
  obtain ⟨h1, h2, h3, h4, h5⟩ := goodFootLink_parts fl h
  rw [footLinkLine_decomp]
  refine ⟨'[' :: (fl.text.toList ++ ']' :: ':' :: ' ' :: fl.link.toList), by simp, ?_⟩
  intro hm
  rcases List.mem_cons.mp hm with heq | hm2
  · exact absurd heq.symm (by decide)
  rcases List.mem_append.mp hm2 with h6 | h6
  · exact absurd rfl (h2 _ h6).2.2
  rcases List.mem_cons.mp h6 with heq | h7
  · exact absurd heq.symm (by decide)
  rcases List.mem_cons.mp h7 with heq | h8
  · exact absurd heq.symm (by decide)
  rcases List.mem_cons.mp h8 with heq | h9
  · exact absurd heq.symm (by decide)
  · exact absurd h9 (not_mem_of_noNl _ h4)

theorem optOfTrim_headerChunk (h : String) (ht : isTrimmedNE h = true) :
    optOfTrim ((h.toList ++ ['\n']) ++ ['\n']) = some h := by
  unfold optOfTrim
  rw [isTrimmedNE, Bool.and_eq_true] at ht
  rw [List.append_assoc, trim_append_ws _ _ (by decide), (by simpa using ht.1 :
    trim h.toList = h.toList)]
  have hne : ¬(h.toList = []) := by
    intro hz
    have h2 := ht.2
    rw [hz] at h2
    simp at h2
  rw [if_neg hne]
  rfl

theorem goodChangeLog_parts (d : ChangeLog) (h : goodChangeLog d = true) :
    (∃ r0 rs, d.releases = r0 :: rs ∧ r0.title.version = "Unreleased") ∧
    ((d.releases.map (fun r => r.title.version)).Nodup) ∧
    d.releases.all goodRelease = true ∧
    d.footer_links.links.all goodFootLink = true := by
  unfold goodChangeLog at h
  simp only [Bool.and_eq_true] at h
  obtain ⟨⟨⟨⟨h1, h2⟩, h3⟩, h4⟩, h5⟩ := h
  refine ⟨?_, by simpa using h2, h3, h5⟩
  cases hr : d.releases with
  | nil => rw [hr] at h1; simp at h1
  | cons r0 rs =>
    rw [hr] at h1
    refine ⟨r0, rs, rfl, ?_⟩
    simpa using h1

theorem goodChangeLog_header_some (d : ChangeLog) (hd : String)
    (h : goodChangeLog d = true) (hh : d.header = some hd) :
    isTrimmedNE hd = true ∧
    containsSubstr (hd.toList ++ ['\n']) unreleasedMarker = false := by
  unfold goodChangeLog at h
  rw [hh] at h
  simp only [Bool.and_eq_true] at h
  exact ⟨h.1.2.1, by simpa using h.1.2.2⟩

theorem parse_serialize (d : ChangeLog) (hg : goodChangeLog d = true) :
    parse_document (serialize_changelog d ChangeLogSerOption.default).toList = .ok d := by
  obtain ⟨⟨r0, rs, hrel, hver⟩, hnodup, hgrall, hglinks⟩ := goodChangeLog_parts d hg
  have hfoot : ∀ r ∈ d.releases, r.footer = none := fun r hr =>
    (goodRelease_parts r (List.all_eq_true.mp hgrall r hr)).2.2.2.2.1
  obtain ⟨fin, hfinsh, hflat⟩ : ∃ fin : List Str, (fin = [] ∨ fin = [nlLine]) ∧
      fin.flatten = (if d.footer_links.links.isEmpty then ([] : Str) else ['\n']) := by
    by_cases he : d.footer_links.links.isEmpty
    · exact ⟨[], Or.inl rfl, by rw [if_pos he]; rfl⟩
    · exact ⟨[nlLine], Or.inr rfl, by rw [if_neg he]; rfl⟩
  have hser := serialize_changelog_toList d hfoot
  have htext : (serialize_changelog d ChangeLogSerOption.default).toList =
      (headerChunk d ++ ['\n']) ++
        ((relLines d.releases fin).flatten ++
          (d.footer_links.links.map footLinkLine).flatten) := by
    rw [hser, hrel, List.map_cons, List.flatten_cons, relLines_flatten rs r0 fin, ← hflat]
    simp [List.append_assoc]
  have hnc : containsSubstr (headerChunk d ++ ['\n']) unreleasedMarker = false := by
    cases hh : d.header with
    | none =>
      rw [show headerChunk d = [] from by unfold headerChunk; rw [hh]]
      decide
    | some hd =>
      obtain ⟨hh1, hh2⟩ := goodChangeLog_header_some d hd hg hh
      rw [show headerChunk d = hd.toList ++ ['\n'] from by unfold headerChunk; rw [hh]]
      exact contains_append_nl _ _ (by decide) (by decide)
        (by rw [List.getLast?_append]; rfl) hh2
  have hpre : unreleasedMarker.isPrefixOf
      ((relLines d.releases fin).flatten ++
        (d.footer_links.links.map footLinkLine).flatten) = true := by
    rw [hrel]
    obtain ⟨T, hT⟩ := relLines_cons_shape r0 rs fin
    rw [hT, List.flatten_cons, List.append_assoc]
    exact isPrefixOf_append_right _ _ _ (marker_prefix_headingLine r0 hver)
  have hfind := findSubstr_marker_pos (headerChunk d ++ ['\n']) _ (headerChunk d) rfl hnc hpre
  rw [htext]
  unfold parse_document
  rw [hfind]
  dsimp only []
  rw [List.take_left, List.drop_left]
  have hhdr : optOfTrim (headerChunk d ++ ['\n']) = d.header := by
    cases hh : d.header with
    | none =>
      rw [show headerChunk d = [] from by unfold headerChunk; rw [hh], List.nil_append]
      rfl
    | some hd =>
      obtain ⟨hh1, -⟩ := goodChangeLog_header_some d hd hg hh
      rw [show headerChunk d = hd.toList ++ ['\n'] from by unfold headerChunk; rw [hh]]
      exact optOfTrim_headerChunk hd hh1
  rw [hhdr]
  have hsplit : splitInclusive ((relLines d.releases fin).flatten ++
      (d.footer_links.links.map footLinkLine).flatten) =
      relLines d.releases fin ++ d.footer_links.links.map footLinkLine := by
    rw [← List.flatten_append]
    apply resplit
    apply WfChunks_of_forall
    intro c hc
    rcases List.mem_append.mp hc with h1 | h1
    · exact (relLines_all d.releases fin hgrall hfinsh c h1).1
    · obtain ⟨fl, hfl, rfl⟩ := List.mem_map.mp h1
      exact footLinkLine_shape fl (List.all_eq_true.mp hglinks fl hfl)
  rw [hsplit]
  rw [List.reverse_append]
  have hYall : ∀ c ∈ (d.footer_links.links.map footLinkLine).reverse, footerMatch c = true := by
    intro c hc
    rw [List.mem_reverse] at hc
    obtain ⟨fl, hfl, rfl⟩ := List.mem_map.mp hc
    exact (goodFootLink_parts fl (List.all_eq_true.mp hglinks fl hfl)).2.2.2.2
  have hXfalse : ∀ c ∈ (relLines d.releases fin).reverse, footerMatch c = false := by
    intro c hc
    rw [List.mem_reverse] at hc
    exact (relLines_all d.releases fin hgrall hfinsh c hc).2
  rw [takeWhile_append_all _ _ _ hYall, takeWhile_all_false _ _ hXfalse, List.append_nil]
  rw [dropWhile_append_all2 _ _ _ hYall, dropWhile_all_false _ _ hXfalse]
  rw [List.reverse_reverse, List.reverse_reverse]
  have hmaps : (d.footer_links.links.map footLinkLine).map extractFootLinkSpec =
      d.footer_links.links := by
    rw [List.map_map]
    have hcongr : d.footer_links.links.map (extractFootLinkSpec ∘ footLinkLine) =
        d.footer_links.links.map id :=
      List.map_congr_left (fun fl hfl =>
        extractFootLinkSpec_roundtrip fl (List.all_eq_true.mp hglinks fl hfl))
    rw [hcongr, List.map_id]
  rw [hmaps]
  have hloop := docReleasesLoop_all d.releases fin [] ((relLines d.releases fin).length + 1)
    (by omega) hgrall hfinsh (by simpa using hnodup)
  rw [hloop]
  rfl

/-- C1: round-trip — for every well-formed changelog text (§8: the canonical
serialization of a structurally valid document, which necessarily contains
the `## [Unreleased]` marker), parsing with the default empty `sectionOrder`
succeeds and yields a document whose serialization is the original text:
all release headings, section titles, section body content and footer links
are reproduced exactly. -/
theorem round_trip_spec (t : String) (h : WellFormedText t) :
    ∃ doc, parse_document t.toList = .ok doc ∧
      serialize_changelog doc ChangeLogSerOption.default = t := by
  obtain ⟨d, hgd, rfl⟩ := h
  exact ⟨d, parse_serialize d hgd, rfl⟩

theorem round_trip_spec_witness :
    ∃ doc,
      parse_document
        (serialize_changelog exampleChangeLog ChangeLogSerOption.default).toList = .ok doc ∧
      serialize_changelog doc ChangeLogSerOption.default =
        serialize_changelog exampleChangeLog ChangeLogSerOption.default :=
  round_trip_spec _ ⟨exampleChangeLog, by decide, rfl⟩
